import Mathlib

/-!
# Grid synthesis of Z-rotations (staq): regions and approximation drivers

A shallow embedding of `staq/grid_synth/regions.hpp` and
`staq/grid_synth/rz_approximation.hpp`, and of the gate labels of
`tweedledum/io/dotqc.hpp`.

* The scalar type `real_t` (a GMP float) is idealised as a linearly ordered
  field `K`; every definition is computable and can be run at `K = ℚ`.
  Division is the total division of the field; the truncation `int_t(x)` is
  taken in a field with a floor function.
* The process-wide constants and the transcendental functions of
  `gmp_functions.hpp` / `constants.hpp` are gathered in `Numeric`.
* The pieces of the repository the drivers call but which live in other
  headers (ring predicates, the skew optimiser, the grid solvers, the
  Diophantine solver) are gathered in `Oracles`.
* `exit(EXIT_FAILURE)` in the `Interval` constructor and the exhaustion of the
  fuel given to the reduction loop are the two values of `Fault`.
-/

namespace GridSynth

/-! ## Numeric context -/

/-- The process-wide numeric context: the constants that `main` initialises
(`TOL`, `PI`, `SQRT2`, `INV_SQRT2`, `LOG_LAMBDA`) and the real functions the
headers use (`sqrt`, `gmpf::cos`, `gmpf::sin`, `gmpf::log10`).  `cos_double` and
`sin_double` stand for `std::cos(theta.get_d())` and `std::sin(theta.get_d())`,
the double-precision evaluation used by `find_rz_approximation`. -/
structure Numeric (K : Type) where
  TOL : K
  PI : K
  SQRT2 : K
  INV_SQRT2 : K
  LOG_LAMBDA : K
  sqrt : K → K
  cos : K → K
  sin : K → K
  log10 : K → K
  cos_double : K → K
  sin_double : K → K

/-- The value `N.sqrt x` is the non-negative square root of `x`. -/
def Numeric.IsSqrtAt {K : Type} [LinearOrderedField K] (N : Numeric K) (x : K) : Prop :=
  0 ≤ N.sqrt x ∧ N.sqrt x * N.sqrt x = x

/-- The two ways a run can stop without a value: the process exit of the
`Interval` constructor, and a reduction loop that outlives its fuel. -/
inductive Fault where
  | exit_failure
  | out_of_fuel
  deriving DecidableEq, Repr

/-- `vec_t`: a vector of two scalars. -/
structure Vec2 (K : Type) where
  x : K
  y : K

/-- `mat_t`: a 2×2 matrix of scalars, `mij` being the entry `(i, j)`. -/
structure Mat2 (K : Type) where
  m00 : K
  m01 : K
  m10 : K
  m11 : K

/-- `cplx_t`: a complex number given by its real and imaginary parts. -/
structure Cplx (K : Type) where
  re : K
  im : K

section Regions

variable {K : Type} [LinearOrderedField K]

/-- `mat_t::determinant()`. -/
def Mat2.determinant (M : Mat2 K) : K := M.m00 * M.m11 - M.m01 * M.m10

/-- `mat_t::trace()`. -/
def Mat2.trace (M : Mat2 K) : K := M.m00 + M.m11

/-- Scalar multiple `s * M` of a matrix. -/
def Mat2.smul (s : K) (M : Mat2 K) : Mat2 K :=
  ⟨s * M.m00, s * M.m01, s * M.m10, s * M.m11⟩

/-- Scalar multiple `s * v` of a vector. -/
def Vec2.smul (s : K) (v : Vec2 K) : Vec2 K := ⟨s * v.x, s * v.y⟩

/-- Difference `v - w` of two vectors. -/
def Vec2.sub (v w : Vec2 K) : Vec2 K := ⟨v.x - w.x, v.y - w.y⟩

/-- The product `vᵀ M v` of a row vector, a matrix and a column vector. -/
def Mat2.quad (M : Mat2 K) (v : Vec2 K) : K :=
  v.x * (M.m00 * v.x + M.m01 * v.y) + v.y * (M.m10 * v.x + M.m11 * v.y)

/-! ## Interval -/

/-- `Interval<bound_t>`: the private members `lo_`, `hi_`, `width_`. -/
structure Interval (K : Type) where
  lo : K
  hi : K
  width : K

/-- The constructor `Interval(lo, hi)`: it stores `lo`, `hi` and `hi - lo`, and
exits the process when `lo > hi`. -/
def Interval.make (lo hi : K) : Except Fault (Interval K) :=
  if lo > hi then .error .exit_failure else .ok ⟨lo, hi, hi - lo⟩

/-- `Interval::fatten(d)`. -/
def Interval.fatten (I : Interval K) (d : K) : Except Fault (Interval K) :=
  Interval.make (I.lo - d) (I.hi + d)

/-- `Interval::rescale(scale_factor)`. -/
def Interval.rescale (I : Interval K) (scale_factor : K) : Interval K :=
  let oldlo := I.lo
  let oldhi := I.hi
  if scale_factor < 0 then
    let lo := oldhi * scale_factor
    let hi := oldlo * scale_factor
    ⟨lo, hi, hi - lo⟩
  else
    let lo := oldlo * scale_factor
    let hi := oldhi * scale_factor
    ⟨lo, hi, hi - lo⟩

/-- `Interval::shift(shift_factor)`: the stored width is not touched. -/
def Interval.shift (I : Interval K) (shift_factor : K) : Interval K :=
  ⟨I.lo + shift_factor, I.hi + shift_factor, I.width⟩

/-- `Interval::contains(x, tol)`. -/
def Interval.contains (I : Interval K) (x tol : K) : Bool :=
  decide ((I.hi - x) * (x - I.lo) > 0) || decide (|(I.hi - x) * (x - I.lo)| < tol)

/-- `Interval::operator+(shift_factor)`. -/
def Interval.add (I : Interval K) (shift_factor : K) : Except Fault (Interval K) :=
  Interval.make (I.lo + shift_factor) (I.hi + shift_factor)

/-- `Interval::operator-(shift_factor)`. -/
def Interval.sub (I : Interval K) (shift_factor : K) : Except Fault (Interval K) :=
  Interval.make (I.lo - shift_factor) (I.hi - shift_factor)

/-! ## UprightRectangle -/

/-- `UprightRectangle<bound_t>`: the members `x_interval_`, `y_interval_`,
`area_`. -/
structure UprightRectangle (K : Type) where
  x_interval : Interval K
  y_interval : Interval K
  area : K

/-- The constructor `UprightRectangle(x_interval, y_interval)`. -/
def UprightRectangle.ofIntervals (x_interval y_interval : Interval K) :
    UprightRectangle K :=
  ⟨x_interval, y_interval, x_interval.width * y_interval.width⟩

/-- The constructor `UprightRectangle(xlo, xhi, ylo, yhi)`. -/
def UprightRectangle.make (xlo xhi ylo yhi : K) : Except Fault (UprightRectangle K) := do
  let x_interval ← Interval.make xlo xhi
  let y_interval ← Interval.make ylo yhi
  pure ⟨x_interval, y_interval, x_interval.width * y_interval.width⟩

/-- `UprightRectangle::rescale(x_scale_factor, y_scale_factor)`: the stored area
is not touched. -/
def UprightRectangle.rescale (R : UprightRectangle K) (x_scale_factor y_scale_factor : K) :
    UprightRectangle K :=
  ⟨R.x_interval.rescale x_scale_factor, R.y_interval.rescale y_scale_factor, R.area⟩

/-- `UprightRectangle::shift(x_shift_factor, y_shift_factor)`. -/
def UprightRectangle.shift (R : UprightRectangle K) (x_shift_factor y_shift_factor : K) :
    UprightRectangle K :=
  ⟨R.x_interval.shift x_shift_factor, R.y_interval.shift y_shift_factor, R.area⟩

/-! ## Ellipse -/

/-- `Ellipse`: the members `center_`, `D_`, `semi_major_axis_`,
`semi_minor_axis_`, `angle_`, `z_`, `e_`. -/
structure Ellipse (K : Type) where
  center : Vec2 K
  D : Mat2 K
  semi_major_axis : K
  semi_minor_axis : K
  angle : K
  z : K
  e : K

/-- `Ellipse::get_z_and_e_()`: recomputes `z_` and `e_` from the diagonal of
`D_`. -/
def Ellipse.get_z_and_e_ (N : Numeric K) (E : Ellipse K) : Ellipse K :=
  { E with
    z := ((1 / 2) * N.log10 (E.D.m11 / E.D.m00)) / N.LOG_LAMBDA
    e := N.sqrt (E.D.m11 * E.D.m00) }

/-- `Ellipse::get_mat_from_axes_(semi_major_axis, semi_minor_axis, angle)`. -/
def Ellipse.get_mat_from_axes_ (N : Numeric K) (semi_major_axis semi_minor_axis angle : K) :
    Mat2 K :=
  let ct := N.cos angle
  let st := N.sin angle
  let inva := 1 / semi_minor_axis
  let invb := 1 / semi_major_axis
  ⟨ct * ct * inva * inva + st * st * invb * invb,
   ct * st * (inva * inva - invb * invb),
   ct * st * (inva * inva - invb * invb),
   st * st * inva * inva + ct * ct * invb * invb⟩

/-- The constructor `Ellipse(x0, y0, semi_major_axis, semi_minor_axis, angle)`. -/
def Ellipse.ofAxes (N : Numeric K) (x0 y0 semi_major_axis semi_minor_axis angle : K) :
    Ellipse K :=
  Ellipse.get_z_and_e_ N
    { center := ⟨x0, y0⟩
      D := Ellipse.get_mat_from_axes_ N semi_major_axis semi_minor_axis angle
      semi_major_axis := semi_major_axis
      semi_minor_axis := semi_minor_axis
      angle := angle
      z := 0
      e := 0 }

/-- The constructor `Ellipse(angle, eps)`: the bounding ellipse of the
epsilon-region at angle `angle`. -/
def Ellipse.ofAngle (N : Numeric K) (angle eps : K) : Ellipse K :=
  let r0 := (3 - eps * eps) / 3
  let semi_major_axis := 2 / N.sqrt 3 * eps * N.sqrt (1 - (eps * eps / 4))
  let semi_minor_axis := eps * eps / 3
  Ellipse.get_z_and_e_ N
    { center := ⟨r0 * N.cos angle, r0 * N.sin angle⟩
      D := Ellipse.get_mat_from_axes_ N semi_major_axis semi_minor_axis angle
      semi_major_axis := semi_major_axis
      semi_minor_axis := semi_minor_axis
      angle := angle
      z := 0
      e := 0 }

/-- `Ellipse::determinant()`. -/
def Ellipse.determinant (E : Ellipse K) : K := E.D.determinant

/-- `Ellipse::rescale(scale)`. -/
def Ellipse.rescale (N : Numeric K) (E : Ellipse K) (scale : K) : Ellipse K :=
  Ellipse.get_z_and_e_ N
    { E with
      D := Mat2.smul (1 / (scale * scale)) E.D
      semi_minor_axis := E.semi_minor_axis * |scale|
      semi_major_axis := E.semi_major_axis * |scale|
      center := Vec2.smul scale E.center }

/-- The value `(point - center_)ᵀ D_ (point - center_)` that
`Ellipse::contains` compares with one. -/
def Ellipse.quad_form (E : Ellipse K) (point : Vec2 K) : K :=
  E.D.quad (point.sub E.center)

/-- `Ellipse::contains(point, tol)`. -/
def Ellipse.contains (E : Ellipse K) (point : Vec2 K) (tol : K) : Bool :=
  let x := E.quad_form point
  decide (x < 1) || decide (|x - 1| < tol)

/-- `Ellipse::bounding_box()`. -/
def Ellipse.bounding_box (N : Numeric K) (E : Ellipse K) : Except Fault (UprightRectangle K) :=
  let X_val := N.sqrt (E.D.m11 / E.D.determinant)
  let Y_val := N.sqrt (E.D.m00 / E.D.determinant)
  UprightRectangle.make (E.center.x - X_val) (E.center.x + X_val)
    (E.center.y - Y_val) (E.center.y + Y_val)

/-- The invariant `lo ≤ hi` of an interval. -/
def Interval.Valid (I : Interval K) : Prop := I.lo ≤ I.hi

/-- Both intervals of a rectangle satisfy `lo ≤ hi`. -/
def UprightRectangle.Valid (R : UprightRectangle K) : Prop :=
  R.x_interval.Valid ∧ R.y_interval.Valid

end Regions

/-! ## Rings and matrices -/

/-- Modelled from the spec: the ring `ZSqrt2` of `rings.hpp`, which is not among
the sources; coefficients `(a, b)` representing `a + b√2`. -/
@[ext]
structure ZSqrt2 where
  a : Int
  b : Int
  deriving DecidableEq, Repr

/-- Modelled from the spec: the ring `ZOmega` of `rings.hpp`, which is not among
the sources; coefficients `(a, b, c, d)` representing `a + bζ + cζ² + dζ³` for a
primitive eighth root of unity `ζ` (so `ζ⁴ = -1`). -/
@[ext]
structure ZOmega where
  a : Int
  b : Int
  c : Int
  d : Int
  deriving DecidableEq, Repr

/-- Modelled from the spec: the constructor `ZSqrt2(a, b)` followed by the ring
subtraction of `rings.hpp`, exact and coefficient-wise. -/
def ZSqrt2.sub (x y : ZSqrt2) : ZSqrt2 := ⟨x.a - y.a, x.b - y.b⟩

instance : Sub ZSqrt2 := ⟨ZSqrt2.sub⟩

/-- Modelled from the spec: the constructor `ZOmega(n)` of `rings.hpp` from one
integer, the ring element `n`. -/
def ZOmega.ofInt (n : Int) : ZOmega := ⟨n, 0, 0, 0⟩

/-- Modelled from the spec: exact addition in ring A (`rings.hpp`). -/
def ZOmega.add (x y : ZOmega) : ZOmega := ⟨x.a + y.a, x.b + y.b, x.c + y.c, x.d + y.d⟩

/-- Modelled from the spec: exact multiplication in ring A (`rings.hpp`), the
product of the two polynomials in `ζ` reduced by `ζ⁴ = -1`. -/
def ZOmega.mul (x y : ZOmega) : ZOmega :=
  ⟨x.a * y.a - x.b * y.d - x.c * y.c - x.d * y.b,
   x.a * y.b + x.b * y.a - x.c * y.d - x.d * y.c,
   x.a * y.c + x.b * y.b + x.c * y.a - x.d * y.d,
   x.a * y.d + x.b * y.c + x.c * y.b + x.d * y.a⟩

instance : Add ZOmega := ⟨ZOmega.add⟩

instance : Mul ZOmega := ⟨ZOmega.mul⟩

/-- Modelled from the spec: `ZOmega::conj()` of `rings.hpp`, complex conjugation,
which sends `ζ` to `ζ⁻¹ = -ζ³`. -/
def ZOmega.conj (x : ZOmega) : ZOmega := ⟨x.a, -x.d, -x.c, -x.b⟩

/-- Modelled from the spec: `ZOmega::to_zsqrt2()` of `rings.hpp`, the conversion
of a real element `a + b(ζ - ζ³) = a + b√2` of ring A to ring B. -/
def ZOmega.to_zsqrt2 (x : ZOmega) : ZSqrt2 := ⟨x.a, x.b⟩

/-- Modelled from the spec: the embedding of ring B in ring A, `√2 = ζ - ζ³`. -/
def ZSqrt2.toZOmega (x : ZSqrt2) : ZOmega := ⟨x.a, x.b, 0, -x.b⟩

/-- Modelled from the spec: the constructor `ZOmega(alpha, beta, add_omega)` of
`rings.hpp`, the element `alpha + i beta` of ring A, offset by `ζ` (the
half-integer coset) when `add_omega` is set; `i = ζ²` and `i√2 = ζ + ζ³`. -/
def ZOmega.ofZSqrt2Pair (alpha beta : ZSqrt2) (add_omega : Bool) : ZOmega :=
  ⟨alpha.a, alpha.b + beta.b + (if add_omega then 1 else 0), beta.a, beta.b - alpha.b⟩

/-- `DOmegaMatrix(u, t, k, l)` of `matrix.hpp`: the record of a unitary with
entries `u / √2^k` and `t / √2^k`. -/
structure DOmegaMatrix where
  u : ZOmega
  t : ZOmega
  k : Int
  l : Int
  deriving DecidableEq, Repr

section Drivers

variable {K : Type} [LinearOrderedField K]

/-- Modelled from the spec: `ZOmega::real()` of `rings.hpp`, the real part of
the decimal embedding, with `ζ = (1 + i)/√2`. -/
def ZOmega.real (N : Numeric K) (x : ZOmega) : K :=
  (x.a : K) + ((x.b : K) - (x.d : K)) * N.INV_SQRT2

/-- Modelled from the spec: `ZOmega::imag()` of `rings.hpp`, the imaginary part
of the decimal embedding, with `ζ = (1 + i)/√2`. -/
def ZOmega.imag (N : Numeric K) (x : ZOmega) : K :=
  (x.c : K) + ((x.b : K) + (x.d : K)) * N.INV_SQRT2

/-- Modelled from the spec: `gmpf::pow(base, exponent)` of `gmp_functions.hpp`,
which is not among the sources: the power of a scalar by an integer. -/
def gmpf_pow (base : K) (exponent : Int) : K := base ^ exponent

/-- The conversion `int_t(x)` of a GMP float to a GMP integer: truncation
towards zero. -/
def to_int_t [FloorRing K] (x : K) : Int := if 0 ≤ x then ⌊x⌋ else ⌈x⌉

/-- `cplx_t::conj()`. -/
def Cplx.conj (w : Cplx K) : Cplx K := ⟨w.re, -w.im⟩

/-- Difference of two complex numbers. -/
def Cplx.sub (w v : Cplx K) : Cplx K := ⟨w.re - v.re, w.im - v.im⟩

/-- Product of two complex numbers. -/
def Cplx.mul (w v : Cplx K) : Cplx K := ⟨w.re * v.re - w.im * v.im, w.re * v.im + w.im * v.re⟩

/-- The state of the global generator `random_numbers` that `main` seeds with
`time(NULL)` before the search. -/
abbrev RandomState := Nat

/-- The functions of the repository that the drivers call and that live in
headers outside the sources: `ZOmega::is_reducible` and `ZOmega::reduce`
(`rings.hpp`), `optimize_skew` and the action `G * candidate` of the operator it
returns (`grid_operators.hpp`; the operator is given by its action, and the
state is returned because it is passed by reference),
`twoD_grid_solver_ellipse_fatten` and `oneD_optimal_grid_solver`
(`grid_solvers.hpp`), and `diophantine_solver` (`diophantine_solver.hpp`), which
returns the answer on success and has the global generator at its disposal. -/
structure Oracles (K : Type) where
  is_reducible : ZOmega → Bool
  reduce : ZOmega → ZOmega
  optimize_skew : Ellipse K × Ellipse K → (ZOmega → ZOmega) × (Ellipse K × Ellipse K)
  twoD_grid_solver_ellipse_fatten : Ellipse K × Ellipse K → K → K → List ZOmega
  oneD_optimal_grid_solver : Interval K → Interval K → K → List ZSqrt2
  diophantine_solver : RandomState → ZSqrt2 → Option ZOmega × RandomState

/-! ## RzApproximation -/

/-- `RzApproximation`: the members `matrix_`, `eps_`, `solution_found_`,
`u_val_`, `t_val_`, `z_`. -/
structure RzApproximation (K : Type) where
  matrix : DOmegaMatrix
  eps : K
  solution_found : Bool
  u_val : Cplx K
  t_val : Cplx K
  z : Cplx K

/-- The default constructor `RzApproximation()`: the record of "no solution". -/
def RzApproximation.empty : RzApproximation K :=
  { matrix := ⟨ZOmega.ofInt 0, ZOmega.ofInt 0, 0, 0⟩
    eps := 0
    solution_found := false
    u_val := ⟨0, 0⟩
    t_val := ⟨0, 0⟩
    z := ⟨0, 0⟩ }

/-- The constructor `RzApproximation(u, t, scale_exponent, theta, eps)`. -/
def RzApproximation.make (N : Numeric K) (u t : ZOmega) (scale_exponent : Int)
    (theta eps : K) : RzApproximation K :=
  { matrix := ⟨u, t, scale_exponent, 0⟩
    eps := eps
    solution_found := true
    u_val := ⟨u.real N / gmpf_pow N.SQRT2 scale_exponent,
              u.imag N / gmpf_pow N.SQRT2 scale_exponent⟩
    t_val := ⟨t.real N / gmpf_pow N.SQRT2 scale_exponent,
              t.imag N / gmpf_pow N.SQRT2 scale_exponent⟩
    z := ⟨N.cos theta, N.sin theta⟩ }

/-- `RzApproximation::u()`. -/
def RzApproximation.u (r : RzApproximation K) : ZOmega := r.matrix.u

/-- `RzApproximation::t()`. -/
def RzApproximation.t (r : RzApproximation K) : ZOmega := r.matrix.t

/-- `RzApproximation::scale_exponent()`. -/
def RzApproximation.scale_exponent (r : RzApproximation K) : Int := r.matrix.k

/-- The argument of the square root in `RzApproximation::error()`. -/
def RzApproximation.error_sq (r : RzApproximation K) : K :=
  (((r.u_val.sub r.z).conj).mul (r.u_val.sub r.z)).re + ((r.t_val.conj).mul r.t_val).re

/-- `RzApproximation::error()`. -/
def RzApproximation.error (N : Numeric K) (r : RzApproximation K) : K :=
  N.sqrt r.error_sq

/-! ## The drivers -/

/-- The two scale factors `scaleA`, `scaleB` that both drivers compute at the
head of iteration `k`; `%` and `/` on `int_t` truncate. -/
def scale_factors (N : Numeric K) (k : Int) : K × K :=
  if Int.tmod k 2 = 0 then
    (gmpf_pow 2 (Int.tdiv k 2), gmpf_pow 2 (Int.tdiv k 2))
  else
    (gmpf_pow 2 (Int.tdiv (k - 1) 2) * N.SQRT2, -gmpf_pow 2 (Int.tdiv (k - 1) 2) * N.SQRT2)

/-- The acceptance test of a candidate: its projection on the target vector
`z`, after division by `scaleA`, exceeds `1 - eps²/2`. -/
def accepts (N : Numeric K) (z : Vec2 K) (eps scaleA : K) (candidate : ZOmega) : Bool :=
  decide ((candidate.real N / scaleA) * z.x + (candidate.imag N / scaleA) * z.y >
    1 - (eps * eps / 2))

/-- The loop `while (candidate.is_reducible()) { temp_k -= 1; candidate =
candidate.reduce(); }`, run for at most `fuel` reductions. -/
def reduce_loop (O : Oracles K) : Nat → ZOmega → Int → Except Fault (ZOmega × Int)
  | 0, candidate, temp_k =>
    if O.is_reducible candidate then .error .out_of_fuel else .ok (candidate, temp_k)
  | fuel + 1, candidate, temp_k =>
    if O.is_reducible candidate then reduce_loop O fuel (O.reduce candidate) (temp_k - 1)
    else .ok (candidate, temp_k)

/-- The value `xi = ZSqrt2(int_t(gmpf::pow(2, temp_k)), 0) -
(candidate.conj() * candidate).to_zsqrt2()` handed to the Diophantine solver. -/
def xi_of (candidate : ZOmega) (temp_k : Int) : ZSqrt2 :=
  (⟨to_int_t (gmpf_pow (2 : ℚ) temp_k), 0⟩ : ZSqrt2) - (candidate.conj * candidate).to_zsqrt2

/-- The body that both drivers run on a candidate (it appears once in
`find_rz_approximation` and twice in `find_fast_rz_approximation`): acceptance
test, reduction loop, Diophantine completion.  The result is the record to
return, if any, and the state of the generator after the solver call. -/
def try_candidate (N : Numeric K) (O : Oracles K) (fuel : Nat) (z : Vec2 K)
    (theta eps scaleA : K) (k : Int) (g : RandomState) (candidate : ZOmega) :
    Except Fault (Option (RzApproximation K) × RandomState) :=
  if accepts N z eps scaleA candidate then
    match reduce_loop O fuel candidate k with
    | .error f => .error f
    | .ok (reduced, temp_k) =>
      match O.diophantine_solver g (xi_of reduced temp_k) with
      | (some answer, g1) => .ok (some (RzApproximation.make N reduced answer temp_k theta eps), g1)
      | (none, g1) => .ok (none, g1)
  else .ok (none, g)

/-- A `for` loop over candidates that returns from the driver at the first
completed candidate. -/
def try_candidates (N : Numeric K) (O : Oracles K) (fuel : Nat) (z : Vec2 K)
    (theta eps scaleA : K) (k : Int) :
    RandomState → List ZOmega → Except Fault (Option (RzApproximation K) × RandomState)
  | g, [] => .ok (none, g)
  | g, candidate :: rest =>
    match try_candidate N O fuel z theta eps scaleA k g candidate with
    | .error f => .error f
    | .ok (some r, g1) => .ok (some r, g1)
    | .ok (none, g1) => try_candidates N O fuel z theta eps scaleA k g1 rest

/-- The `while` loop of `find_rz_approximation`.  The counter bounds the number
of iterations; the driver starts it at `max_k - k`. -/
def rz_loop (N : Numeric K) (O : Oracles K) (fuel : Nat) (G : ZOmega → ZOmega) (z : Vec2 K)
    (theta eps tol : K) (max_k : Int) :
    Nat → Int → Ellipse K × Ellipse K → RandomState → Except Fault (RzApproximation K)
  | 0, k, _, _ => if k < max_k then .error .out_of_fuel else .ok RzApproximation.empty
  | n + 1, k, state, g =>
    if k < max_k then
      let scaleA := (scale_factors N k).1
      let scaleB := (scale_factors N k).2
      let state0 := state.1.rescale N scaleA
      let state1 := state.2.rescale N scaleB
      let scaled_candidates := O.twoD_grid_solver_ellipse_fatten (state0, state1) eps tol
      match try_candidates N O fuel z theta eps scaleA k g (scaled_candidates.map G) with
      | .error f => .error f
      | .ok (some r, _) => .ok r
      | .ok (none, g1) =>
        rz_loop N O fuel G z theta eps tol max_k n (k + 1)
          (state0.rescale N (1 / scaleA), state1.rescale N (1 / scaleB)) g1
    else .ok RzApproximation.empty

/-- `find_rz_approximation(theta, eps, tol)`, started with the generator in
state `g`. -/
def find_rz_approximation (N : Numeric K) (O : Oracles K) (fuel : Nat) (g : RandomState)
    (theta eps tol : K) : Except Fault (RzApproximation K) :=
  if |theta| < N.TOL then
    .ok (RzApproximation.make N (ZOmega.ofInt 1) (ZOmega.ofInt 0) 0 theta eps)
  else
    let k : Int := 0
    let max_k : Int := 1000
    let z : Vec2 K := ⟨N.cos_double theta, N.sin_double theta⟩
    let eps_region := Ellipse.ofAngle N theta eps
    let disk := Ellipse.ofAxes N 0 0 1 1 0
    let Gstate := O.optimize_skew (eps_region, disk)
    rz_loop N O fuel Gstate.1 z theta eps tol max_k (max_k - k).toNat k Gstate.2 g

/-- The candidates `G * ZOmega(alpha_soln, beta_soln, add_omega)` of the two
nested `for` loops of `find_fast_rz_approximation`, in the order of the
loops. -/
def fast_candidates (G : ZOmega → ZOmega) (alpha_solns beta_solns : List ZSqrt2)
    (add_omega : Bool) : List ZOmega :=
  alpha_solns.flatMap fun alpha_soln =>
    beta_solns.map fun beta_soln => G (ZOmega.ofZSqrt2Pair alpha_soln beta_soln add_omega)

/-- The four fattened intervals `A_x`, `B_x`, `A_y`, `B_y` of an iteration. -/
def fattened_intervals (bboxA bboxB : UprightRectangle K) (eps : K) :
    Except Fault (Interval K × Interval K × Interval K × Interval K) := do
  let A_x ← bboxA.x_interval.fatten eps
  let B_x ← bboxB.x_interval.fatten eps
  let A_y ← bboxA.y_interval.fatten eps
  let B_y ← bboxB.y_interval.fatten eps
  pure (A_x, B_x, A_y, B_y)

/-- The four shifted intervals `A_x - INV_SQRT2`, `B_x + INV_SQRT2`,
`A_y - INV_SQRT2`, `B_y + INV_SQRT2` of the second pass of an iteration. -/
def shifted_intervals (N : Numeric K) (A_x B_x A_y B_y : Interval K) :
    Except Fault (Interval K × Interval K × Interval K × Interval K) := do
  let sA_x ← A_x.sub N.INV_SQRT2
  let sB_x ← B_x.add N.INV_SQRT2
  let sA_y ← A_y.sub N.INV_SQRT2
  let sB_y ← B_y.add N.INV_SQRT2
  pure (sA_x, sB_x, sA_y, sB_y)

/-- The `while` loop of `find_fast_rz_approximation`.  The counter bounds the
number of iterations; the driver starts it at `max_k - k`. -/
def fast_loop (N : Numeric K) (O : Oracles K) (fuel : Nat) (G : ZOmega → ZOmega) (z : Vec2 K)
    (theta eps tol : K) (max_k : Int) :
    Nat → Int → UprightRectangle K → UprightRectangle K → RandomState →
      Except Fault (RzApproximation K)
  | 0, k, _, _, _ => if k < max_k then .error .out_of_fuel else .ok RzApproximation.empty
  | n + 1, k, bboxA, bboxB, g =>
    if k < max_k then
      let scaleA := (scale_factors N k).1
      let scaleB := (scale_factors N k).2
      let bboxA1 := bboxA.rescale scaleA scaleA
      let bboxB1 := bboxB.rescale scaleB scaleB
      match fattened_intervals bboxA1 bboxB1 eps with
      | .error f => .error f
      | .ok (A_x, B_x, A_y, B_y) =>
        let alpha_solns := O.oneD_optimal_grid_solver A_x B_x tol
        let beta_solns := O.oneD_optimal_grid_solver A_y B_y tol
        match try_candidates N O fuel z theta eps scaleA k g
            (fast_candidates G alpha_solns beta_solns false) with
        | .error f => .error f
        | .ok (some r, _) => .ok r
        | .ok (none, g1) =>
          match shifted_intervals N A_x B_x A_y B_y with
          | .error f => .error f
          | .ok (sA_x, sB_x, sA_y, sB_y) =>
            let shifted_alpha_solns := O.oneD_optimal_grid_solver sA_x sB_x tol
            let shifted_beta_solns := O.oneD_optimal_grid_solver sA_y sB_y tol
            match try_candidates N O fuel z theta eps scaleA k g1
                (fast_candidates G shifted_alpha_solns shifted_beta_solns true) with
            | .error f => .error f
            | .ok (some r, _) => .ok r
            | .ok (none, g2) =>
              fast_loop N O fuel G z theta eps tol max_k n (k + 1)
                (bboxA1.rescale (1 / scaleA) (1 / scaleA))
                (bboxB1.rescale (1 / scaleB) (1 / scaleB)) g2
    else .ok RzApproximation.empty

/-- `find_fast_rz_approximation(theta, eps, kmin, kmax, tol)`, started with the
generator in state `g`. -/
def find_fast_rz_approximation (N : Numeric K) (O : Oracles K) (fuel : Nat) (g : RandomState)
    (theta eps : K) (kmin kmax : Int) (tol : K) : Except Fault (RzApproximation K) :=
  let k := kmin
  let max_k := kmax
  let z : Vec2 K := ⟨N.cos theta, N.sin theta⟩
  let eps_region := Ellipse.ofAngle N theta eps
  let disk := Ellipse.ofAxes N 0 0 1 1 0
  let Gstate := O.optimize_skew (eps_region, disk)
  match Gstate.2.1.bounding_box N with
  | .error f => .error f
  | .ok bboxA =>
    match Gstate.2.2.bounding_box N with
    | .error f => .error f
    | .ok bboxB =>
      fast_loop N O fuel Gstate.1 z theta eps tol max_k (max_k - k).toNat k bboxA bboxB g

/-- The exact unitarity identity of a record `(u, t, k)`: the scale exponent is
non-negative and `u·conj(u) + t·conj(t) = 2^k` in ring A. -/
def RzApproximation.IsUnitary (r : RzApproximation K) : Prop :=
  0 ≤ r.scale_exponent ∧
    r.u * r.u.conj + r.t * r.t.conj = ZOmega.ofInt (2 ^ r.scale_exponent.toNat)

/-- Soundness of the Diophantine solver: a successful call on `xi` returns `t`
with `t·conj(t) = xi`. -/
def Oracles.SolverSound (O : Oracles K) : Prop :=
  ∀ (g : RandomState) (xi : ZSqrt2) (t : ZOmega) (g1 : RandomState),
    O.diophantine_solver g xi = (some t, g1) → t * t.conj = xi.toZOmega

/-- The record is unitary as a matrix of scalars:
`|u / √2^k|² + |t / √2^k|² = 1` for the stored values `u_val_`, `t_val_`. -/
def RzApproximation.ValuesUnitary (r : RzApproximation K) : Prop :=
  r.u_val.re * r.u_val.re + r.u_val.im * r.u_val.im +
    (r.t_val.re * r.t_val.re + r.t_val.im * r.t_val.im) = 1

/-- Modelled from the spec: `ZOmega::reduce()` of `rings.hpp`, which is not among
the sources, "lowers the effective scale exponent without changing the
represented value": the decimal embedding of `reduce(c)` is that of `c` divided
by `√2`, so that `c / √2^k` is unchanged when `k` is decremented. -/
def Oracles.ReducePreservesValue (O : Oracles K) (N : Numeric K) : Prop :=
  ∀ c : ZOmega, O.is_reducible c = true →
    (O.reduce c).real N * N.SQRT2 = c.real N ∧ (O.reduce c).imag N * N.SQRT2 = c.imag N

end Drivers

/-! ## Instances of the numeric context and of the oracles -/

section Instances

/-- The initialisation of the global constants at the head of `main`, for the
precision `prec` given on the command line: `DEFAULT_GMP_PREC = 4 prec + 19`,
`TOL = 10^(-DEFAULT_GMP_PREC + 2)`, `SQRT2 = sqrt(2)`, `INV_SQRT2 = 1 / SQRT2`,
`LOG_LAMBDA = log(LAMBDA.decimal())`.  The real functions and the decimal value
of the constant `LAMBDA` of `constants.hpp` are arguments; the double-precision
cosine and sine are the exact ones. -/
def Numeric.init {K : Type} [LinearOrderedField K] (sqrt cos sin log10 log : K → K)
    (pi lambda : K) (prec : Int) : Numeric K :=
  { TOL := (10 : K) ^ (-(4 * prec + 19) + 2)
    PI := pi
    SQRT2 := sqrt 2
    INV_SQRT2 := 1 / sqrt 2
    LOG_LAMBDA := log lambda
    sqrt := sqrt
    cos := cos
    sin := sin
    log10 := log10
    cos_double := cos
    sin_double := sin }

/-- A numeric context over `ℚ`, for running the definitions: rational constants
of a few digits, the rational square root of Mathlib (exact on squares), and
Taylor polynomials for the cosine and the sine. -/
def rationalNumeric : Numeric ℚ :=
  { TOL := 1 / 1000000
    PI := 355 / 113
    SQRT2 := 99 / 70
    INV_SQRT2 := 70 / 99
    LOG_LAMBDA := 7655 / 10000
    sqrt := Rat.sqrt
    cos := fun x => 1 - x * x / 2 + x * x * x * x / 24
    sin := fun x => x - x * x * x / 6
    log10 := fun x => (x - 1) / (x + 1)
    cos_double := fun x => 1 - x * x / 2 + x * x * x * x / 24
    sin_double := fun x => x - x * x * x / 6 }

/-- A solver that completes `xi = 0` with `t = 0` and gives up on every other
`xi`; each call advances the generator. -/
def zeroSolver (g : RandomState) (xi : ZSqrt2) : Option ZOmega × RandomState :=
  if xi = ⟨0, 0⟩ then (some (ZOmega.ofInt 0), g + 1) else (none, g + 1)

/-- A solver that gives up on every `xi`. -/
def failingSolver (g : RandomState) (_xi : ZSqrt2) : Option ZOmega × RandomState :=
  (none, g + 1)

/-- Oracles for running the drivers: reducibility is divisibility by `√2`
(both `a + c` and `b + d` even) and reduction the division by `√2`; the skew
optimiser returns the identity operator and leaves the state alone; the
enumerators propose the given lists whatever the regions are. -/
def sampleOracles (K : Type) (twoD_list : List ZOmega) (oneD_list : List ZSqrt2)
    (solver : RandomState → ZSqrt2 → Option ZOmega × RandomState) : Oracles K :=
  { is_reducible := fun x => decide ((x.a + x.c) % 2 = 0) && decide ((x.b + x.d) % 2 = 0)
    reduce := fun x => ⟨(x.b - x.d) / 2, (x.a + x.c) / 2, (x.b + x.d) / 2, (x.c - x.a) / 2⟩
    optimize_skew := fun state => (id, state)
    twoD_grid_solver_ellipse_fatten := fun _ _ _ => twoD_list
    oneD_optimal_grid_solver := fun _ _ _ => oneD_list
    diophantine_solver := solver }

/-- The oracles of the sample runs: both passes of the fast driver see the
candidates built from `1` and `0`, the exact driver sees the same candidates in
the same order, and only `xi = 0` is completed. -/
def witnessOracles (K : Type) : Oracles K :=
  sampleOracles K
    [⟨1, 0, 1, 0⟩, ⟨1, 0, 0, 0⟩, ⟨0, 0, 1, 0⟩, ⟨0, 0, 0, 0⟩,
     ⟨1, 1, 1, 0⟩, ⟨1, 1, 0, 0⟩, ⟨0, 1, 1, 0⟩, ⟨0, 1, 0, 0⟩]
    [⟨1, 0⟩, ⟨0, 0⟩] zeroSolver

/-- The oracles of the sample runs with a solver that always gives up. -/
def failingOracles (K : Type) : Oracles K :=
  sampleOracles K [] [⟨1, 0⟩, ⟨0, 0⟩] failingSolver

/-- A tilted ellipse over `ℚ`: centre `(1, 2)` and the symmetric
positive-definite form with entries `1, 3/4, 3/4, 25/16`, of determinant one. -/
def sampleEllipse : Ellipse ℚ :=
  { center := ⟨1, 2⟩
    D := ⟨1, 3 / 4, 3 / 4, 25 / 16⟩
    semi_major_axis := 0
    semi_minor_axis := 0
    angle := 0
    z := 0
    e := 0 }

end Instances

section MoreDefs

variable {K : Type} [LinearOrderedField K]

/-- The part of `main` that runs the search: `random_numbers.seed(time(NULL))`
puts the generator in the state given by the clock, then
`find_fast_rz_approximation(theta*PI, eps)` is called with the default bounds
`KMIN`, `KMAX` and the default tolerance `TOL`. -/
def main_search (N : Numeric K) (O : Oracles K) (fuel : Nat) (time_now : Nat)
    (theta eps : K) (KMIN KMAX : Int) : Except Fault (RzApproximation K) :=
  let g : RandomState := time_now
  find_fast_rz_approximation N O fuel g (theta * N.PI) eps KMIN KMAX N.TOL

/-- Modelled from the spec: `diophantine_solver` of `diophantine_solver.hpp`,
which is not among the sources, is a function of its input `xi` (spec §4.4:
given `xi`, find `t` or report that none exists; §5: the search is
deterministic): the answer of a call does not depend on the state of the
generator. -/
def Oracles.SolverAnswerPure (O : Oracles K) : Prop :=
  ∀ (g g' : RandomState) (xi : ZSqrt2),
    (O.diophantine_solver g xi).1 = (O.diophantine_solver g' xi).1

/-- The two drivers agree on an input: both return a found solution with the
same scale exponent, or both return a record of "no solution". -/
def SameOutcome (a b : Except Fault (RzApproximation K)) : Prop :=
  ∃ ra rb : RzApproximation K, a = .ok ra ∧ b = .ok rb ∧
    ((ra.solution_found = true ∧ rb.solution_found = true ∧
        ra.scale_exponent = rb.scale_exponent) ∨
      (ra.solution_found = false ∧ rb.solution_found = false))

/-- The state of `find_rz_approximation` at the head of iteration `i` of a run
that starts at `k = 0` in state `st`: every iteration rescales by its scale
factors and, when it completes nothing, by their inverses. -/
def rz_state (N : Numeric K) (st : Ellipse K × Ellipse K) : Nat → Ellipse K × Ellipse K
  | 0 => st
  | i + 1 =>
    (((rz_state N st i).1.rescale N (scale_factors N i).1).rescale N
        (1 / (scale_factors N i).1),
     ((rz_state N st i).2.rescale N (scale_factors N i).2).rescale N
        (1 / (scale_factors N i).2))

/-- The bounding boxes of `find_fast_rz_approximation` at the head of iteration
`i` of a run that starts at `k = 0` with the boxes `bb`. -/
def fast_bbox (bb : UprightRectangle K × UprightRectangle K) (N : Numeric K) :
    Nat → UprightRectangle K × UprightRectangle K
  | 0 => bb
  | i + 1 =>
    (((fast_bbox bb N i).1.rescale (scale_factors N i).1 (scale_factors N i).1).rescale
        (1 / (scale_factors N i).1) (1 / (scale_factors N i).1),
     ((fast_bbox bb N i).2.rescale (scale_factors N i).2 (scale_factors N i).2).rescale
        (1 / (scale_factors N i).2) (1 / (scale_factors N i).2))

end MoreDefs


/-! ## More of the regions: matrices, the constructor from a matrix, operators -/

section RegionsMore

variable {K : Type} [LinearOrderedField K]

/-- The product `A * B` of two matrices. -/
def Mat2.mul (A B : Mat2 K) : Mat2 K :=
  ⟨A.m00 * B.m00 + A.m01 * B.m10, A.m00 * B.m01 + A.m01 * B.m11,
   A.m10 * B.m00 + A.m11 * B.m10, A.m10 * B.m01 + A.m11 * B.m11⟩

/-- `mat_t::transpose()`. -/
def Mat2.transpose (A : Mat2 K) : Mat2 K := ⟨A.m00, A.m10, A.m01, A.m11⟩

/-- `mat_t::inverse()`: the adjugate divided by the determinant. -/
def Mat2.inverse (A : Mat2 K) : Mat2 K :=
  Mat2.smul (1 / A.determinant) ⟨A.m11, -A.m01, -A.m10, A.m00⟩

/-- The product `A * v` of a matrix and a column vector. -/
def Mat2.mulVec (A : Mat2 K) (v : Vec2 K) : Vec2 K :=
  ⟨A.m00 * v.x + A.m01 * v.y, A.m10 * v.x + A.m11 * v.y⟩

/-- `Ellipse::get_axes_from_mat_(center, D)`: the triple of the larger axis, the
smaller axis and the angle.  The angle is always zero: its computation is
commented out in the source, so the local `shift` (the only use of `center` and
of `sgn`) is assigned and never read, and is left out here. -/
def Ellipse.get_axes_from_mat_ (N : Numeric K) (_center : Vec2 K) (D : Mat2 K) : K × K × K :=
  let m := 1 / N.sqrt D.determinant
  let msq := m * m
  let T := D.trace
  let angle : K := 0
  let a1 := if |T * T * msq * msq - 4 * msq| < N.TOL then N.sqrt (T * msq) / 2
    else N.sqrt ((T * msq - N.sqrt (T * T * msq * msq - 4 * msq)) / 2)
  let a2 := if |T * T * msq * msq - 4 * msq| < N.TOL then N.sqrt (T * msq) / 2
    else N.sqrt ((T * msq + N.sqrt (T * T * msq * msq - 4 * msq)) / 2)
  (max a1 a2, min a1 a2, angle)

/-- The constructor `Ellipse(center, D)`. -/
def Ellipse.ofMatrix (N : Numeric K) (center : Vec2 K) (D : Mat2 K) : Ellipse K :=
  Ellipse.get_z_and_e_ N
    { center := center
      D := D
      semi_major_axis := (Ellipse.get_axes_from_mat_ N center D).1
      semi_minor_axis := (Ellipse.get_axes_from_mat_ N center D).2.1
      angle := (Ellipse.get_axes_from_mat_ N center D).2.2
      z := 0
      e := 0 }

/-- `Ellipse::area()`. -/
def Ellipse.area (N : Numeric K) (E : Ellipse K) : K :=
  N.PI * E.semi_major_axis * E.semi_minor_axis

/-- `Ellipse::normalize()`: the returned scale factor and the ellipse after the
call. -/
def Ellipse.normalize (N : Numeric K) (E : Ellipse K) : K × Ellipse K :=
  let scale := N.sqrt (N.sqrt E.D.determinant)
  (scale, E.rescale N scale)

/-- `operator*(const mat_t& M, const Ellipse& A)`. -/
def Ellipse.applyMat (N : Numeric K) (M : Mat2 K) (A : Ellipse K) : Ellipse K :=
  Ellipse.ofMatrix N (M.inverse.mulVec A.center) ((M.transpose.mul A.D).mul M)

/-- Two ellipses have the same centre and the same quadratic form. -/
def Ellipse.SameShape (E F : Ellipse K) : Prop := E.center = F.center ∧ E.D = F.D

/-- The invariant `area() = x_interval().width() * y_interval().width()`. -/
def UprightRectangle.AreaConsistent (R : UprightRectangle K) : Prop :=
  R.area = R.x_interval.width * R.y_interval.width

end RegionsMore

/-! ## The arithmetic operators of an interval -/

section IntervalOperators

variable {K : Type} [LinearOrderedField K]

/-- `Interval::operator*(scale_factor)`. -/
def Interval.mul (I : Interval K) (scale_factor : K) : Except Fault (Interval K) :=
  if scale_factor < 0 then Interval.make (I.hi * scale_factor) (I.lo * scale_factor)
  else Interval.make (I.lo * scale_factor) (I.hi * scale_factor)

/-- `Interval::operator/(scale_factor)`. -/
def Interval.div (I : Interval K) (scale_factor : K) : Except Fault (Interval K) :=
  if scale_factor < 0 then Interval.make (I.hi / scale_factor) (I.lo / scale_factor)
  else Interval.make (I.lo / scale_factor) (I.hi / scale_factor)

/-- `Interval::operator*=(scale_factor)`: the interval after the call.  In the
branch for a negative factor the assignment to `hi_` reads the `lo_` that the
assignment before it has written; `width_` is not assigned. -/
def Interval.mul_assign (I : Interval K) (scale_factor : K) : Interval K :=
  if scale_factor < 0 then
    let lo := I.hi * scale_factor
    let hi := lo * scale_factor
    ⟨lo, hi, I.width⟩
  else
    let lo := I.lo * scale_factor
    let hi := I.hi * scale_factor
    ⟨lo, hi, I.width⟩

/-- `Interval::operator/=(scale_factor)`: the interval after the call.  The
branch for a negative factor does not return, so the two assignments after it
run in every case; all four assignments multiply. -/
def Interval.div_assign (I : Interval K) (scale_factor : K) : Interval K :=
  let I1 : Interval K :=
    if scale_factor < 0 then
      let lo := I.hi * scale_factor
      let hi := lo * scale_factor
      ⟨lo, hi, I.width⟩
    else I
  let lo := I1.lo * scale_factor
  let hi := I1.hi * scale_factor
  ⟨lo, hi, I1.width⟩

/-- The stored axes and angle give back the stored form:
`get_mat_from_axes_(semi_major_axis(), semi_minor_axis(), angle()) = D()`. -/
def Ellipse.AxesConsistent (N : Numeric K) (E : Ellipse K) : Prop :=
  Ellipse.get_mat_from_axes_ N E.semi_major_axis E.semi_minor_axis E.angle = E.D

/-- A sequence of calls of `Ellipse::rescale`, one for each scale factor of the
list. -/
def Ellipse.rescale_all (N : Numeric K) (E : Ellipse K) : List K → Ellipse K
  | [] => E
  | s :: rest => Ellipse.rescale_all N (E.rescale N s) rest

end IntervalOperators

/-! ## Reducibility in ring A -/

/-- Modelled from the spec: the ring element `1 + ζ` of ring A, by which the
spec defines reducibility. -/
def ZOmega.one_plus_zeta : ZOmega := ⟨1, 1, 0, 0⟩

/-- Modelled from the spec: `ZOmega::reduce()` of `rings.hpp`, which is not among
the sources: "exact division by `1+ζ` when reducible".  The quotient is
`x (1 - ζ + ζ² - ζ³) / 2`, since `(1 + ζ)(1 - ζ + ζ² - ζ³) = 2`. -/
def ZOmega.reduce (x : ZOmega) : ZOmega :=
  ⟨(x.a + x.b - x.c + x.d) / 2, (-x.a + x.b + x.c - x.d) / 2,
   (x.a - x.b + x.c + x.d) / 2, (-x.a + x.b - x.c + x.d) / 2⟩

/-- Modelled from the spec: `ZOmega::is_reducible()` of `rings.hpp`, which is not
among the sources: "divisibility by the ring element `1+ζ`", decided by
multiplying the quotient back. -/
def ZOmega.is_reducible (x : ZOmega) : Bool := decide (ZOmega.one_plus_zeta * x.reduce = x)

/-- The norm of ring A over the integers, `|x|² · |x•|²`, written as
`S² - 2T²` with `x · conj(x) = S + T√2`; the measure of the reduction loop. -/
def ZOmega.norm (x : ZOmega) : Int :=
  (x.a * x.a + x.b * x.b + x.c * x.c + x.d * x.d) *
      (x.a * x.a + x.b * x.b + x.c * x.c + x.d * x.d) -
    2 * ((x.a * x.b + x.b * x.c + x.c * x.d - x.d * x.a) *
      (x.a * x.b + x.b * x.c + x.c * x.d - x.d * x.a))

/-- The sum of the squares of the coefficients, `(|x|² + |x•|²) / 2`; the
measure of the reduction loop when reduction divides by `√2`. -/
def ZOmega.sum_sq (x : ZOmega) : Int :=
  x.a * x.a + x.b * x.b + x.c * x.c + x.d * x.d

/-- Oracles whose reducibility and reduction are the ones modelled from the
spec; the other functions are those of `failingOracles`. -/
def ringOracles (K : Type) : Oracles K :=
  { failingOracles K with
    is_reducible := ZOmega.is_reducible
    reduce := ZOmega.reduce }

/-! ## Uprightness of an ellipse -/

section Uprightness

variable {K : Type} [LinearOrderedField K]

/-- `Ellipse::up()`: the uprightness of the ellipse. -/
def Ellipse.up (N : Numeric K) (E : Ellipse K) : K :=
  (N.PI / 4) * N.sqrt (E.D.determinant / (E.D.m00 * E.D.m11))

end Uprightness

/-! ## Gate labels of the dotQC reader and writer (`tweedledum/io/dotqc.hpp`) -/

/-- The values of the enumeration `gate_lib` (`gates/gate_lib.hpp`, which is not
among the sources) that `dotqc.hpp` names; `other` stands for every further
value of the enumeration. -/
inductive gate_lib where
  | hadamard
  | phase
  | phase_dagger
  | t
  | t_dagger
  | pauli_x
  | pauli_y
  | pauli_z
  | cx
  | mcx
  | cz
  | mcz
  | undefined
  | unknown
  | other
  deriving DecidableEq, Repr

/-- `identify_gate::operator()(gate_label)`: the operation of the gate that the
label names.  The labels are ASCII, so the size of the view is the length of
the string.  The result is `none` for the empty label, where `gate_label[0]`
reads outside the view. -/
def identify_gate (gate_label : String) : Option gate_lib :=
  match gate_label.data with
  | [] => none
  | c0 :: rest =>
    if c0 = 'H' then some .hadamard
    else if c0 = 'S' ∨ c0 = 'P' then
      if gate_label.length = 2 ∧ rest.head? = some '*' then some .phase_dagger
      else some .phase
    else if c0 = 'T' then
      if gate_label.length = 2 ∧ rest.head? = some '*' then some .t_dagger
      else some .t
    else if c0 = 'X' then some .pauli_x
    else if c0 = 'Y' then some .pauli_y
    else if c0 = 'Z' then
      if gate_label.length = 2 ∧ rest.head? = some 'd' then some .undefined
      else some .pauli_z
    else if gate_label = "tof" then some .cx
    else some .unknown

/-- `dotqc_reader::on_gate(gate, target)`: the operation of the gate added to
the network. -/
def on_gate_target (gate : gate_lib) : List gate_lib := [gate]

/-- `dotqc_reader::on_gate(gate, controls, targets)` for `controls.size() =
n_controls`: the operations of the gates added to the network, in order. -/
def on_gate (gate : gate_lib) (n_controls : Nat) : List gate_lib :=
  match gate with
  | .pauli_x =>
    if n_controls = 1 then [.cx] else if n_controls ≥ 2 then [.mcx] else [.pauli_x]
  | .pauli_z =>
    if n_controls = 1 then [.cz] else if n_controls ≥ 2 then [.mcz] else [.pauli_z]
  | .undefined =>
    [.t_dagger, .t_dagger, .t_dagger, .cx, .cx, .cx, .t, .t, .t_dagger, .cx, .t, .cx, .cx, .cx]
  | g => [g]

/-- The label that the `switch` of `write_dotqc` writes for a gate with the
operation `op`; the `default` case writes nothing. -/
def write_dotqc_label (op : gate_lib) : String :=
  match op with
  | .pauli_x => "X"
  | .cx => "tof"
  | .mcx => "tof"
  | .pauli_z => "Z"
  | .cz => "Z"
  | .mcz => "Z"
  | .hadamard => "H"
  | .phase => "S"
  | .phase_dagger => "S*"
  | .t => "T"
  | .t_dagger => "T*"
  | _ => ""

/-- The round trip of an operation: the label written by `write_dotqc` is read
by `identify_gate` and handed to `on_gate` with `n_controls` controls. -/
def label_round_trip (op : gate_lib) (n_controls : Nat) : Option (List gate_lib) :=
  (identify_gate (write_dotqc_label op)).map fun gate => on_gate gate n_controls

/-! ## One iteration of the fast driver -/

section FastIteration

variable {K : Type} [LinearOrderedField K]

/-- The body of the `while` loop of `find_fast_rz_approximation` at the exponent
`k`, from the rescaling of the two bounding boxes to the end of the second
pass: the record that the iteration returns from the driver, if any, and the
state of the generator at the end of the iteration. -/
def fast_iteration (N : Numeric K) (O : Oracles K) (fuel : Nat) (G : ZOmega → ZOmega)
    (z : Vec2 K) (theta eps tol : K) (k : Int) (bboxA bboxB : UprightRectangle K)
    (g : RandomState) : Except Fault (Option (RzApproximation K) × RandomState) :=
  let scaleA := (scale_factors N k).1
  let scaleB := (scale_factors N k).2
  let bboxA1 := bboxA.rescale scaleA scaleA
  let bboxB1 := bboxB.rescale scaleB scaleB
  match fattened_intervals bboxA1 bboxB1 eps with
  | .error f => .error f
  | .ok (A_x, B_x, A_y, B_y) =>
    let alpha_solns := O.oneD_optimal_grid_solver A_x B_x tol
    let beta_solns := O.oneD_optimal_grid_solver A_y B_y tol
    match try_candidates N O fuel z theta eps scaleA k g
        (fast_candidates G alpha_solns beta_solns false) with
    | .error f => .error f
    | .ok (some r, g1) => .ok (some r, g1)
    | .ok (none, g1) =>
      match shifted_intervals N A_x B_x A_y B_y with
      | .error f => .error f
      | .ok (sA_x, sB_x, sA_y, sB_y) =>
        let shifted_alpha_solns := O.oneD_optimal_grid_solver sA_x sB_x tol
        let shifted_beta_solns := O.oneD_optimal_grid_solver sA_y sB_y tol
        try_candidates N O fuel z theta eps scaleA k g1
          (fast_candidates G shifted_alpha_solns shifted_beta_solns true)

/-- The two bounding boxes at the end of the iteration at the exponent `k`:
rescaled by the scale factors at its head and by their inverses at its end. -/
def fast_next_boxes (N : Numeric K) (k : Int) (bb : UprightRectangle K × UprightRectangle K) :
    UprightRectangle K × UprightRectangle K :=
  ((bb.1.rescale (scale_factors N k).1 (scale_factors N k).1).rescale
      (1 / (scale_factors N k).1) (1 / (scale_factors N k).1),
   (bb.2.rescale (scale_factors N k).2 (scale_factors N k).2).rescale
      (1 / (scale_factors N k).2) (1 / (scale_factors N k).2))

/-- The two bounding boxes at the head of the iteration at the exponent
`kmin + i` of a run that starts at `kmin` with the boxes `bb`. -/
def fast_boxes (N : Numeric K) (kmin : Int) (bb : UprightRectangle K × UprightRectangle K) :
    Nat → UprightRectangle K × UprightRectangle K
  | 0 => bb
  | i + 1 => fast_next_boxes N (kmin + i) (fast_boxes N kmin bb i)

end FastIteration

/-- The oracles of a run that completes nothing at `k = 0` and completes a
candidate at `k = 1`: both passes of every iteration see the one candidate
built from `1` and `1`, and only `xi = 0` is completed. -/
def orderOracles (K : Type) : Oracles K := sampleOracles K [] [⟨1, 0⟩] zeroSolver

/-! ## Theorems -/

section RegionTheorems

variable {K : Type} [LinearOrderedField K]

theorem Interval.make_ok {lo hi : K} (h : lo ≤ hi) :
    Interval.make lo hi = .ok ⟨lo, hi, hi - lo⟩ := by
  simp [Interval.make, not_lt.mpr h]

/-- C10. The constructor `Interval(lo, hi)` ends in the process exit exactly
when `lo > hi`; for every `lo ≤ hi` (the case `lo = hi` included) it returns an
interval with those two bounds and with width `hi - lo`. -/
theorem Interval.make_fails_iff (lo hi : K) :
    (Interval.make lo hi = .error Fault.exit_failure ↔ lo > hi) ∧
    (lo ≤ hi → ∃ I : Interval K, Interval.make lo hi = .ok I ∧
      I.lo = lo ∧ I.hi = hi ∧ I.width = hi - lo) ∧
    (∃ I : Interval K, Interval.make lo lo = .ok I ∧ I.lo = lo ∧ I.hi = lo ∧ I.width = 0) := by
  refine ⟨?_, ?_, ?_⟩
  · unfold Interval.make
    split <;> simp_all
  · intro h
    exact ⟨_, Interval.make_ok h, rfl, rfl, rfl⟩
  · exact ⟨_, Interval.make_ok le_rfl, rfl, rfl, by simp⟩


/-! ### The bounding box of an ellipse -/

/-- For a symmetric positive-definite form, the first coordinate of a vector of
the unit sub-level set is bounded by `m11 / det`. -/
theorem Mat2.quad_bound_x (M : Mat2 K) (v : Vec2 K) (hsym : M.m01 = M.m10)
    (h00 : 0 < M.m00) (hdet : 0 < M.determinant) (hq : M.quad v ≤ 1) :
    v.x * v.x ≤ M.m11 / M.determinant := by
  have hd : 0 < M.m11 := by
    unfold Mat2.determinant at hdet
    rw [hsym] at hdet
    by_contra hneg
    push_neg at hneg
    nlinarith [mul_self_nonneg M.m10, mul_nonneg h00.le (neg_nonneg.mpr hneg)]
  rw [le_div_iff₀ hdet]
  unfold Mat2.determinant at *
  unfold Mat2.quad at hq
  rw [hsym] at hq ⊢
  nlinarith [mul_self_nonneg (M.m11 * v.y + M.m10 * v.x), mul_le_mul_of_nonneg_left hq hd.le]

/-- For a symmetric positive-definite form, the second coordinate of a vector
of the unit sub-level set is bounded by `m00 / det`. -/
theorem Mat2.quad_bound_y (M : Mat2 K) (v : Vec2 K) (hsym : M.m01 = M.m10)
    (h00 : 0 < M.m00) (hdet : 0 < M.determinant) (hq : M.quad v ≤ 1) :
    v.y * v.y ≤ M.m00 / M.determinant := by
  rw [le_div_iff₀ hdet]
  unfold Mat2.determinant at *
  unfold Mat2.quad at hq
  rw [hsym] at hq ⊢
  nlinarith [mul_self_nonneg (M.m00 * v.x + M.m10 * v.y), mul_le_mul_of_nonneg_left hq h00.le]

theorem abs_le_of_mul_self_le {a b : K} (hb : 0 ≤ b) (h : a * a ≤ b * b) : |a| ≤ b := by
  rw [abs_le]
  constructor
  · by_contra hlt
    push_neg at hlt
    nlinarith
  · by_contra hlt
    push_neg at hlt
    nlinarith

theorem Ellipse.bounding_box_eq (N : Numeric K) (E : Ellipse K)
    (hX : 0 ≤ N.sqrt (E.D.m11 / E.D.determinant))
    (hY : 0 ≤ N.sqrt (E.D.m00 / E.D.determinant)) :
    E.bounding_box N = .ok
      ⟨⟨E.center.x - N.sqrt (E.D.m11 / E.D.determinant),
         E.center.x + N.sqrt (E.D.m11 / E.D.determinant),
         E.center.x + N.sqrt (E.D.m11 / E.D.determinant) -
           (E.center.x - N.sqrt (E.D.m11 / E.D.determinant))⟩,
       ⟨E.center.y - N.sqrt (E.D.m00 / E.D.determinant),
         E.center.y + N.sqrt (E.D.m00 / E.D.determinant),
         E.center.y + N.sqrt (E.D.m00 / E.D.determinant) -
           (E.center.y - N.sqrt (E.D.m00 / E.D.determinant))⟩,
       (E.center.x + N.sqrt (E.D.m11 / E.D.determinant) -
           (E.center.x - N.sqrt (E.D.m11 / E.D.determinant))) *
         (E.center.y + N.sqrt (E.D.m00 / E.D.determinant) -
           (E.center.y - N.sqrt (E.D.m00 / E.D.determinant)))⟩ := by
  unfold Ellipse.bounding_box UprightRectangle.make
  simp only []
  rw [Interval.make_ok (by linarith), Interval.make_ok (by linarith)]
  rfl

/-- Points of the ellipse lie within the half-widths that `bounding_box`
computes. -/
theorem Ellipse.abs_sub_center_le (N : Numeric K) (E : Ellipse K) (p : Vec2 K)
    (hsym : E.D.m01 = E.D.m10) (h00 : 0 < E.D.m00) (hdet : 0 < E.D.determinant)
    (hX : N.IsSqrtAt (E.D.m11 / E.D.determinant))
    (hY : N.IsSqrtAt (E.D.m00 / E.D.determinant))
    (hp : E.quad_form p ≤ 1) :
    |p.x - E.center.x| ≤ N.sqrt (E.D.m11 / E.D.determinant) ∧
    |p.y - E.center.y| ≤ N.sqrt (E.D.m00 / E.D.determinant) := by
  unfold Ellipse.quad_form at hp
  have hx := Mat2.quad_bound_x E.D (p.sub E.center) hsym h00 hdet hp
  have hy := Mat2.quad_bound_y E.D (p.sub E.center) hsym h00 hdet hp
  constructor
  · apply abs_le_of_mul_self_le hX.1
    rw [hX.2]
    exact hx
  · apply abs_le_of_mul_self_le hY.1
    rw [hY.2]
    exact hy

/-- C8. For an ellipse with symmetric positive-definite `D`, `bounding_box()`
returns a rectangle that contains the ellipse: every point `p` with
`(p - center)ᵀ D (p - center) ≤ 1` has `|p.x - center.x| ≤ sqrt(D11 / det D)` and
`|p.y - center.y| ≤ sqrt(D00 / det D)`, and so lies between the bounds of the
returned rectangle. -/
theorem Ellipse.bounding_box_contains (N : Numeric K) (E : Ellipse K) (p : Vec2 K)
    (hsym : E.D.m01 = E.D.m10) (h00 : 0 < E.D.m00) (hdet : 0 < E.D.determinant)
    (hX : N.IsSqrtAt (E.D.m11 / E.D.determinant))
    (hY : N.IsSqrtAt (E.D.m00 / E.D.determinant))
    (hp : E.quad_form p ≤ 1) :
    |p.x - E.center.x| ≤ N.sqrt (E.D.m11 / E.D.determinant) ∧
    |p.y - E.center.y| ≤ N.sqrt (E.D.m00 / E.D.determinant) ∧
    ∃ R : UprightRectangle K, E.bounding_box N = .ok R ∧
      R.x_interval.lo ≤ p.x ∧ p.x ≤ R.x_interval.hi ∧
      R.y_interval.lo ≤ p.y ∧ p.y ≤ R.y_interval.hi := by
  obtain ⟨h1, h2⟩ := Ellipse.abs_sub_center_le N E p hsym h00 hdet hX hY hp
  refine ⟨h1, h2, _, Ellipse.bounding_box_eq N E hX.1 hY.1, ?_, ?_, ?_, ?_⟩
  · have := (abs_le.mp h1).1
    show E.center.x - _ ≤ p.x
    linarith
  · have := (abs_le.mp h1).2
    show p.x ≤ E.center.x + _
    linarith
  · have := (abs_le.mp h2).1
    show E.center.y - _ ≤ p.y
    linarith
  · have := (abs_le.mp h2).2
    show p.y ≤ E.center.y + _
    linarith

theorem Mat2.m11_pos (M : Mat2 K) (hsym : M.m01 = M.m10)
    (h00 : 0 < M.m00) (hdet : 0 < M.determinant) : 0 < M.m11 := by
  unfold Mat2.determinant at hdet
  rw [hsym] at hdet
  by_contra hneg
  push_neg at hneg
  nlinarith [mul_self_nonneg M.m10, mul_nonneg h00.le (neg_nonneg.mpr hneg)]

/-- The vector `(X, -m10 X / m11)` with `X² = m11 / det` lies on the unit level
set: it is where the level set touches a vertical line. -/
theorem Mat2.quad_tangent_x (M : Mat2 K) (hsym : M.m01 = M.m10)
    (h00 : 0 < M.m00) (hdet : 0 < M.determinant) (X : K)
    (hX : X * X = M.m11 / M.determinant) :
    M.quad ⟨X, -(M.m10 * X / M.m11)⟩ = 1 := by
  have hd := Mat2.m11_pos M hsym h00 hdet
  have key : M.quad ⟨X, -(M.m10 * X / M.m11)⟩ = (X * X) * (M.determinant / M.m11) := by
    unfold Mat2.quad Mat2.determinant
    rw [hsym]
    field_simp
    ring
  rw [key, hX]
  field_simp

/-- The vector `(-m10 Y / m00, Y)` with `Y² = m00 / det` lies on the unit level
set: it is where the level set touches a horizontal line. -/
theorem Mat2.quad_tangent_y (M : Mat2 K) (hsym : M.m01 = M.m10)
    (h00 : 0 < M.m00) (hdet : 0 < M.determinant) (Y : K)
    (hY : Y * Y = M.m00 / M.determinant) :
    M.quad ⟨-(M.m10 * Y / M.m00), Y⟩ = 1 := by
  have key : M.quad ⟨-(M.m10 * Y / M.m00), Y⟩ = (Y * Y) * (M.determinant / M.m00) := by
    unfold Mat2.quad Mat2.determinant
    rw [hsym]
    field_simp
    ring
  rw [key, hY]
  field_simp

theorem Ellipse.quad_form_center_add (E : Ellipse K) (v : Vec2 K) :
    E.quad_form ⟨E.center.x + v.x, E.center.y + v.y⟩ = E.D.quad v := by
  unfold Ellipse.quad_form Vec2.sub
  simp

/-- The point of the ellipse on the vertical line at signed distance `X` from
the centre, with its second coordinate inside the box. -/
theorem Ellipse.touch_x (N : Numeric K) (E : Ellipse K)
    (hsym : E.D.m01 = E.D.m10) (h00 : 0 < E.D.m00) (hdet : 0 < E.D.determinant)
    (hY : N.IsSqrtAt (E.D.m00 / E.D.determinant)) (X : K)
    (hX : X * X = E.D.m11 / E.D.determinant) :
    ∃ p : Vec2 K, p.x = E.center.x + X ∧
      E.center.y - N.sqrt (E.D.m00 / E.D.determinant) ≤ p.y ∧
      p.y ≤ E.center.y + N.sqrt (E.D.m00 / E.D.determinant) ∧ E.quad_form p = 1 := by
  have hq : E.quad_form ⟨E.center.x + X, E.center.y + -(E.D.m10 * X / E.D.m11)⟩ = 1 := by
    rw [Ellipse.quad_form_center_add E ⟨X, -(E.D.m10 * X / E.D.m11)⟩]
    exact Mat2.quad_tangent_x E.D hsym h00 hdet X hX
  have hy := Mat2.quad_bound_y E.D ⟨X, -(E.D.m10 * X / E.D.m11)⟩ hsym h00 hdet
    (le_of_eq (Mat2.quad_tangent_x E.D hsym h00 hdet X hX))
  have habs : |(-(E.D.m10 * X / E.D.m11))| ≤ N.sqrt (E.D.m00 / E.D.determinant) :=
    abs_le_of_mul_self_le hY.1 (by rw [hY.2]; exact hy)
  have h2 := abs_le.mp habs
  refine ⟨⟨E.center.x + X, E.center.y + -(E.D.m10 * X / E.D.m11)⟩, rfl, ?_, ?_, hq⟩
  · show E.center.y - _ ≤ E.center.y + -(E.D.m10 * X / E.D.m11)
    linarith [h2.1]
  · show E.center.y + -(E.D.m10 * X / E.D.m11) ≤ E.center.y + _
    linarith [h2.2]

/-- The point of the ellipse on the horizontal line at signed distance `Y` from
the centre, with its first coordinate inside the box. -/
theorem Ellipse.touch_y (N : Numeric K) (E : Ellipse K)
    (hsym : E.D.m01 = E.D.m10) (h00 : 0 < E.D.m00) (hdet : 0 < E.D.determinant)
    (hX : N.IsSqrtAt (E.D.m11 / E.D.determinant)) (Y : K)
    (hY : Y * Y = E.D.m00 / E.D.determinant) :
    ∃ p : Vec2 K, p.y = E.center.y + Y ∧
      E.center.x - N.sqrt (E.D.m11 / E.D.determinant) ≤ p.x ∧
      p.x ≤ E.center.x + N.sqrt (E.D.m11 / E.D.determinant) ∧ E.quad_form p = 1 := by
  have hq : E.quad_form ⟨E.center.x + -(E.D.m10 * Y / E.D.m00), E.center.y + Y⟩ = 1 := by
    rw [Ellipse.quad_form_center_add E ⟨-(E.D.m10 * Y / E.D.m00), Y⟩]
    exact Mat2.quad_tangent_y E.D hsym h00 hdet Y hY
  have hx := Mat2.quad_bound_x E.D ⟨-(E.D.m10 * Y / E.D.m00), Y⟩ hsym h00 hdet
    (le_of_eq (Mat2.quad_tangent_y E.D hsym h00 hdet Y hY))
  have habs : |(-(E.D.m10 * Y / E.D.m00))| ≤ N.sqrt (E.D.m11 / E.D.determinant) :=
    abs_le_of_mul_self_le hX.1 (by rw [hX.2]; exact hx)
  have h2 := abs_le.mp habs
  refine ⟨⟨E.center.x + -(E.D.m10 * Y / E.D.m00), E.center.y + Y⟩, rfl, ?_, ?_, hq⟩
  · show E.center.x - _ ≤ E.center.x + -(E.D.m10 * Y / E.D.m00)
    linarith [h2.1]
  · show E.center.x + -(E.D.m10 * Y / E.D.m00) ≤ E.center.x + _
    linarith [h2.2]

/-- C9. For an ellipse with symmetric positive-definite `D`, `bounding_box()`
is the smallest axis-aligned rectangle containing it: each of the four sides of
the returned rectangle carries a point `p` with `(p - center)ᵀ D (p - center) = 1`,
so every axis-aligned rectangle that contains the ellipse contains the returned
one. -/
theorem Ellipse.bounding_box_smallest (N : Numeric K) (E : Ellipse K)
    (hsym : E.D.m01 = E.D.m10) (h00 : 0 < E.D.m00) (hdet : 0 < E.D.determinant)
    (hX : N.IsSqrtAt (E.D.m11 / E.D.determinant))
    (hY : N.IsSqrtAt (E.D.m00 / E.D.determinant)) :
    ∃ R : UprightRectangle K, E.bounding_box N = .ok R ∧
      (∃ p : Vec2 K, p.x = R.x_interval.hi ∧
        R.y_interval.lo ≤ p.y ∧ p.y ≤ R.y_interval.hi ∧ E.quad_form p = 1) ∧
      (∃ p : Vec2 K, p.x = R.x_interval.lo ∧
        R.y_interval.lo ≤ p.y ∧ p.y ≤ R.y_interval.hi ∧ E.quad_form p = 1) ∧
      (∃ p : Vec2 K, p.y = R.y_interval.hi ∧
        R.x_interval.lo ≤ p.x ∧ p.x ≤ R.x_interval.hi ∧ E.quad_form p = 1) ∧
      (∃ p : Vec2 K, p.y = R.y_interval.lo ∧
        R.x_interval.lo ≤ p.x ∧ p.x ≤ R.x_interval.hi ∧ E.quad_form p = 1) ∧
      (∀ xlo xhi ylo yhi : K,
        (∀ p : Vec2 K, E.quad_form p ≤ 1 →
          xlo ≤ p.x ∧ p.x ≤ xhi ∧ ylo ≤ p.y ∧ p.y ≤ yhi) →
        xlo ≤ R.x_interval.lo ∧ R.x_interval.hi ≤ xhi ∧
          ylo ≤ R.y_interval.lo ∧ R.y_interval.hi ≤ yhi) := by
  obtain ⟨p1, h1x, h1lo, h1hi, h1q⟩ :=
    Ellipse.touch_x N E hsym h00 hdet hY (N.sqrt (E.D.m11 / E.D.determinant)) hX.2
  obtain ⟨p2, h2x, h2lo, h2hi, h2q⟩ :=
    Ellipse.touch_x N E hsym h00 hdet hY (-N.sqrt (E.D.m11 / E.D.determinant))
      (by rw [neg_mul_neg]; exact hX.2)
  obtain ⟨p3, h3y, h3lo, h3hi, h3q⟩ :=
    Ellipse.touch_y N E hsym h00 hdet hX (N.sqrt (E.D.m00 / E.D.determinant)) hY.2
  obtain ⟨p4, h4y, h4lo, h4hi, h4q⟩ :=
    Ellipse.touch_y N E hsym h00 hdet hX (-N.sqrt (E.D.m00 / E.D.determinant))
      (by rw [neg_mul_neg]; exact hY.2)
  refine ⟨_, Ellipse.bounding_box_eq N E hX.1 hY.1,
    ⟨p1, h1x, h1lo, h1hi, h1q⟩, ⟨p2, ?_, h2lo, h2hi, h2q⟩,
    ⟨p3, h3y, h3lo, h3hi, h3q⟩, ⟨p4, ?_, h4lo, h4hi, h4q⟩, ?_⟩
  · rw [h2x]
    show E.center.x + -_ = E.center.x - _
    ring
  · rw [h4y]
    show E.center.y + -_ = E.center.y - _
    ring
  · intro xlo xhi ylo yhi hall
    have a1 := hall p1 (le_of_eq h1q)
    have a2 := hall p2 (le_of_eq h2q)
    have a3 := hall p3 (le_of_eq h3q)
    have a4 := hall p4 (le_of_eq h4q)
    refine ⟨?_, ?_, ?_, ?_⟩
    · show xlo ≤ E.center.x - _
      have := a2.1
      rw [h2x] at this
      linarith
    · show E.center.x + _ ≤ xhi
      have := a1.2.1
      rw [h1x] at this
      exact this
    · show ylo ≤ E.center.y - _
      have := a4.2.2.1
      rw [h4y] at this
      linarith
    · show E.center.y + _ ≤ yhi
      have := a3.2.2.2
      rw [h3y] at this
      exact this

/-! ### The ellipse of the epsilon-region -/

/-- The quadratic form built by `get_mat_from_axes_`, written in the frame
rotated by the tilt angle. -/
theorem Ellipse.get_mat_from_axes_quad (N : Numeric K) (a b angle : K) (v : Vec2 K) :
    (Ellipse.get_mat_from_axes_ N a b angle).quad v =
      (1 / b) * (1 / b) * ((N.cos angle * v.x + N.sin angle * v.y) *
        (N.cos angle * v.x + N.sin angle * v.y)) +
      (1 / a) * (1 / a) * ((N.sin angle * v.x - N.cos angle * v.y) *
        (N.sin angle * v.x - N.cos angle * v.y)) := by
  unfold Ellipse.get_mat_from_axes_ Mat2.quad
  simp only []
  ring

/-- The inequality behind the epsilon-region ellipse, in the rotated frame:
`u` is the component along the target direction, `v2` bounds the square of the
component across it, and `e2` is `eps²`. -/
theorem eps_region_ineq (e2 u v2 : K) (he0 : 0 < e2) (he1 : e2 < 1)
    (hu : 1 - e2 / 2 ≤ u) (hu1 : u ≤ 1) (hv : v2 ≤ 1 - u * u) :
    9 / (e2 * e2) * ((u - (3 - e2) / 3) * (u - (3 - e2) / 3)) + 3 / (e2 * (4 - e2)) * v2 ≤ 1 := by
  have h4 : 0 < 4 - e2 := by linarith
  have hB : 0 ≤ 3 / (e2 * (4 - e2)) := by positivity
  have h1 : 3 / (e2 * (4 - e2)) * v2 ≤ 3 / (e2 * (4 - e2)) * (1 - u * u) :=
    mul_le_mul_of_nonneg_left hv hB
  have hw : 0 ≤ 1 - u := by linarith
  have h2w : 0 ≤ e2 - 2 * (1 - u) := by linarith
  have h3 : 0 ≤ 3 - e2 := by linarith
  have hprod := mul_nonneg (mul_nonneg hw h2w) h3
  have key : 9 / (e2 * e2) * ((u - (3 - e2) / 3) * (u - (3 - e2) / 3)) +
      3 / (e2 * (4 - e2)) * (1 - u * u) ≤ 1 := by
    have hden : 0 < e2 * e2 * (4 - e2) := by positivity
    have heq : 9 / (e2 * e2) * ((u - (3 - e2) / 3) * (u - (3 - e2) / 3)) +
        3 / (e2 * (4 - e2)) * (1 - u * u) =
        1 - 6 * ((1 - u) * (e2 - 2 * (1 - u)) * (3 - e2)) / (e2 * e2 * (4 - e2)) := by
      field_simp
      ring
    rw [heq]
    have : 0 ≤ 6 * ((1 - u) * (e2 - 2 * (1 - u)) * (3 - e2)) / (e2 * e2 * (4 - e2)) := by
      apply div_nonneg _ hden.le
      linarith
    linarith
  linarith

/-- C7. For every angle `theta` and every `eps` with `0 < eps < 1`, the ellipse
built by `Ellipse(theta, eps)` has centre `(1 - eps²/3)(cos theta, sin theta)`,
semi-axes `(2/sqrt 3) eps sqrt(1 - eps²/4)` and `eps²/3`, tilt `theta`, and
contains the whole epsilon-region: every point `p` of the closed unit disk with
`p · (cos theta, sin theta) ≥ 1 - eps²/2` has `(p - center)ᵀ D (p - center) ≤ 1`. -/
theorem Ellipse.ofAngle_contains_eps_region (N : Numeric K) (theta eps : K) (p : Vec2 K)
    (hcs : N.cos theta * N.cos theta + N.sin theta * N.sin theta = 1)
    (h3 : N.IsSqrtAt 3) (hq : N.IsSqrtAt (1 - eps * eps / 4))
    (he0 : 0 < eps) (he1 : eps < 1)
    (hdisk : p.x * p.x + p.y * p.y ≤ 1)
    (hdot : 1 - eps * eps / 2 ≤ p.x * N.cos theta + p.y * N.sin theta) :
    (Ellipse.ofAngle N theta eps).center.x = (1 - eps * eps / 3) * N.cos theta ∧
    (Ellipse.ofAngle N theta eps).center.y = (1 - eps * eps / 3) * N.sin theta ∧
    (Ellipse.ofAngle N theta eps).semi_major_axis =
      2 / N.sqrt 3 * eps * N.sqrt (1 - eps * eps / 4) ∧
    (Ellipse.ofAngle N theta eps).semi_minor_axis = eps * eps / 3 ∧
    (Ellipse.ofAngle N theta eps).angle = theta ∧
    (Ellipse.ofAngle N theta eps).quad_form p ≤ 1 := by
  refine ⟨?_, ?_, rfl, rfl, rfl, ?_⟩
  · show (3 - eps * eps) / 3 * N.cos theta = _
    ring
  · show (3 - eps * eps) / 3 * N.sin theta = _
    ring
  have he2 : 0 < eps * eps := mul_pos he0 he0
  have he2lt : eps * eps < 1 := by nlinarith
  have hr3 : N.sqrt 3 ≠ 0 := by
    intro h0
    have := h3.2
    rw [h0] at this
    norm_num at this
  have hqpos : 0 < 1 - eps * eps / 4 := by linarith
  have hq0 : N.sqrt (1 - eps * eps / 4) ≠ 0 := by
    intro h0
    have := hq.2
    rw [h0] at this
    simp at this
    linarith
  -- the two squared inverse semi-axes
  have hA : (1 / (eps * eps / 3)) * (1 / (eps * eps / 3)) = 9 / ((eps * eps) * (eps * eps)) := by
    field_simp
    ring
  have hB : (1 / (2 / N.sqrt 3 * eps * N.sqrt (1 - eps * eps / 4))) *
      (1 / (2 / N.sqrt 3 * eps * N.sqrt (1 - eps * eps / 4))) =
      3 / ((eps * eps) * (4 - eps * eps)) := by
    have h4 : (4 : K) - eps * eps ≠ 0 := by linarith
    have hsq : (2 / N.sqrt 3 * eps * N.sqrt (1 - eps * eps / 4)) *
        (2 / N.sqrt 3 * eps * N.sqrt (1 - eps * eps / 4)) =
        (eps * eps) * (4 - eps * eps) / 3 := by
      have e1 : (2 / N.sqrt 3 * eps * N.sqrt (1 - eps * eps / 4)) *
          (2 / N.sqrt 3 * eps * N.sqrt (1 - eps * eps / 4)) =
          4 * (eps * eps) * (N.sqrt (1 - eps * eps / 4) * N.sqrt (1 - eps * eps / 4)) /
            (N.sqrt 3 * N.sqrt 3) := by
        field_simp
        ring
      rw [e1, h3.2, hq.2]
      ring
    rw [one_div_mul_one_div, hsq]
    field_simp
  -- the form in the rotated frame
  have hform : (Ellipse.ofAngle N theta eps).quad_form p =
      (1 / (eps * eps / 3)) * (1 / (eps * eps / 3)) *
        (((p.x * N.cos theta + p.y * N.sin theta) - (3 - eps * eps) / 3) *
         ((p.x * N.cos theta + p.y * N.sin theta) - (3 - eps * eps) / 3)) +
      (1 / (2 / N.sqrt 3 * eps * N.sqrt (1 - eps * eps / 4))) *
        (1 / (2 / N.sqrt 3 * eps * N.sqrt (1 - eps * eps / 4))) *
        ((N.sin theta * p.x - N.cos theta * p.y) * (N.sin theta * p.x - N.cos theta * p.y)) := by
    have hu : N.cos theta * (p.x - (3 - eps * eps) / 3 * N.cos theta) +
        N.sin theta * (p.y - (3 - eps * eps) / 3 * N.sin theta) =
        (p.x * N.cos theta + p.y * N.sin theta) -
          (3 - eps * eps) / 3 * (N.cos theta * N.cos theta + N.sin theta * N.sin theta) := by
      ring
    have hv : N.sin theta * (p.x - (3 - eps * eps) / 3 * N.cos theta) -
        N.cos theta * (p.y - (3 - eps * eps) / 3 * N.sin theta) =
        N.sin theta * p.x - N.cos theta * p.y := by
      ring
    show (Ellipse.get_mat_from_axes_ N (2 / N.sqrt 3 * eps * N.sqrt (1 - eps * eps / 4))
      (eps * eps / 3) theta).quad
        ⟨p.x - (3 - eps * eps) / 3 * N.cos theta, p.y - (3 - eps * eps) / 3 * N.sin theta⟩ = _
    rw [Ellipse.get_mat_from_axes_quad]
    dsimp only
    rw [hu, hv, hcs, mul_one]
  rw [hform, hA, hB]
  have hnorm : (p.x * N.cos theta + p.y * N.sin theta) * (p.x * N.cos theta + p.y * N.sin theta) +
      (N.sin theta * p.x - N.cos theta * p.y) * (N.sin theta * p.x - N.cos theta * p.y) =
      p.x * p.x + p.y * p.y := by
    have : (p.x * N.cos theta + p.y * N.sin theta) * (p.x * N.cos theta + p.y * N.sin theta) +
        (N.sin theta * p.x - N.cos theta * p.y) * (N.sin theta * p.x - N.cos theta * p.y) =
        (p.x * p.x + p.y * p.y) * (N.cos theta * N.cos theta + N.sin theta * N.sin theta) := by
      ring
    rw [this, hcs, mul_one]
  have hv0 := mul_self_nonneg (N.sin theta * p.x - N.cos theta * p.y)
  have hu1 : p.x * N.cos theta + p.y * N.sin theta ≤ 1 := by
    have habs : |p.x * N.cos theta + p.y * N.sin theta| ≤ 1 :=
      abs_le_of_mul_self_le zero_le_one (by linarith)
    exact (abs_le.mp habs).2
  exact eps_region_ineq (eps * eps) _ _ he2 he2lt hdot hu1 (by linarith)

/-! ### Interval constructions that cannot fail -/

theorem Interval.rescale_valid (I : Interval K) (s : K) (h : I.Valid) :
    (I.rescale s).Valid := by
  unfold Interval.Valid at *
  unfold Interval.rescale
  simp only []
  split
  · rename_i hs
    exact mul_le_mul_of_nonpos_right h hs.le
  · rename_i hs
    exact mul_le_mul_of_nonneg_right h (not_lt.mp hs)

theorem UprightRectangle.rescale_valid_rect (R : UprightRectangle K) (sx sy : K) (h : R.Valid) :
    (R.rescale sx sy).Valid :=
  ⟨Interval.rescale_valid _ sx h.1, Interval.rescale_valid _ sy h.2⟩

theorem Interval.fatten_ok (I : Interval K) (d : K) (h : I.Valid) (hd : 0 ≤ d) :
    ∃ J : Interval K, I.fatten d = .ok J ∧ J.Valid := by
  unfold Interval.Valid at h
  have hle : I.lo - d ≤ I.hi + d := by linarith
  exact ⟨_, Interval.make_ok hle, hle⟩

theorem Interval.sub_ok (I : Interval K) (s : K) (h : I.Valid) :
    ∃ J : Interval K, I.sub s = .ok J ∧ J.Valid := by
  unfold Interval.Valid at h
  have hle : I.lo - s ≤ I.hi - s := by linarith
  exact ⟨_, Interval.make_ok hle, hle⟩

theorem Interval.add_ok (I : Interval K) (s : K) (h : I.Valid) :
    ∃ J : Interval K, I.add s = .ok J ∧ J.Valid := by
  unfold Interval.Valid at h
  have hle : I.lo + s ≤ I.hi + s := by linarith
  exact ⟨_, Interval.make_ok hle, hle⟩

theorem Ellipse.bounding_box_ok (N : Numeric K) (E : Ellipse K) (hsqrt : ∀ x : K, 0 ≤ N.sqrt x) :
    ∃ R : UprightRectangle K, E.bounding_box N = .ok R ∧ R.Valid := by
  refine ⟨_, Ellipse.bounding_box_eq N E (hsqrt _) (hsqrt _), ?_, ?_⟩
  · show E.center.x - _ ≤ E.center.x + _
    linarith [hsqrt (E.D.m11 / E.D.determinant)]
  · show E.center.y - _ ≤ E.center.y + _
    linarith [hsqrt (E.D.m00 / E.D.determinant)]

/-! ### Instances -/

theorem rationalNumeric_isSqrtAt (q : ℚ) : rationalNumeric.IsSqrtAt (q * q) := by
  unfold Numeric.IsSqrtAt
  show 0 ≤ Rat.sqrt (q * q) ∧ Rat.sqrt (q * q) * Rat.sqrt (q * q) = q * q
  rw [Rat.sqrt_eq]
  exact ⟨abs_nonneg q, abs_mul_abs_self q⟩

theorem sampleEllipse_sqrt :
    rationalNumeric.IsSqrtAt (sampleEllipse.D.m11 / sampleEllipse.D.determinant) ∧
    rationalNumeric.IsSqrtAt (sampleEllipse.D.m00 / sampleEllipse.D.determinant) := by
  have h1 : sampleEllipse.D.m11 / sampleEllipse.D.determinant = (5 / 4 : ℚ) * (5 / 4) := by
    norm_num [sampleEllipse, Mat2.determinant]
  have h2 : sampleEllipse.D.m00 / sampleEllipse.D.determinant = (1 : ℚ) * 1 := by
    norm_num [sampleEllipse, Mat2.determinant]
  rw [h1, h2]
  exact ⟨rationalNumeric_isSqrtAt _, rationalNumeric_isSqrtAt _⟩

/-- Witness of C8: the tilted ellipse `sampleEllipse` over `ℚ` and its boundary
point `(1, 14/5)`. -/
theorem Ellipse.bounding_box_contains_witness :
    sampleEllipse.quad_form ⟨1, 14 / 5⟩ ≤ 1 ∧
    |(⟨1, 14 / 5⟩ : Vec2 ℚ).y - sampleEllipse.center.y| ≤
      rationalNumeric.sqrt (sampleEllipse.D.m00 / sampleEllipse.D.determinant) ∧
    ∃ R : UprightRectangle ℚ, sampleEllipse.bounding_box rationalNumeric = .ok R ∧
      R.y_interval.lo ≤ (⟨1, 14 / 5⟩ : Vec2 ℚ).y ∧ (⟨1, 14 / 5⟩ : Vec2 ℚ).y ≤ R.y_interval.hi := by
  have hq : sampleEllipse.quad_form ⟨1, 14 / 5⟩ ≤ 1 := by
    norm_num [sampleEllipse, Ellipse.quad_form, Mat2.quad, Vec2.sub]
  obtain ⟨_, h2, R, hR, _, _, h5, h6⟩ :=
    Ellipse.bounding_box_contains rationalNumeric sampleEllipse ⟨1, 14 / 5⟩
      (by norm_num [sampleEllipse]) (by norm_num [sampleEllipse])
      (by norm_num [sampleEllipse, Mat2.determinant])
      sampleEllipse_sqrt.1 sampleEllipse_sqrt.2 hq
  exact ⟨hq, h2, R, hR, h5, h6⟩

/-- Witness of C9: the bounding box of the tilted ellipse `sampleEllipse` over
`ℚ` touches the ellipse on its right side. -/
theorem Ellipse.bounding_box_smallest_witness :
    ∃ R : UprightRectangle ℚ, sampleEllipse.bounding_box rationalNumeric = .ok R ∧
      ∃ p : Vec2 ℚ, p.x = R.x_interval.hi ∧ sampleEllipse.quad_form p = 1 := by
  obtain ⟨R, hR, ⟨p, hp1, _, _, hp2⟩, _⟩ :=
    Ellipse.bounding_box_smallest rationalNumeric sampleEllipse
      (by norm_num [sampleEllipse]) (by norm_num [sampleEllipse])
      (by norm_num [sampleEllipse, Mat2.determinant])
      sampleEllipse_sqrt.1 sampleEllipse_sqrt.2
  exact ⟨R, hR, p, hp1, hp2⟩

/-- Witness of C7: over the reals, with the real square root, cosine and sine,
the ellipse for `theta = 0`, `eps = 1/2` contains the point `(1, 0)`. -/
theorem Ellipse.ofAngle_contains_eps_region_witness :
    (Ellipse.ofAngle
      (Numeric.init Real.sqrt Real.cos Real.sin (fun x => Real.log x / Real.log 10) Real.log
        Real.pi (1 + Real.sqrt 2) 10) 0 (1 / 2)).quad_form ⟨1, 0⟩ ≤ 1 := by
  have h := Ellipse.ofAngle_contains_eps_region
    (Numeric.init Real.sqrt Real.cos Real.sin (fun x => Real.log x / Real.log 10) Real.log
      Real.pi (1 + Real.sqrt 2) 10) 0 (1 / 2) ⟨1, 0⟩
    (by simp [Numeric.init])
    ⟨Real.sqrt_nonneg _, Real.mul_self_sqrt (by norm_num)⟩
    ⟨Real.sqrt_nonneg _, Real.mul_self_sqrt (by norm_num)⟩
    (by norm_num) (by norm_num) (by norm_num)
    (by simp [Numeric.init]; norm_num)
  exact h.2.2.2.2.2

end RegionTheorems

section DriverTheorems

set_option linter.unusedSectionVars false

variable {K : Type} [LinearOrderedField K]

/-! ### Ring facts -/

theorem ZOmega.mul_def (x y : ZOmega) : x * y = ZOmega.mul x y := rfl

theorem ZOmega.add_def (x y : ZOmega) : x + y = ZOmega.add x y := rfl

theorem ZSqrt2.sub_def (x y : ZSqrt2) : x - y = ZSqrt2.sub x y := rfl

theorem ZOmega.mul_conj_comm (x : ZOmega) : x * x.conj = x.conj * x := by
  rw [ZOmega.mul_def, ZOmega.mul_def]
  unfold ZOmega.mul ZOmega.conj
  ext <;> simp <;> ring

/-- The product `conj(x)·x` is a real element of ring A: it survives the round
trip through ring B. -/
theorem ZOmega.conj_mul_self_roundtrip (x : ZOmega) :
    ((x.conj * x).to_zsqrt2).toZOmega = x.conj * x := by
  rw [ZOmega.mul_def]
  unfold ZOmega.mul ZOmega.conj ZOmega.to_zsqrt2 ZSqrt2.toZOmega
  ext <;> simp <;> ring

/-- The rational coefficient of `x·conj(x)` is the sum of the four squares. -/
theorem ZOmega.mul_conj_a (x : ZOmega) :
    (x * x.conj).a = x.a * x.a + x.b * x.b + x.c * x.c + x.d * x.d := by
  rw [ZOmega.mul_def]
  unfold ZOmega.mul ZOmega.conj
  simp

theorem to_int_t_pow_two_of_nonneg (k : Int) (hk : 0 ≤ k) :
    to_int_t (gmpf_pow (2 : ℚ) k) = 2 ^ k.toNat := by
  obtain ⟨n, rfl⟩ := Int.eq_ofNat_of_zero_le hk
  unfold to_int_t gmpf_pow
  have h0 : (0 : ℚ) ≤ 2 ^ (n : ℤ) := by positivity
  rw [if_pos h0]
  have : ((2 : ℚ) ^ (n : ℤ)) = ((2 ^ n : ℤ) : ℚ) := by
    rw [zpow_natCast]
    push_cast
    rfl
  rw [this, Int.floor_intCast]
  simp

theorem to_int_t_pow_two_of_neg (k : Int) (hk : k < 0) :
    to_int_t (gmpf_pow (2 : ℚ) k) = 0 := by
  unfold to_int_t gmpf_pow
  have h0 : (0 : ℚ) < 2 ^ k := by positivity
  rw [if_pos h0.le]
  rw [Int.floor_eq_zero_iff]
  refine ⟨h0.le, ?_⟩
  exact zpow_lt_one_of_neg₀ (by norm_num) hk

/-! ### What a completed candidate looks like -/

theorem reduce_loop_irreducible (O : Oracles K) (fuel : Nat) (c : ZOmega) (k : Int)
    (c1 : ZOmega) (k1 : Int) (h : reduce_loop O fuel c k = .ok (c1, k1)) :
    O.is_reducible c1 = false := by
  induction fuel generalizing c k with
  | zero =>
    unfold reduce_loop at h
    split at h
    · cases h
    · cases h
      simp_all
  | succ n ih =>
    unfold reduce_loop at h
    split at h
    · exact ih _ _ h
    · cases h
      simp_all

theorem reduce_loop_le (O : Oracles K) (fuel : Nat) (c : ZOmega) (k : Int)
    (c1 : ZOmega) (k1 : Int) (h : reduce_loop O fuel c k = .ok (c1, k1)) : k1 ≤ k := by
  induction fuel generalizing c k with
  | zero =>
    unfold reduce_loop at h
    split at h
    · cases h
    · cases h
      exact le_rfl
  | succ n ih =>
    unfold reduce_loop at h
    split at h
    · have := ih _ _ h
      omega
    · cases h
      exact le_rfl

/-- A record produced by the candidate body comes from an accepted candidate,
a finished reduction loop and a successful solver call. -/
theorem try_candidate_found (N : Numeric K) (O : Oracles K) (fuel : Nat) (z : Vec2 K)
    (theta eps scaleA : K) (k : Int) (g g1 : RandomState) (candidate : ZOmega)
    (r : RzApproximation K)
    (h : try_candidate N O fuel z theta eps scaleA k g candidate = .ok (some r, g1)) :
    accepts N z eps scaleA candidate = true ∧
    ∃ (reduced : ZOmega) (temp_k : Int) (answer : ZOmega),
      reduce_loop O fuel candidate k = .ok (reduced, temp_k) ∧
      O.diophantine_solver g (xi_of reduced temp_k) = (some answer, g1) ∧
      r = RzApproximation.make N reduced answer temp_k theta eps := by
  unfold try_candidate at h
  split at h
  · rename_i hacc
    refine ⟨hacc, ?_⟩
    split at h
    · cases h
    · rename_i reduced temp_k hred
      split at h
      · rename_i answer g2 hsol
        simp only [Except.ok.injEq, Prod.mk.injEq, Option.some.injEq] at h
        obtain ⟨h1, h2⟩ := h
        subst h2
        exact ⟨reduced, temp_k, answer, hred, hsol, h1.symm⟩
      · simp at h
  · simp at h

/-- A record returned by the candidate loop was produced by the candidate body
on one of the candidates. -/
theorem try_candidates_found (N : Numeric K) (O : Oracles K) (fuel : Nat) (z : Vec2 K)
    (theta eps scaleA : K) (k : Int) (g g1 : RandomState) (cands : List ZOmega)
    (r : RzApproximation K)
    (h : try_candidates N O fuel z theta eps scaleA k g cands = .ok (some r, g1)) :
    ∃ (g0 : RandomState) (candidate : ZOmega), candidate ∈ cands ∧
      try_candidate N O fuel z theta eps scaleA k g0 candidate = .ok (some r, g1) := by
  induction cands generalizing g with
  | nil =>
    unfold try_candidates at h
    simp at h
  | cons c rest ih =>
    unfold try_candidates at h
    split at h
    · cases h
    · rename_i r1 g2 hc
      simp only [Except.ok.injEq, Prod.mk.injEq, Option.some.injEq] at h
      obtain ⟨h1, h2⟩ := h
      subst h1 h2
      exact ⟨g, c, List.mem_cons_self _ _, hc⟩
    · rename_i g2 hc
      obtain ⟨g0, c1, hmem, htry⟩ := ih g2 h
      exact ⟨g0, c1, List.mem_cons_of_mem _ hmem, htry⟩

/-- Every result of the loop of `find_rz_approximation` is the empty record or
was produced by the candidate body in some iteration. -/
theorem rz_loop_result (N : Numeric K) (O : Oracles K) (fuel : Nat) (G : ZOmega → ZOmega)
    (z : Vec2 K) (theta eps tol : K) (max_k : Int) (n : Nat) (k : Int)
    (state : Ellipse K × Ellipse K) (g : RandomState) (r : RzApproximation K)
    (h : rz_loop N O fuel G z theta eps tol max_k n k state g = .ok r) :
    r = RzApproximation.empty ∨
    ∃ (k1 : Int) (g0 g1 : RandomState) (candidate : ZOmega), k ≤ k1 ∧ k1 < max_k ∧
      try_candidate N O fuel z theta eps (scale_factors N k1).1 k1 g0 candidate =
        .ok (some r, g1) := by
  induction n generalizing k state g with
  | zero =>
    unfold rz_loop at h
    split at h
    · cases h
    · cases h
      exact Or.inl rfl
  | succ n ih =>
    unfold rz_loop at h
    split at h
    · rename_i hk
      simp only [] at h
      split at h
      · cases h
      · rename_i r1 g2 hc
        cases h
        obtain ⟨g0, c, _, htry⟩ := try_candidates_found N O fuel z theta eps _ k g g2 _ r hc
        exact Or.inr ⟨k, g0, g2, c, le_rfl, hk, htry⟩
      · rename_i g2 hc
        rcases ih _ _ _ h with h1 | ⟨k1, g0, g1, c, hk1, hk2, htry⟩
        · exact Or.inl h1
        · exact Or.inr ⟨k1, g0, g1, c, by omega, hk2, htry⟩
    · cases h
      exact Or.inl rfl

/-- Every result of the loop of `find_fast_rz_approximation` is the empty
record or was produced by the candidate body in some iteration. -/
theorem fast_loop_result (N : Numeric K) (O : Oracles K) (fuel : Nat) (G : ZOmega → ZOmega)
    (z : Vec2 K) (theta eps tol : K) (max_k : Int) (n : Nat) (k : Int)
    (bboxA bboxB : UprightRectangle K) (g : RandomState) (r : RzApproximation K)
    (h : fast_loop N O fuel G z theta eps tol max_k n k bboxA bboxB g = .ok r) :
    r = RzApproximation.empty ∨
    ∃ (k1 : Int) (g0 g1 : RandomState) (candidate : ZOmega), k ≤ k1 ∧ k1 < max_k ∧
      try_candidate N O fuel z theta eps (scale_factors N k1).1 k1 g0 candidate =
        .ok (some r, g1) := by
  induction n generalizing k bboxA bboxB g with
  | zero =>
    unfold fast_loop at h
    split at h
    · cases h
    · cases h
      exact Or.inl rfl
  | succ n ih =>
    unfold fast_loop at h
    split at h
    · rename_i hk
      simp only [] at h
      split at h
      · cases h
      · split at h
        · cases h
        · rename_i r1 g2 hc
          cases h
          obtain ⟨g0, c, _, htry⟩ := try_candidates_found N O fuel z theta eps _ k g g2 _ r hc
          exact Or.inr ⟨k, g0, g2, c, le_rfl, hk, htry⟩
        · rename_i g2 hc
          split at h
          · cases h
          · split at h
            · cases h
            · rename_i r1 g3 hc2
              cases h
              obtain ⟨g0, c, _, htry⟩ :=
                try_candidates_found N O fuel z theta eps _ k g2 g3 _ r hc2
              exact Or.inr ⟨k, g0, g3, c, le_rfl, hk, htry⟩
            · rename_i g3 hc2
              rcases ih _ _ _ _ h with h1 | ⟨k1, g0, g1, c, hk1, hk2, htry⟩
              · exact Or.inl h1
              · exact Or.inr ⟨k1, g0, g1, c, by omega, hk2, htry⟩
    · cases h
      exact Or.inl rfl

/-! ### The unitarity identity of a found record -/

theorem ZOmega.eq_zero_of_norm_sum (x y : ZOmega)
    (h : (x * x.conj + y * y.conj).a = 0) : x = ZOmega.ofInt 0 := by
  have hsum : (x * x.conj + y * y.conj).a = (x * x.conj).a + (y * y.conj).a := rfl
  rw [hsum, ZOmega.mul_conj_a, ZOmega.mul_conj_a] at h
  have ha : x.a * x.a = 0 := by
    nlinarith [mul_self_nonneg x.a, mul_self_nonneg x.b, mul_self_nonneg x.c,
      mul_self_nonneg x.d, mul_self_nonneg y.a, mul_self_nonneg y.b, mul_self_nonneg y.c,
      mul_self_nonneg y.d]
  have hb : x.b * x.b = 0 := by
    nlinarith [mul_self_nonneg x.a, mul_self_nonneg x.b, mul_self_nonneg x.c,
      mul_self_nonneg x.d, mul_self_nonneg y.a, mul_self_nonneg y.b, mul_self_nonneg y.c,
      mul_self_nonneg y.d]
  have hc : x.c * x.c = 0 := by
    nlinarith [mul_self_nonneg x.a, mul_self_nonneg x.b, mul_self_nonneg x.c,
      mul_self_nonneg x.d, mul_self_nonneg y.a, mul_self_nonneg y.b, mul_self_nonneg y.c,
      mul_self_nonneg y.d]
  have hd : x.d * x.d = 0 := by
    nlinarith [mul_self_nonneg x.a, mul_self_nonneg x.b, mul_self_nonneg x.c,
      mul_self_nonneg x.d, mul_self_nonneg y.a, mul_self_nonneg y.b, mul_self_nonneg y.c,
      mul_self_nonneg y.d]
  ext
  · exact mul_self_eq_zero.mp ha
  · exact mul_self_eq_zero.mp hb
  · exact mul_self_eq_zero.mp hc
  · exact mul_self_eq_zero.mp hd

/-- With a sound solver, a reduced candidate and the answer of the solver on
its `xi` add up to the integer `int_t(2^temp_k)` that the driver computed. -/
theorem norm_sum_of_solver (O : Oracles K) (hsolver : O.SolverSound) (g g1 : RandomState)
    (reduced answer : ZOmega) (temp_k : Int)
    (hsol : O.diophantine_solver g (xi_of reduced temp_k) = (some answer, g1)) :
    reduced * reduced.conj + answer * answer.conj =
      ZOmega.ofInt (to_int_t (gmpf_pow (2 : ℚ) temp_k)) := by
  have h1 := hsolver g _ answer g1 hsol
  have h2 := ZOmega.conj_mul_self_roundtrip reduced
  rw [h1, ZOmega.mul_conj_comm reduced]
  rw [ZOmega.add_def]
  unfold xi_of
  rw [ZSqrt2.sub_def]
  unfold ZSqrt2.sub ZSqrt2.toZOmega ZOmega.add ZOmega.ofInt
  unfold ZSqrt2.toZOmega at h2
  have ha := congrArg ZOmega.a h2
  have hb := congrArg ZOmega.b h2
  have hc := congrArg ZOmega.c h2
  have hd := congrArg ZOmega.d h2
  simp only at ha hb hc hd
  ext
  · simp only
    rw [← ha]
    simp only [ZOmega.to_zsqrt2]
    ring
  · simp only
    rw [← hb]
    simp only [ZOmega.to_zsqrt2]
    ring
  · simp only
    rw [← hc]
    ring
  · simp only
    rw [← hd]
    simp only [ZOmega.to_zsqrt2]
    ring

/-- A record produced by the candidate body satisfies the unitarity identity,
and its parts are the reduced candidate, the working exponent and the answer of
a successful solver call. -/
theorem try_candidate_unitary (N : Numeric K) (O : Oracles K) (fuel : Nat) (z : Vec2 K)
    (theta eps scaleA : K) (k : Int) (g g1 : RandomState) (candidate : ZOmega)
    (r : RzApproximation K) (hsolver : O.SolverSound)
    (hzero : O.is_reducible (ZOmega.ofInt 0) = true)
    (h : try_candidate N O fuel z theta eps scaleA k g candidate = .ok (some r, g1)) :
    r.IsUnitary ∧ O.is_reducible r.u = false ∧
      O.diophantine_solver g (xi_of r.u r.scale_exponent) = (some r.t, g1) := by
  obtain ⟨_, reduced, temp_k, answer, hred, hsol, rfl⟩ :=
    try_candidate_found N O fuel z theta eps scaleA k g g1 candidate r h
  have hirr := reduce_loop_irreducible O fuel candidate k reduced temp_k hred
  have hsum := norm_sum_of_solver O hsolver g g1 reduced answer temp_k hsol
  refine ⟨?_, hirr, hsol⟩
  have hk : 0 ≤ temp_k := by
    by_contra hneg
    push_neg at hneg
    rw [to_int_t_pow_two_of_neg temp_k hneg] at hsum
    have h0 : (reduced * reduced.conj + answer * answer.conj).a = 0 := by
      rw [hsum]
      rfl
    have := ZOmega.eq_zero_of_norm_sum reduced answer h0
    rw [this, hzero] at hirr
    cases hirr
  refine ⟨hk, ?_⟩
  show reduced * reduced.conj + answer * answer.conj = ZOmega.ofInt (2 ^ temp_k.toNat)
  rw [hsum, to_int_t_pow_two_of_nonneg temp_k hk]

theorem RzApproximation.empty_not_found :
    (RzApproximation.empty : RzApproximation K).solution_found = false := rfl

/-- C1. Whenever `find_rz_approximation` or `find_fast_rz_approximation` returns
a record with `solution_found() = true`, the record `(u, t, k)` has `k ≥ 0` and
satisfies `u·conj(u) + t·conj(t) = 2^k` exactly in ring A; the record of the
search loops consists of the reduced candidate `u`, the working exponent `k`
after reduction, and the answer `t` of a successful `diophantine_solver` call on
`xi = 2^k - conj(u)·u`.  The hypotheses are that a successful solver call
returns `t` with `t·conj(t) = xi` and that zero is reducible. -/
theorem found_record_is_unitary (N : Numeric K) (O : Oracles K) (fuel : Nat)
    (g : RandomState) (theta eps tol : K) (kmin kmax : Int)
    (hsolver : O.SolverSound) (hzero : O.is_reducible (ZOmega.ofInt 0) = true) :
    (∀ r : RzApproximation K, find_rz_approximation N O fuel g theta eps tol = .ok r →
      r.solution_found = true →
      r.IsUnitary ∧ (|theta| < N.TOL ∨ (O.is_reducible r.u = false ∧
        ∃ g0 g1 : RandomState,
          O.diophantine_solver g0 (xi_of r.u r.scale_exponent) = (some r.t, g1)))) ∧
    (∀ r : RzApproximation K,
      find_fast_rz_approximation N O fuel g theta eps kmin kmax tol = .ok r →
      r.solution_found = true →
      r.IsUnitary ∧ O.is_reducible r.u = false ∧
        ∃ g0 g1 : RandomState,
          O.diophantine_solver g0 (xi_of r.u r.scale_exponent) = (some r.t, g1)) := by
  constructor
  · intro r h hfound
    unfold find_rz_approximation at h
    split at h
    · rename_i hth
      cases h
      refine ⟨⟨le_rfl, ?_⟩, Or.inl hth⟩
      show ZOmega.ofInt 1 * (ZOmega.ofInt 1).conj + ZOmega.ofInt 0 * (ZOmega.ofInt 0).conj =
        ZOmega.ofInt (2 ^ (0 : Int).toNat)
      decide
    · simp only [] at h
      rcases rz_loop_result N O fuel _ _ theta eps tol _ _ _ _ g r h with h1 |
        ⟨k1, g0, g1, c, _, _, htry⟩
      · rw [h1, RzApproximation.empty_not_found] at hfound
        cases hfound
      · obtain ⟨hu, hirr, hsol⟩ :=
          try_candidate_unitary N O fuel _ theta eps _ k1 g0 g1 c r hsolver hzero htry
        exact ⟨hu, Or.inr ⟨hirr, g0, g1, hsol⟩⟩
  · intro r h hfound
    unfold find_fast_rz_approximation at h
    simp only [] at h
    split at h
    · cases h
    · split at h
      · cases h
      · rcases fast_loop_result N O fuel _ _ theta eps tol _ _ _ _ _ g r h with h1 |
          ⟨k1, g0, g1, c, _, _, htry⟩
        · rw [h1, RzApproximation.empty_not_found] at hfound
          cases hfound
        · obtain ⟨hu, hirr, hsol⟩ :=
            try_candidate_unitary N O fuel _ theta eps _ k1 g0 g1 c r hsolver hzero htry
          exact ⟨hu, hirr, g0, g1, hsol⟩

/-! ### Exhaustion of the fast search -/

theorem fattened_intervals_ok (bboxA bboxB : UprightRectangle K) (eps : K)
    (hA : bboxA.Valid) (hB : bboxB.Valid) (heps : 0 ≤ eps) :
    ∃ A_x B_x A_y B_y : Interval K,
      fattened_intervals bboxA bboxB eps = .ok (A_x, B_x, A_y, B_y) ∧
      A_x.Valid ∧ B_x.Valid ∧ A_y.Valid ∧ B_y.Valid := by
  obtain ⟨A_x, h1, v1⟩ := Interval.fatten_ok bboxA.x_interval eps hA.1 heps
  obtain ⟨B_x, h2, v2⟩ := Interval.fatten_ok bboxB.x_interval eps hB.1 heps
  obtain ⟨A_y, h3, v3⟩ := Interval.fatten_ok bboxA.y_interval eps hA.2 heps
  obtain ⟨B_y, h4, v4⟩ := Interval.fatten_ok bboxB.y_interval eps hB.2 heps
  refine ⟨A_x, B_x, A_y, B_y, ?_, v1, v2, v3, v4⟩
  unfold fattened_intervals
  rw [h1, h2, h3, h4]
  rfl

theorem shifted_intervals_ok (N : Numeric K) (A_x B_x A_y B_y : Interval K)
    (v1 : A_x.Valid) (v2 : B_x.Valid) (v3 : A_y.Valid) (v4 : B_y.Valid) :
    ∃ sA_x sB_x sA_y sB_y : Interval K,
      shifted_intervals N A_x B_x A_y B_y = .ok (sA_x, sB_x, sA_y, sB_y) := by
  obtain ⟨sA_x, h1, _⟩ := Interval.sub_ok A_x N.INV_SQRT2 v1
  obtain ⟨sB_x, h2, _⟩ := Interval.add_ok B_x N.INV_SQRT2 v2
  obtain ⟨sA_y, h3, _⟩ := Interval.sub_ok A_y N.INV_SQRT2 v3
  obtain ⟨sB_y, h4, _⟩ := Interval.add_ok B_y N.INV_SQRT2 v4
  refine ⟨sA_x, sB_x, sA_y, sB_y, ?_⟩
  unfold shifted_intervals
  rw [h1, h2, h3, h4]
  rfl

/-- When the candidate body completes none of the candidates of a list, the
candidate loop ends without a record. -/
theorem try_candidates_none (N : Numeric K) (O : Oracles K) (fuel : Nat) (z : Vec2 K)
    (theta eps scaleA : K) (k : Int) (cands : List ZOmega)
    (hno : ∀ (g0 : RandomState) (c : ZOmega), c ∈ cands →
      ∃ g1 : RandomState, try_candidate N O fuel z theta eps scaleA k g0 c = .ok (none, g1))
    (g : RandomState) :
    ∃ g1 : RandomState, try_candidates N O fuel z theta eps scaleA k g cands = .ok (none, g1) := by
  induction cands generalizing g with
  | nil => exact ⟨g, rfl⟩
  | cons c rest ih =>
    obtain ⟨g1, h1⟩ := hno g c (List.mem_cons_self _ _)
    obtain ⟨g2, h2⟩ := ih (fun g0 c1 hc1 => hno g0 c1 (List.mem_cons_of_mem _ hc1)) g1
    refine ⟨g2, ?_⟩
    unfold try_candidates
    rw [h1]
    exact h2

/-- The loop of the fast driver returns the empty record when no candidate of
any pass is completed at the exponents it runs through. -/
theorem fast_loop_exhausted (N : Numeric K) (O : Oracles K) (fuel : Nat) (G : ZOmega → ZOmega)
    (z : Vec2 K) (theta eps tol : K) (max_k : Int) (heps : 0 ≤ eps) (n : Nat) (k : Int)
    (hn : (max_k - k).toNat ≤ n)
    (bboxA bboxB : UprightRectangle K) (hA : bboxA.Valid) (hB : bboxB.Valid)
    (hno : ∀ (k1 : Int) (g0 : RandomState) (A_x B_x A_y B_y : Interval K) (b : Bool)
      (c : ZOmega), k ≤ k1 → k1 < max_k →
      c ∈ fast_candidates G (O.oneD_optimal_grid_solver A_x B_x tol)
        (O.oneD_optimal_grid_solver A_y B_y tol) b →
      ∃ g1 : RandomState,
        try_candidate N O fuel z theta eps (scale_factors N k1).1 k1 g0 c = .ok (none, g1))
    (g : RandomState) :
    fast_loop N O fuel G z theta eps tol max_k n k bboxA bboxB g = .ok RzApproximation.empty := by
  induction n generalizing k bboxA bboxB g with
  | zero =>
    unfold fast_loop
    have : ¬ k < max_k := by omega
    rw [if_neg this]
  | succ n ih =>
    unfold fast_loop
    split
    · rename_i hk
      simp only []
      have vA := UprightRectangle.rescale_valid_rect bboxA (scale_factors N k).1
        (scale_factors N k).1 hA
      have vB := UprightRectangle.rescale_valid_rect bboxB (scale_factors N k).2
        (scale_factors N k).2 hB
      obtain ⟨A_x, B_x, A_y, B_y, hfat, v1, v2, v3, v4⟩ :=
        fattened_intervals_ok _ _ eps vA vB heps
      rw [hfat]
      simp only []
      obtain ⟨g1, h1⟩ := try_candidates_none N O fuel z theta eps (scale_factors N k).1 k
        (fast_candidates G (O.oneD_optimal_grid_solver A_x B_x tol)
          (O.oneD_optimal_grid_solver A_y B_y tol) false)
        (fun g0 c hc => hno k g0 A_x B_x A_y B_y false c le_rfl hk hc) g
      rw [h1]
      simp only []
      obtain ⟨sA_x, sB_x, sA_y, sB_y, hsh⟩ := shifted_intervals_ok N A_x B_x A_y B_y v1 v2 v3 v4
      rw [hsh]
      simp only []
      obtain ⟨g2, h2⟩ := try_candidates_none N O fuel z theta eps (scale_factors N k).1 k
        (fast_candidates G (O.oneD_optimal_grid_solver sA_x sB_x tol)
          (O.oneD_optimal_grid_solver sA_y sB_y tol) true)
        (fun g0 c hc => hno k g0 sA_x sB_x sA_y sB_y true c le_rfl hk hc) g1
      rw [h2]
      simp only []
      apply ih (k + 1) (by omega)
      · exact UprightRectangle.rescale_valid_rect _ _ _ vA
      · exact UprightRectangle.rescale_valid_rect _ _ _ vB
      · intro k1 g0 a1 a2 a3 a4 b c hk1 hk2 hc
        exact hno k1 g0 a1 a2 a3 a4 b c (by omega) hk2 hc
    · rfl

/-- With an empty range of exponents, `kmax ≤ kmin`, the fast driver returns the
empty record without entering the loop body. -/
theorem find_fast_of_empty_range (N : Numeric K) (O : Oracles K) (fuel : Nat)
    (g : RandomState) (theta eps : K) (kmin kmax : Int) (tol : K)
    (heps : 0 ≤ eps) (hsqrt : ∀ x : K, 0 ≤ N.sqrt x) (hk : kmax ≤ kmin) :
    find_fast_rz_approximation N O fuel g theta eps kmin kmax tol =
      .ok RzApproximation.empty := by
  obtain ⟨bboxA, hbA, vA⟩ := Ellipse.bounding_box_ok N
    (O.optimize_skew (Ellipse.ofAngle N theta eps, Ellipse.ofAxes N 0 0 1 1 0)).2.1 hsqrt
  obtain ⟨bboxB, hbB, vB⟩ := Ellipse.bounding_box_ok N
    (O.optimize_skew (Ellipse.ofAngle N theta eps, Ellipse.ofAxes N 0 0 1 1 0)).2.2 hsqrt
  unfold find_fast_rz_approximation
  simp only []
  rw [hbA, hbB]
  apply fast_loop_exhausted N O fuel _ _ theta eps tol kmax heps _ kmin le_rfl _ _ vA vB
  intro k1 _ _ _ _ _ _ _ h1 h2
  omega

/-! ### The identity case -/

/-- The shortcut of `find_rz_approximation`: for `|theta| < TOL` the identity
record is returned before anything else is computed. -/
theorem find_rz_of_small_theta (N : Numeric K) (O : Oracles K) (fuel : Nat)
    (g : RandomState) (theta eps tol : K) (htheta : |theta| < N.TOL) :
    find_rz_approximation N O fuel g theta eps tol =
      .ok (RzApproximation.make N (ZOmega.ofInt 1) (ZOmega.ofInt 0) 0 theta eps) := by
  unfold find_rz_approximation
  rw [if_pos htheta]

/-- C4. For `theta = 0` and every `eps`, `find_rz_approximation` returns at once
the found solution `u = 1`, `t = 0` with scale exponent `k = 0`: the result is
the record built by the constructor, whatever the enumerators, the solver, the
fuel and the state of the generator are.  The tolerance `TOL` of the numeric
context is positive. -/
theorem find_rz_approximation_zero (N : Numeric K) (O : Oracles K) (fuel : Nat)
    (g : RandomState) (eps tol : K) (hTOL : 0 < N.TOL) :
    find_rz_approximation N O fuel g 0 eps tol =
      .ok (RzApproximation.make N (ZOmega.ofInt 1) (ZOmega.ofInt 0) 0 0 eps) ∧
    (RzApproximation.make N (ZOmega.ofInt 1) (ZOmega.ofInt 0) 0 0 eps).solution_found = true ∧
    (RzApproximation.make N (ZOmega.ofInt 1) (ZOmega.ofInt 0) 0 0 eps).u = ZOmega.ofInt 1 ∧
    (RzApproximation.make N (ZOmega.ofInt 1) (ZOmega.ofInt 0) 0 0 eps).t = ZOmega.ofInt 0 ∧
    (RzApproximation.make N (ZOmega.ofInt 1) (ZOmega.ofInt 0) 0 0 eps).scale_exponent = 0 := by
  refine ⟨?_, rfl, rfl, rfl, rfl⟩
  exact find_rz_of_small_theta N O fuel g 0 eps tol (by simpa using hTOL)

/-! ### The error of a found record -/

theorem Numeric.SQRT2_ne_zero (N : Numeric K) (hs2 : N.SQRT2 * N.SQRT2 = 2) : N.SQRT2 ≠ 0 := by
  intro h0
  rw [h0] at hs2
  norm_num at hs2

theorem gmpf_pow_two_eq (N : Numeric K) (hs2 : N.SQRT2 * N.SQRT2 = 2) (m : Int) :
    gmpf_pow (2 : K) m = gmpf_pow N.SQRT2 (2 * m) := by
  unfold gmpf_pow
  rw [← hs2, mul_zpow, two_mul, zpow_add₀ (Numeric.SQRT2_ne_zero N hs2)]

/-- The scale factor `scaleA` of iteration `k` is `√2^k`. -/
theorem scale_factors_fst (N : Numeric K) (hs2 : N.SQRT2 * N.SQRT2 = 2) (k : Int) :
    (scale_factors N k).1 = gmpf_pow N.SQRT2 k := by
  unfold scale_factors
  split
  · rename_i hk
    show gmpf_pow 2 (Int.tdiv k 2) = _
    rw [gmpf_pow_two_eq N hs2, Int.mul_tdiv_cancel_of_tmod_eq_zero hk]
  · rename_i hk
    show gmpf_pow 2 (Int.tdiv (k - 1) 2) * N.SQRT2 = _
    have hdvd : (2 : Int) ∣ k - 1 := by
      have h1 : ¬ (2 : Int) ∣ k := fun h => hk (Int.dvd_iff_tmod_eq_zero.mp h)
      omega
    rw [gmpf_pow_two_eq N hs2, Int.mul_tdiv_cancel' hdvd]
    unfold gmpf_pow
    rw [zpow_sub_one₀ (Numeric.SQRT2_ne_zero N hs2), inv_mul_cancel_right₀
      (Numeric.SQRT2_ne_zero N hs2)]

/-- The reduction loop leaves the value `candidate / √2^k` unchanged when each
reduction does. -/
theorem reduce_loop_value (N : Numeric K) (O : Oracles K) (hs2 : N.SQRT2 * N.SQRT2 = 2)
    (hred : O.ReducePreservesValue N) (fuel : Nat) (c : ZOmega) (k : Int)
    (c1 : ZOmega) (k1 : Int) (h : reduce_loop O fuel c k = .ok (c1, k1)) :
    c1.real N / gmpf_pow N.SQRT2 k1 = c.real N / gmpf_pow N.SQRT2 k ∧
    c1.imag N / gmpf_pow N.SQRT2 k1 = c.imag N / gmpf_pow N.SQRT2 k := by
  have hne := Numeric.SQRT2_ne_zero N hs2
  have hstep : ∀ (x y : K) (j : Int), y * N.SQRT2 = x →
      y / gmpf_pow N.SQRT2 (j - 1) = x / gmpf_pow N.SQRT2 j := by
    intro x y j hxy
    unfold gmpf_pow
    rw [zpow_sub_one₀ hne, ← hxy]
    field_simp
  induction fuel generalizing c k with
  | zero =>
    unfold reduce_loop at h
    split at h
    · cases h
    · cases h
      exact ⟨rfl, rfl⟩
  | succ n ih =>
    unfold reduce_loop at h
    split at h
    · rename_i hc
      obtain ⟨h1, h2⟩ := ih _ _ h
      obtain ⟨r1, r2⟩ := hred c hc
      exact ⟨h1.trans (hstep _ _ k r1), h2.trans (hstep _ _ k r2)⟩
    · cases h
      exact ⟨rfl, rfl⟩

/-- The argument of the square root in `error()`, spelled out. -/
theorem RzApproximation.error_sq_eq (r : RzApproximation K) :
    r.error_sq = (r.u_val.re - r.z.re) * (r.u_val.re - r.z.re) +
      (r.u_val.im - r.z.im) * (r.u_val.im - r.z.im) +
      (r.t_val.re * r.t_val.re + r.t_val.im * r.t_val.im) := by
  unfold RzApproximation.error_sq Cplx.mul Cplx.conj Cplx.sub
  simp only []
  ring

theorem lt_of_mul_self_lt {a b : K} (ha : 0 ≤ a) (hb : 0 < b) (h : a * a < b * b) : a < b := by
  by_contra hle
  push_neg at hle
  nlinarith

/-- C2. For every `theta` and every `eps > 0`, whenever
`find_fast_rz_approximation` returns a found solution, the reported
`error() = sqrt(|u/√2^k - e^{iθ}|² + |t/√2^k|²)` is strictly less than `eps`,
because the accepted candidate satisfies
`Re(candidate/scaleA · conj z) > 1 - eps²/2`.  Over exact scalars
(`√2·√2 = 2`, `cos² + sin² = 1`, an exact square root), assuming that the
returned record is unitary and that reduction preserves the value `u/√2^k`. -/
theorem fast_error_lt_eps (N : Numeric K) (O : Oracles K) (fuel : Nat) (g : RandomState)
    (theta eps : K) (kmin kmax : Int) (tol : K) (r : RzApproximation K)
    (heps : 0 < eps)
    (hcs : N.cos theta * N.cos theta + N.sin theta * N.sin theta = 1)
    (hs2 : N.SQRT2 * N.SQRT2 = 2)
    (hred : O.ReducePreservesValue N)
    (h : find_fast_rz_approximation N O fuel g theta eps kmin kmax tol = .ok r)
    (hfound : r.solution_found = true)
    (hunit : r.ValuesUnitary)
    (hsq : N.IsSqrtAt r.error_sq) :
    r.error N < eps ∧ r.error_sq < eps * eps ∧
      r.u_val.re * N.cos theta + r.u_val.im * N.sin theta > 1 - eps * eps / 2 := by
  unfold find_fast_rz_approximation at h
  simp only [] at h
  split at h
  · cases h
  split at h
  · cases h
  rcases fast_loop_result N O fuel _ _ theta eps tol _ _ _ _ _ g r h with h1 |
    ⟨k1, g0, g1, c, _, _, htry⟩
  · rw [h1, RzApproximation.empty_not_found] at hfound
    cases hfound
  obtain ⟨hacc, reduced, temp_k, answer, hredl, _, rfl⟩ :=
    try_candidate_found N O fuel _ theta eps _ k1 g0 g1 c _ htry
  obtain ⟨hv1, hv2⟩ := reduce_loop_value N O hs2 hred fuel c k1 reduced temp_k hredl
  unfold accepts at hacc
  rw [decide_eq_true_eq, scale_factors_fst N hs2 k1, ← hv1, ← hv2] at hacc
  have hproj : (RzApproximation.make N reduced answer temp_k theta eps).u_val.re * N.cos theta +
      (RzApproximation.make N reduced answer temp_k theta eps).u_val.im * N.sin theta >
      1 - eps * eps / 2 := hacc
  have hlt : (RzApproximation.make N reduced answer temp_k theta eps).error_sq < eps * eps := by
    rw [RzApproximation.error_sq_eq]
    unfold RzApproximation.ValuesUnitary at hunit
    have hz1 : (RzApproximation.make N reduced answer temp_k theta eps).z.re = N.cos theta := rfl
    have hz2 : (RzApproximation.make N reduced answer temp_k theta eps).z.im = N.sin theta := rfl
    rw [hz1, hz2]
    nlinarith
  refine ⟨?_, hlt, hproj⟩
  unfold RzApproximation.error
  apply lt_of_mul_self_lt hsq.1 heps
  rw [hsq.2]
  exact hlt

/-! ### Running the candidate body -/

theorem try_candidate_of_rejected (N : Numeric K) (O : Oracles K) (fuel : Nat) (z : Vec2 K)
    (theta eps scaleA : K) (k : Int) (g : RandomState) (c : ZOmega)
    (hacc : accepts N z eps scaleA c = false) :
    try_candidate N O fuel z theta eps scaleA k g c = .ok (none, g) := by
  unfold try_candidate
  rw [hacc]
  rfl

theorem try_candidate_of_failure (N : Numeric K) (O : Oracles K) (fuel : Nat) (z : Vec2 K)
    (theta eps scaleA : K) (k : Int) (g g1 : RandomState) (c c1 : ZOmega) (k1 : Int)
    (hacc : accepts N z eps scaleA c = true)
    (hred : reduce_loop O fuel c k = .ok (c1, k1))
    (hsol : O.diophantine_solver g (xi_of c1 k1) = (none, g1)) :
    try_candidate N O fuel z theta eps scaleA k g c = .ok (none, g1) := by
  unfold try_candidate
  rw [hacc, if_pos rfl, hred]
  simp only []
  rw [hsol]

theorem try_candidate_of_success (N : Numeric K) (O : Oracles K) (fuel : Nat) (z : Vec2 K)
    (theta eps scaleA : K) (k : Int) (g g1 : RandomState) (c c1 answer : ZOmega) (k1 : Int)
    (hacc : accepts N z eps scaleA c = true)
    (hred : reduce_loop O fuel c k = .ok (c1, k1))
    (hsol : O.diophantine_solver g (xi_of c1 k1) = (some answer, g1)) :
    try_candidate N O fuel z theta eps scaleA k g c =
      .ok (some (RzApproximation.make N c1 answer k1 theta eps), g1) := by
  unfold try_candidate
  rw [hacc, if_pos rfl, hred]
  simp only []
  rw [hsol]

theorem try_candidates_cons_of_none (N : Numeric K) (O : Oracles K) (fuel : Nat) (z : Vec2 K)
    (theta eps scaleA : K) (k : Int) (g g1 : RandomState) (c : ZOmega) (rest : List ZOmega)
    (h : try_candidate N O fuel z theta eps scaleA k g c = .ok (none, g1)) :
    try_candidates N O fuel z theta eps scaleA k g (c :: rest) =
      try_candidates N O fuel z theta eps scaleA k g1 rest := by
  rw [try_candidates, h]

theorem try_candidates_cons_of_some (N : Numeric K) (O : Oracles K) (fuel : Nat) (z : Vec2 K)
    (theta eps scaleA : K) (k : Int) (g g1 : RandomState) (c : ZOmega) (rest : List ZOmega)
    (r : RzApproximation K)
    (h : try_candidate N O fuel z theta eps scaleA k g c = .ok (some r, g1)) :
    try_candidates N O fuel z theta eps scaleA k g (c :: rest) = .ok (some r, g1) := by
  rw [try_candidates, h]

/-- With a solver that always gives up, the candidate body completes nothing
as soon as the reduction loop of the candidate ends within the fuel. -/
theorem try_candidate_of_failing_solver (N : Numeric K) (O : Oracles K) (fuel : Nat)
    (z : Vec2 K) (theta eps scaleA : K) (k : Int) (g : RandomState) (c c1 : ZOmega) (k1 : Int)
    (hfail : ∀ (g0 : RandomState) (xi : ZSqrt2), (O.diophantine_solver g0 xi).1 = none)
    (hred : reduce_loop O fuel c k = .ok (c1, k1)) :
    ∃ g1 : RandomState, try_candidate N O fuel z theta eps scaleA k g c = .ok (none, g1) := by
  cases hacc : accepts N z eps scaleA c with
  | false => exact ⟨g, try_candidate_of_rejected N O fuel z theta eps scaleA k g c hacc⟩
  | true =>
    have h1 := hfail g (xi_of c1 k1)
    refine ⟨(O.diophantine_solver g (xi_of c1 k1)).2, ?_⟩
    apply try_candidate_of_failure N O fuel z theta eps scaleA k g _ c c1 k1 hacc hred
    rw [← h1]

/-- The fast driver returns the record that the first pass of its first
iteration completes. -/
theorem find_fast_of_first_pass (N : Numeric K) (O : Oracles K) (fuel : Nat) (g g1 : RandomState)
    (theta eps : K) (kmin kmax : Int) (tol : K) (r : RzApproximation K)
    (heps : 0 ≤ eps) (hsqrt : ∀ x : K, 0 ≤ N.sqrt x) (hk : kmin < kmax)
    (h : ∀ A_x B_x A_y B_y : Interval K,
      try_candidates N O fuel ⟨N.cos theta, N.sin theta⟩ theta eps (scale_factors N kmin).1 kmin g
        (fast_candidates
          (O.optimize_skew (Ellipse.ofAngle N theta eps, Ellipse.ofAxes N 0 0 1 1 0)).1
          (O.oneD_optimal_grid_solver A_x B_x tol) (O.oneD_optimal_grid_solver A_y B_y tol)
          false) = .ok (some r, g1)) :
    find_fast_rz_approximation N O fuel g theta eps kmin kmax tol = .ok r := by
  obtain ⟨bboxA, hbA, vA⟩ := Ellipse.bounding_box_ok N
    (O.optimize_skew (Ellipse.ofAngle N theta eps, Ellipse.ofAxes N 0 0 1 1 0)).2.1 hsqrt
  obtain ⟨bboxB, hbB, vB⟩ := Ellipse.bounding_box_ok N
    (O.optimize_skew (Ellipse.ofAngle N theta eps, Ellipse.ofAxes N 0 0 1 1 0)).2.2 hsqrt
  unfold find_fast_rz_approximation
  simp only []
  rw [hbA, hbB]
  simp only []
  obtain ⟨n, hn⟩ : ∃ n : Nat, (kmax - kmin).toNat = n + 1 := ⟨(kmax - kmin).toNat - 1, by omega⟩
  rw [hn]
  unfold fast_loop
  rw [if_pos hk]
  simp only []
  obtain ⟨A_x, B_x, A_y, B_y, hfat, _⟩ := fattened_intervals_ok _ _ eps
    (UprightRectangle.rescale_valid_rect bboxA (scale_factors N kmin).1 (scale_factors N kmin).1 vA)
    (UprightRectangle.rescale_valid_rect bboxB (scale_factors N kmin).2 (scale_factors N kmin).2 vB)
    heps
  rw [hfat]
  simp only []
  rw [h A_x B_x A_y B_y]

/-! ### Sample runs over the rationals -/

theorem zeroSolver_sound (K : Type) : (witnessOracles K).SolverSound := by
  intro g xi t g1 h
  change zeroSolver g xi = (some t, g1) at h
  unfold zeroSolver at h
  split at h
  · rename_i hxi
    simp only [Prod.mk.injEq, Option.some.injEq] at h
    rw [← h.1, hxi]
    decide
  · simp at h

theorem rationalNumeric_sqrt_nonneg (x : ℚ) : 0 ≤ rationalNumeric.sqrt x :=
  Rat.sqrt_nonneg x

theorem xi_of_zero_exponent (c : ZOmega) :
    xi_of c 0 = ⟨1 - (c.conj * c).a, 0 - (c.conj * c).b⟩ := by
  unfold xi_of
  rw [to_int_t_pow_two_of_nonneg 0 le_rfl]
  rfl

theorem xi_of_neg_exponent (c : ZOmega) (k : Int) (hk : k < 0) :
    xi_of c k = ⟨0 - (c.conj * c).a, 0 - (c.conj * c).b⟩ := by
  unfold xi_of
  rw [to_int_t_pow_two_of_neg k hk]
  rfl

/-- The sample run of the fast driver: at `theta = 0`, `eps = 1/2` the
candidate `1 + i` is accepted, reduced once and not completed, and the candidate
`1` is completed at `k = 0`. -/
theorem sample_fast_run (N : Numeric K) (hsqrt : ∀ x : K, 0 ≤ N.sqrt x)
    (hcos : N.cos 0 = 1) (hsin : N.sin 0 = 0) :
    find_fast_rz_approximation N (witnessOracles K) 8 0 0 (1 / 2) 0 3 (1 / 1000000) =
      .ok (RzApproximation.make N (ZOmega.ofInt 1) (ZOmega.ofInt 0) 0 0 (1 / 2)) := by
  apply find_fast_of_first_pass N (witnessOracles K) 8 0 2 0 (1 / 2) 0 3
    (1 / 1000000) _ (by norm_num) hsqrt (by norm_num)
  intro A_x B_x A_y B_y
  have hlist : fast_candidates
      ((witnessOracles K).optimize_skew
        (Ellipse.ofAngle N 0 (1 / 2), Ellipse.ofAxes N 0 0 1 1 0)).1
      ((witnessOracles K).oneD_optimal_grid_solver A_x B_x (1 / 1000000))
      ((witnessOracles K).oneD_optimal_grid_solver A_y B_y (1 / 1000000)) false =
      [⟨1, 0, 1, 0⟩, ⟨1, 0, 0, 0⟩, ⟨0, 0, 1, 0⟩, ⟨0, 0, 0, 0⟩] := rfl
  rw [hlist]
  have hscale : (scale_factors N 0).1 = 1 := by
    simp [scale_factors, gmpf_pow]
  rw [hscale, hcos, hsin]
  rw [try_candidates_cons_of_none N (witnessOracles K) 8 ⟨1, 0⟩ 0 (1 / 2) 1 0 0 1
    ⟨1, 0, 1, 0⟩ _
    (try_candidate_of_failure N (witnessOracles K) 8 ⟨1, 0⟩ 0 (1 / 2) 1 0 0 1
      ⟨1, 0, 1, 0⟩ ⟨0, 1, 0, 0⟩ (-1)
      (by norm_num [accepts, ZOmega.real, ZOmega.imag])
      (by rfl)
      (by rw [xi_of_neg_exponent _ _ (by norm_num)]; rfl))]
  exact try_candidates_cons_of_some N (witnessOracles K) 8 ⟨1, 0⟩ 0 (1 / 2) 1 0 1 2
    ⟨1, 0, 0, 0⟩ _ _
    (try_candidate_of_success N (witnessOracles K) 8 ⟨1, 0⟩ 0 (1 / 2) 1 0 1 2
      ⟨1, 0, 0, 0⟩ ⟨1, 0, 0, 0⟩ ⟨0, 0, 0, 0⟩ 0
      (by norm_num [accepts, ZOmega.real, ZOmega.imag])
      (by rfl)
      (by rw [xi_of_zero_exponent]; rfl))

theorem witness_run :
    find_fast_rz_approximation rationalNumeric (witnessOracles ℚ) 8 0 0 (1 / 2) 0 3
      (1 / 1000000) =
      .ok (RzApproximation.make rationalNumeric (ZOmega.ofInt 1) (ZOmega.ofInt 0) 0 0 (1 / 2)) :=
  sample_fast_run rationalNumeric rationalNumeric_sqrt_nonneg (by simp [rationalNumeric])
    (by simp [rationalNumeric])

/-- Witness of C1: the sample run of the fast driver over `ℚ` returns the found
record `(1, 0, 0)`, which satisfies the identity. -/
theorem found_record_is_unitary_witness :
    (witnessOracles ℚ).SolverSound ∧
    (witnessOracles ℚ).is_reducible (ZOmega.ofInt 0) = true ∧
    ∃ r : RzApproximation ℚ,
      find_fast_rz_approximation rationalNumeric (witnessOracles ℚ) 8 0 0 (1 / 2) 0 3
        (1 / 1000000) = .ok r ∧
      r.solution_found = true ∧ r.u = ZOmega.ofInt 1 ∧ r.t = ZOmega.ofInt 0 ∧
      r.scale_exponent = 0 ∧ r.IsUnitary :=
  ⟨zeroSolver_sound ℚ, by decide, _, witness_run, rfl, rfl, rfl, rfl,
    ((found_record_is_unitary rationalNumeric (witnessOracles ℚ) 8 0 0 (1 / 2) (1 / 1000000) 0 3
      (zeroSolver_sound ℚ) (by decide)).2 _ witness_run rfl).1⟩

/-- Witness of C4: over `ℚ`, with a positive tolerance, the exact driver
returns the identity record for `theta = 0`. -/
theorem find_rz_approximation_zero_witness :
    0 < rationalNumeric.TOL ∧
    find_rz_approximation rationalNumeric (failingOracles ℚ) 0 0 0 (1 / 2) (1 / 1000000) =
      .ok (RzApproximation.make rationalNumeric (ZOmega.ofInt 1) (ZOmega.ofInt 0) 0 0 (1 / 2)) :=
  ⟨by norm_num [rationalNumeric],
    (find_rz_approximation_zero rationalNumeric (failingOracles ℚ) 0 0 (1 / 2) (1 / 1000000)
      (by norm_num [rationalNumeric])).1⟩

/-! ### A run that exhausts its range -/

theorem failingOracles_candidates (K : Type) (G_state : Ellipse K × Ellipse K)
    (A_x B_x A_y B_y : Interval K) (tol : K) (b : Bool) (c : ZOmega)
    (hc : c ∈ fast_candidates ((failingOracles K).optimize_skew G_state).1
      ((failingOracles K).oneD_optimal_grid_solver A_x B_x tol)
      ((failingOracles K).oneD_optimal_grid_solver A_y B_y tol) b) :
    c = ⟨0, 0, 0, 0⟩ ∨ (failingOracles K).is_reducible c = false ∨ c = ⟨1, 0, 1, 0⟩ := by
  cases b with
  | false =>
    change c ∈ [(⟨1, 0, 1, 0⟩ : ZOmega), ⟨1, 0, 0, 0⟩, ⟨0, 0, 1, 0⟩, ⟨0, 0, 0, 0⟩] at hc
    simp only [List.mem_cons, List.mem_singleton, List.not_mem_nil, or_false] at hc
    rcases hc with rfl | rfl | rfl | rfl
    · exact Or.inr (Or.inr rfl)
    · exact Or.inr (Or.inl rfl)
    · exact Or.inr (Or.inl rfl)
    · exact Or.inl rfl
  | true =>
    change c ∈ [(⟨1, 1, 1, 0⟩ : ZOmega), ⟨1, 1, 0, 0⟩, ⟨0, 1, 1, 0⟩, ⟨0, 1, 0, 0⟩] at hc
    simp only [List.mem_cons, List.mem_singleton, List.not_mem_nil, or_false] at hc
    rcases hc with rfl | rfl | rfl | rfl
    · exact Or.inr (Or.inl rfl)
    · exact Or.inr (Or.inl rfl)
    · exact Or.inr (Or.inl rfl)
    · exact Or.inr (Or.inl rfl)

theorem reduce_loop_of_irreducible (O : Oracles K) (fuel : Nat) (c : ZOmega) (k : Int)
    (h : O.is_reducible c = false) : reduce_loop O fuel c k = .ok (c, k) := by
  cases fuel with
  | zero => simp [reduce_loop, h]
  | succ n => simp [reduce_loop, h]

/-! ### A run over the reals -/

/-- The sample reduction (division by `√2`) preserves the represented value
when `SQRT2` and `INV_SQRT2` are what their names say. -/
theorem sampleOracles_reduce_value (N : Numeric K) (l1 : List ZOmega) (l2 : List ZSqrt2)
    (solver : RandomState → ZSqrt2 → Option ZOmega × RandomState)
    (hs2 : N.SQRT2 * N.SQRT2 = 2) (hinv : N.INV_SQRT2 * N.SQRT2 = 1) :
    (sampleOracles K l1 l2 solver).ReducePreservesValue N := by
  intro c hc
  change (decide ((c.a + c.c) % 2 = 0) && decide ((c.b + c.d) % 2 = 0)) = true at hc
  rw [Bool.and_eq_true, decide_eq_true_eq, decide_eq_true_eq] at hc
  obtain ⟨h1, h2⟩ := hc
  have e1 : (c.b - c.d) / 2 * 2 = c.b - c.d := by omega
  have e2 : (c.a + c.c) / 2 * 2 = c.a + c.c := by omega
  have e3 : (c.b + c.d) / 2 * 2 = c.b + c.d := by omega
  have e4 : (c.c - c.a) / 2 * 2 = c.c - c.a := by omega
  have f1 : (((c.b - c.d) / 2 : Int) : K) * 2 = (c.b : K) - (c.d : K) := by
    exact_mod_cast congrArg (Int.cast : Int → K) e1
  have f2 : (((c.a + c.c) / 2 : Int) : K) * 2 = (c.a : K) + (c.c : K) := by
    exact_mod_cast congrArg (Int.cast : Int → K) e2
  have f3 : (((c.b + c.d) / 2 : Int) : K) * 2 = (c.b : K) + (c.d : K) := by
    exact_mod_cast congrArg (Int.cast : Int → K) e3
  have f4 : (((c.c - c.a) / 2 : Int) : K) * 2 = (c.c : K) - (c.a : K) := by
    exact_mod_cast congrArg (Int.cast : Int → K) e4
  have hS : N.SQRT2 = 2 * N.INV_SQRT2 := by
    have : N.INV_SQRT2 * (N.SQRT2 * N.SQRT2) = N.SQRT2 := by
      rw [← mul_assoc, hinv, one_mul]
    rw [hs2] at this
    linarith
  constructor
  · show ((((c.b - c.d) / 2 : Int) : K) +
      ((((c.a + c.c) / 2 : Int) : K) - (((c.c - c.a) / 2 : Int) : K)) * N.INV_SQRT2) * N.SQRT2 =
      (c.a : K) + ((c.b : K) - (c.d : K)) * N.INV_SQRT2
    have : ((((c.b - c.d) / 2 : Int) : K) +
        ((((c.a + c.c) / 2 : Int) : K) - (((c.c - c.a) / 2 : Int) : K)) * N.INV_SQRT2) * N.SQRT2 =
        (((c.b - c.d) / 2 : Int) : K) * 2 * N.INV_SQRT2 +
        ((((c.a + c.c) / 2 : Int) : K) * 2 - (((c.c - c.a) / 2 : Int) : K) * 2) / 2 *
          (N.INV_SQRT2 * N.SQRT2) := by
      rw [hS]
      ring
    rw [this, f1, f2, f4, hinv]
    ring
  · show ((((c.b + c.d) / 2 : Int) : K) +
      ((((c.a + c.c) / 2 : Int) : K) + (((c.c - c.a) / 2 : Int) : K)) * N.INV_SQRT2) * N.SQRT2 =
      (c.c : K) + ((c.b : K) + (c.d : K)) * N.INV_SQRT2
    have : ((((c.b + c.d) / 2 : Int) : K) +
        ((((c.a + c.c) / 2 : Int) : K) + (((c.c - c.a) / 2 : Int) : K)) * N.INV_SQRT2) * N.SQRT2 =
        (((c.b + c.d) / 2 : Int) : K) * 2 * N.INV_SQRT2 +
        ((((c.a + c.c) / 2 : Int) : K) * 2 + (((c.c - c.a) / 2 : Int) : K) * 2) / 2 *
          (N.INV_SQRT2 * N.SQRT2) := by
      rw [hS]
      ring
    rw [this, f3, f2, f4, hinv]
    ring

/-- Witness of C2: over the reals, with the real square root, cosine and sine,
the sample run at `theta = 0`, `eps = 1/2` returns the record `(1, 0, 0)`, whose
error is below `1/2`. -/
theorem fast_error_lt_eps_witness :
    ∃ r : RzApproximation ℝ,
      find_fast_rz_approximation
        (Numeric.init Real.sqrt Real.cos Real.sin (fun x => Real.log x / Real.log 10) Real.log
          Real.pi (1 + Real.sqrt 2) 10) (witnessOracles ℝ) 8 0 0 (1 / 2) 0 3 (1 / 1000000) =
        .ok r ∧
      r.solution_found = true ∧ r.ValuesUnitary ∧
      r.error (Numeric.init Real.sqrt Real.cos Real.sin (fun x => Real.log x / Real.log 10)
        Real.log Real.pi (1 + Real.sqrt 2) 10) < 1 / 2 := by
  have hrun := sample_fast_run
    (Numeric.init Real.sqrt Real.cos Real.sin (fun x => Real.log x / Real.log 10) Real.log
      Real.pi (1 + Real.sqrt 2) 10) Real.sqrt_nonneg Real.cos_zero Real.sin_zero
  have hs2 : Real.sqrt 2 * Real.sqrt 2 = 2 := Real.mul_self_sqrt (by norm_num)
  have hne : Real.sqrt 2 ≠ 0 := by
    intro h0
    rw [h0] at hs2
    norm_num at hs2
  have hunit : (RzApproximation.make
      (Numeric.init Real.sqrt Real.cos Real.sin (fun x => Real.log x / Real.log 10) Real.log
        Real.pi (1 + Real.sqrt 2) 10) (ZOmega.ofInt 1) (ZOmega.ofInt 0) 0 0
      (1 / 2 : ℝ)).ValuesUnitary := by
    simp [RzApproximation.ValuesUnitary, RzApproximation.make, ZOmega.real, ZOmega.imag,
      ZOmega.ofInt, gmpf_pow]
  refine ⟨_, hrun, rfl, hunit, ?_⟩
  exact (fast_error_lt_eps _ (witnessOracles ℝ) 8 0 0 (1 / 2) 0 3 (1 / 1000000) _
    (by norm_num) (by simp [Numeric.init]) hs2
    (sampleOracles_reduce_value _ _ _ _ hs2 (by
      show 1 / Real.sqrt 2 * Real.sqrt 2 = 1
      field_simp))
    hrun rfl hunit
    ⟨Real.sqrt_nonneg _, Real.mul_self_sqrt (by
      rw [RzApproximation.error_sq_eq]
      exact add_nonneg (add_nonneg (mul_self_nonneg _) (mul_self_nonneg _))
        (add_nonneg (mul_self_nonneg _) (mul_self_nonneg _)))⟩).1

/-! ### Independence of the state of the generator -/

theorem try_candidate_fst_indep (N : Numeric K) (O : Oracles K) (fuel : Nat) (z : Vec2 K)
    (theta eps scaleA : K) (k : Int) (c : ZOmega) (hpure : O.SolverAnswerPure)
    (g g' : RandomState) :
    (try_candidate N O fuel z theta eps scaleA k g c).map Prod.fst =
      (try_candidate N O fuel z theta eps scaleA k g' c).map Prod.fst := by
  unfold try_candidate
  split
  · split
    · rfl
    · rename_i reduced temp_k _
      have h := hpure g g' (xi_of reduced temp_k)
      rcases h1 : O.diophantine_solver g (xi_of reduced temp_k) with ⟨a1, s1⟩
      rcases h2 : O.diophantine_solver g' (xi_of reduced temp_k) with ⟨a2, s2⟩
      rw [h1, h2] at h
      simp only at h
      subst h
      cases a1 <;> rfl
  · rfl

theorem try_candidates_fst_indep (N : Numeric K) (O : Oracles K) (fuel : Nat) (z : Vec2 K)
    (theta eps scaleA : K) (k : Int) (hpure : O.SolverAnswerPure) (cands : List ZOmega)
    (g g' : RandomState) :
    (try_candidates N O fuel z theta eps scaleA k g cands).map Prod.fst =
      (try_candidates N O fuel z theta eps scaleA k g' cands).map Prod.fst := by
  induction cands generalizing g g' with
  | nil => rfl
  | cons c rest ih =>
    have h := try_candidate_fst_indep N O fuel z theta eps scaleA k c hpure g g'
    unfold try_candidates
    rcases h1 : try_candidate N O fuel z theta eps scaleA k g c with e1 | ⟨o1, s1⟩ <;>
    rcases h2 : try_candidate N O fuel z theta eps scaleA k g' c with e2 | ⟨o2, s2⟩ <;>
    rw [h1, h2] at h <;> simp [Except.map] at h
    · subst h
      rfl
    · subst h
      cases o1 with
      | none => exact ih s1 s2
      | some r => rfl

/-- What the loops do with the result of a candidate loop depends only on its
first component when the continuation does not depend on the generator. -/
theorem except_fst_cases {α : Type} (x y : Except Fault (Option α × RandomState))
    (h : x.map Prod.fst = y.map Prod.fst) :
    (∃ e, x = .error e ∧ y = .error e) ∨
    (∃ r s1 s2, x = .ok (some r, s1) ∧ y = .ok (some r, s2)) ∨
    (∃ s1 s2, x = .ok (none, s1) ∧ y = .ok (none, s2)) := by
  rcases x with e1 | ⟨o1, s1⟩ <;> rcases y with e2 | ⟨o2, s2⟩ <;> simp [Except.map] at h
  · exact Or.inl ⟨e1, rfl, by rw [h]⟩
  · subst h
    cases o1 with
    | none => exact Or.inr (Or.inr ⟨s1, s2, rfl, rfl⟩)
    | some r => exact Or.inr (Or.inl ⟨r, s1, s2, rfl, rfl⟩)

theorem rz_loop_indep (N : Numeric K) (O : Oracles K) (fuel : Nat) (G : ZOmega → ZOmega)
    (z : Vec2 K) (theta eps tol : K) (max_k : Int) (hpure : O.SolverAnswerPure) (n : Nat)
    (k : Int) (state : Ellipse K × Ellipse K) (g g' : RandomState) :
    rz_loop N O fuel G z theta eps tol max_k n k state g =
      rz_loop N O fuel G z theta eps tol max_k n k state g' := by
  induction n generalizing k state g g' with
  | zero => rfl
  | succ n ih =>
    unfold rz_loop
    split
    · simp only []
      rcases except_fst_cases _ _ (try_candidates_fst_indep N O fuel z theta eps
        (scale_factors N k).1 k hpure
        ((O.twoD_grid_solver_ellipse_fatten
          (state.1.rescale N (scale_factors N k).1, state.2.rescale N (scale_factors N k).2)
          eps tol).map G) g g') with ⟨e, h1, h2⟩ | ⟨r, s1, s2, h1, h2⟩ | ⟨s1, s2, h1, h2⟩
      · rw [h1, h2]
      · rw [h1, h2]
      · rw [h1, h2]
        exact ih _ _ s1 s2
    · rfl

theorem fast_loop_indep (N : Numeric K) (O : Oracles K) (fuel : Nat) (G : ZOmega → ZOmega)
    (z : Vec2 K) (theta eps tol : K) (max_k : Int) (hpure : O.SolverAnswerPure) (n : Nat)
    (k : Int) (bboxA bboxB : UprightRectangle K) (g g' : RandomState) :
    fast_loop N O fuel G z theta eps tol max_k n k bboxA bboxB g =
      fast_loop N O fuel G z theta eps tol max_k n k bboxA bboxB g' := by
  induction n generalizing k bboxA bboxB g g' with
  | zero => rfl
  | succ n ih =>
    unfold fast_loop
    split
    · simp only []
      split
      · rfl
      · rename_i A_x B_x A_y B_y _
        rcases except_fst_cases _ _ (try_candidates_fst_indep N O fuel z theta eps
          (scale_factors N k).1 k hpure
          (fast_candidates G (O.oneD_optimal_grid_solver A_x B_x tol)
            (O.oneD_optimal_grid_solver A_y B_y tol) false) g g') with
          ⟨e, h1, h2⟩ | ⟨r, s1, s2, h1, h2⟩ | ⟨s1, s2, h1, h2⟩
        · rw [h1, h2]
        · rw [h1, h2]
        · rw [h1, h2]
          simp only []
          split
          · rfl
          · rename_i sA_x sB_x sA_y sB_y _
            rcases except_fst_cases _ _ (try_candidates_fst_indep N O fuel z theta eps
              (scale_factors N k).1 k hpure
              (fast_candidates G (O.oneD_optimal_grid_solver sA_x sB_x tol)
                (O.oneD_optimal_grid_solver sA_y sB_y tol) true) s1 s2) with
              ⟨e, h3, h4⟩ | ⟨r, s3, s4, h3, h4⟩ | ⟨s3, s4, h3, h4⟩
            · rw [h3, h4]
            · rw [h3, h4]
            · rw [h3, h4]
              exact ih _ _ _ s3 s4
    · rfl

/-- When the answer of the Diophantine solver does not depend on the state of
the generator, neither do the results of the two drivers and of the search that
`main` runs after seeding the generator from the clock: the drivers hand the
generator to the solver and use it nowhere else. -/
theorem search_independent_of_seed (N : Numeric K) (O : Oracles K) (fuel : Nat)
    (theta eps : K) (kmin kmax : Int) (tol : K) (hpure : O.SolverAnswerPure)
    (g1 g2 : RandomState) (t1 t2 : Nat) :
    find_fast_rz_approximation N O fuel g1 theta eps kmin kmax tol =
      find_fast_rz_approximation N O fuel g2 theta eps kmin kmax tol ∧
    find_rz_approximation N O fuel g1 theta eps tol =
      find_rz_approximation N O fuel g2 theta eps tol ∧
    main_search N O fuel t1 theta eps kmin kmax = main_search N O fuel t2 theta eps kmin kmax := by
  have hfast : ∀ (th : K) (tl : K) (a b : RandomState),
      find_fast_rz_approximation N O fuel a th eps kmin kmax tl =
        find_fast_rz_approximation N O fuel b th eps kmin kmax tl := by
    intro th tl a b
    unfold find_fast_rz_approximation
    simp only []
    split
    · rfl
    · split
      · rfl
      · exact fast_loop_indep N O fuel _ _ th eps tl kmax hpure _ _ _ _ a b
  refine ⟨hfast theta tol g1 g2, ?_, hfast _ _ t1 t2⟩
  unfold find_rz_approximation
  split
  · rfl
  · exact rz_loop_indep N O fuel _ _ theta eps tol _ hpure _ _ _ g1 g2

theorem witnessOracles_pure (K : Type) [LinearOrderedField K] :
    (witnessOracles K).SolverAnswerPure := by
  intro g g' xi
  change (zeroSolver g xi).1 = (zeroSolver g' xi).1
  unfold zeroSolver
  split <;> rfl

/-- A run of the search that `main` starts at two different clock values, over
`ℚ`, with a solver whose answer ignores the generator. -/
theorem search_independent_of_seed_witness :
    (witnessOracles ℚ).SolverAnswerPure ∧
    main_search rationalNumeric (witnessOracles ℚ) 8 1700000000 0 (1 / 2) 0 3 =
      main_search rationalNumeric (witnessOracles ℚ) 8 1700000001 0 (1 / 2) 0 3 :=
  ⟨witnessOracles_pure ℚ,
    (search_independent_of_seed rationalNumeric (witnessOracles ℚ) 8 0 (1 / 2) 0 3
      (1 / 1000000) (witnessOracles_pure ℚ) 0 1 1700000000 1700000001).2.2⟩

/-! ### The two drivers side by side -/

theorem try_candidates_cons (N : Numeric K) (O : Oracles K) (fuel : Nat) (z : Vec2 K)
    (theta eps scaleA : K) (k : Int) (c : ZOmega) (rest : List ZOmega) (g : RandomState) :
    try_candidates N O fuel z theta eps scaleA k g (c :: rest) =
      match try_candidate N O fuel z theta eps scaleA k g c with
      | .error f => .error f
      | .ok (some r, g1) => .ok (some r, g1)
      | .ok (none, g1) => try_candidates N O fuel z theta eps scaleA k g1 rest := by
  rw [try_candidates]

theorem try_candidates_append (N : Numeric K) (O : Oracles K) (fuel : Nat) (z : Vec2 K)
    (theta eps scaleA : K) (k : Int) (l1 l2 : List ZOmega) (g : RandomState) :
    try_candidates N O fuel z theta eps scaleA k g (l1 ++ l2) =
      match try_candidates N O fuel z theta eps scaleA k g l1 with
      | .error f => .error f
      | .ok (some r, g1) => .ok (some r, g1)
      | .ok (none, g1) => try_candidates N O fuel z theta eps scaleA k g1 l2 := by
  induction l1 generalizing g with
  | nil => rfl
  | cons c rest ih =>
    rw [List.cons_append, try_candidates_cons, try_candidates_cons]
    rcases try_candidate N O fuel z theta eps scaleA k g c with e | ⟨o, g1⟩
    · rfl
    · cases o with
      | some r => rfl
      | none => exact ih g1

theorem fast_bbox_valid (bb : UprightRectangle K × UprightRectangle K) (N : Numeric K)
    (hA : bb.1.Valid) (hB : bb.2.Valid) (i : Nat) :
    (fast_bbox bb N i).1.Valid ∧ (fast_bbox bb N i).2.Valid := by
  induction i with
  | zero => exact ⟨hA, hB⟩
  | succ i ih =>
    exact ⟨UprightRectangle.rescale_valid_rect _ _ _
        (UprightRectangle.rescale_valid_rect _ _ _ ih.1),
      UprightRectangle.rescale_valid_rect _ _ _
        (UprightRectangle.rescale_valid_rect _ _ _ ih.2)⟩

/-- The loops of the two drivers, started together at iteration `i`, return the
same result when in every iteration the exact enumeration delivers the
candidates of the two passes of the fast enumeration, in the same order. -/
theorem loops_agree (N : Numeric K) (O : Oracles K) (fuel : Nat) (G : ZOmega → ZOmega)
    (z : Vec2 K) (theta eps tol : K) (max_k : Int) (heps : 0 ≤ eps)
    (st : Ellipse K × Ellipse K) (bb : UprightRectangle K × UprightRectangle K)
    (hA : bb.1.Valid) (hB : bb.2.Valid)
    (hsame : ∀ i : Nat, (i : Int) < max_k →
      ∀ A_x B_x A_y B_y sA_x sB_x sA_y sB_y : Interval K,
        fattened_intervals
          ((fast_bbox bb N i).1.rescale (scale_factors N i).1 (scale_factors N i).1)
          ((fast_bbox bb N i).2.rescale (scale_factors N i).2 (scale_factors N i).2) eps =
          .ok (A_x, B_x, A_y, B_y) →
        shifted_intervals N A_x B_x A_y B_y = .ok (sA_x, sB_x, sA_y, sB_y) →
        (O.twoD_grid_solver_ellipse_fatten
          ((rz_state N st i).1.rescale N (scale_factors N i).1,
           (rz_state N st i).2.rescale N (scale_factors N i).2) eps tol).map G =
          fast_candidates G (O.oneD_optimal_grid_solver A_x B_x tol)
            (O.oneD_optimal_grid_solver A_y B_y tol) false ++
          fast_candidates G (O.oneD_optimal_grid_solver sA_x sB_x tol)
            (O.oneD_optimal_grid_solver sA_y sB_y tol) true)
    (n i : Nat) (g : RandomState) :
    rz_loop N O fuel G z theta eps tol max_k n i (rz_state N st i) g =
      fast_loop N O fuel G z theta eps tol max_k n i (fast_bbox bb N i).1 (fast_bbox bb N i).2
        g := by
  induction n generalizing i g with
  | zero => rfl
  | succ n ih =>
    unfold rz_loop fast_loop
    by_cases hk : (i : Int) < max_k
    · rw [if_pos hk, if_pos hk]
      simp only []
      obtain ⟨vA, vB⟩ := fast_bbox_valid bb N hA hB i
      obtain ⟨A_x, B_x, A_y, B_y, hfat, v1, v2, v3, v4⟩ := fattened_intervals_ok
        ((fast_bbox bb N i).1.rescale (scale_factors N i).1 (scale_factors N i).1)
        ((fast_bbox bb N i).2.rescale (scale_factors N i).2 (scale_factors N i).2) eps
        (UprightRectangle.rescale_valid_rect _ _ _ vA)
        (UprightRectangle.rescale_valid_rect _ _ _ vB) heps
      obtain ⟨sA_x, sB_x, sA_y, sB_y, hsh⟩ := shifted_intervals_ok N A_x B_x A_y B_y v1 v2 v3 v4
      rw [hfat]
      simp only []
      rw [hsame i hk A_x B_x A_y B_y sA_x sB_x sA_y sB_y hfat hsh, try_candidates_append]
      rcases h1 : try_candidates N O fuel z theta eps (scale_factors N i).1 i g
        (fast_candidates G (O.oneD_optimal_grid_solver A_x B_x tol)
          (O.oneD_optimal_grid_solver A_y B_y tol) false) with e | ⟨o, g1⟩
      · rfl
      · cases o with
        | some r => rfl
        | none =>
          simp only []
          rw [hsh]
          simp only []
          rcases h2 : try_candidates N O fuel z theta eps (scale_factors N i).1 i g1
            (fast_candidates G (O.oneD_optimal_grid_solver sA_x sB_x tol)
              (O.oneD_optimal_grid_solver sA_y sB_y tol) true) with e | ⟨o, g2⟩
          · rfl
          · cases o with
            | some r => rfl
            | none =>
              simp only []
              have := ih (i + 1) g2
              rw [Nat.cast_succ] at this
              exact this
    · rw [if_neg hk, if_neg hk]

/-- For `|theta| ≥ TOL`, with the fast variant given the bounds `kmin = 0`,
`kmax = 1000` of the exact variant and the same target vector, the two drivers
run the same acceptance test, reduction and completion: if in every iteration
the exact enumeration delivers the candidates of the two passes of the fast
enumeration in the same order, `find_rz_approximation` and
`find_fast_rz_approximation` return the same result.  Whether the enumerators
do so is not decided here. -/
theorem find_rz_eq_find_fast (N : Numeric K) (O : Oracles K) (fuel : Nat) (g : RandomState)
    (theta eps tol : K) (bboxA bboxB : UprightRectangle K)
    (htheta : N.TOL ≤ |theta|)
    (hcos : N.cos_double theta = N.cos theta) (hsin : N.sin_double theta = N.sin theta)
    (heps : 0 ≤ eps) (hsqrt : ∀ x : K, 0 ≤ N.sqrt x)
    (hbA : (O.optimize_skew (Ellipse.ofAngle N theta eps,
      Ellipse.ofAxes N 0 0 1 1 0)).2.1.bounding_box N = .ok bboxA)
    (hbB : (O.optimize_skew (Ellipse.ofAngle N theta eps,
      Ellipse.ofAxes N 0 0 1 1 0)).2.2.bounding_box N = .ok bboxB)
    (hsame : ∀ i : Nat, (i : Int) < 1000 →
      ∀ A_x B_x A_y B_y sA_x sB_x sA_y sB_y : Interval K,
        fattened_intervals
          ((fast_bbox (bboxA, bboxB) N i).1.rescale (scale_factors N i).1 (scale_factors N i).1)
          ((fast_bbox (bboxA, bboxB) N i).2.rescale (scale_factors N i).2 (scale_factors N i).2)
          eps = .ok (A_x, B_x, A_y, B_y) →
        shifted_intervals N A_x B_x A_y B_y = .ok (sA_x, sB_x, sA_y, sB_y) →
        (O.twoD_grid_solver_ellipse_fatten
          ((rz_state N (O.optimize_skew (Ellipse.ofAngle N theta eps,
              Ellipse.ofAxes N 0 0 1 1 0)).2 i).1.rescale N (scale_factors N i).1,
           (rz_state N (O.optimize_skew (Ellipse.ofAngle N theta eps,
              Ellipse.ofAxes N 0 0 1 1 0)).2 i).2.rescale N (scale_factors N i).2)
          eps tol).map
            (O.optimize_skew (Ellipse.ofAngle N theta eps, Ellipse.ofAxes N 0 0 1 1 0)).1 =
          fast_candidates
            (O.optimize_skew (Ellipse.ofAngle N theta eps, Ellipse.ofAxes N 0 0 1 1 0)).1
            (O.oneD_optimal_grid_solver A_x B_x tol)
            (O.oneD_optimal_grid_solver A_y B_y tol) false ++
          fast_candidates
            (O.optimize_skew (Ellipse.ofAngle N theta eps, Ellipse.ofAxes N 0 0 1 1 0)).1
            (O.oneD_optimal_grid_solver sA_x sB_x tol)
            (O.oneD_optimal_grid_solver sA_y sB_y tol) true) :
    find_rz_approximation N O fuel g theta eps tol =
      find_fast_rz_approximation N O fuel g theta eps 0 1000 tol := by
  obtain ⟨RA, hRA, vA⟩ := Ellipse.bounding_box_ok N
    (O.optimize_skew (Ellipse.ofAngle N theta eps, Ellipse.ofAxes N 0 0 1 1 0)).2.1 hsqrt
  obtain ⟨RB, hRB, vB⟩ := Ellipse.bounding_box_ok N
    (O.optimize_skew (Ellipse.ofAngle N theta eps, Ellipse.ofAxes N 0 0 1 1 0)).2.2 hsqrt
  rw [hbA] at hRA
  rw [hbB] at hRB
  cases hRA
  cases hRB
  unfold find_rz_approximation find_fast_rz_approximation
  rw [if_neg (not_lt.mpr htheta)]
  simp only []
  rw [hbA, hbB, hcos, hsin]
  simp only []
  exact loops_agree N O fuel _ _ theta eps tol 1000 heps _ (bboxA, bboxB) vA vB hsame _ 0 g

/-- At `theta = 0` the exact driver returns the identity record at once, while
the fast driver given the bounds `kmin = kmax = 0` returns the record of "no
solution": the two drivers do not agree for every choice of the bounds. -/
theorem find_rz_find_fast_disagree :
    ¬ SameOutcome
      (find_rz_approximation rationalNumeric (failingOracles ℚ) 8 0 0 (1 / 2) (1 / 1000000))
      (find_fast_rz_approximation rationalNumeric (failingOracles ℚ) 8 0 0 (1 / 2) 0 0
        (1 / 1000000)) := by
  rw [find_rz_of_small_theta rationalNumeric (failingOracles ℚ) 8 0 0 (1 / 2) (1 / 1000000)
      (by norm_num [rationalNumeric]),
    find_fast_of_empty_range rationalNumeric (failingOracles ℚ) 8 0 0 (1 / 2) 0 0
      (1 / 1000000) (by norm_num) rationalNumeric_sqrt_nonneg le_rfl]
  rintro ⟨ra, rb, h1, h2, h | h⟩
  · cases h2
    exact absurd h.2.1 (by decide)
  · cases h1
    exact absurd h.1 (by decide)

/-- A run of the two drivers over `ℚ`, at `theta = 1/10`, with sample oracles
that deliver the same candidates to both: they return the same result. -/
theorem find_rz_eq_find_fast_witness :
    find_rz_approximation rationalNumeric (witnessOracles ℚ) 8 0 (1 / 10) (1 / 2)
        (1 / 1000000) =
      find_fast_rz_approximation rationalNumeric (witnessOracles ℚ) 8 0 (1 / 10) (1 / 2) 0 1000
        (1 / 1000000) := by
  obtain ⟨RA, hRA, _⟩ := Ellipse.bounding_box_ok rationalNumeric
    ((witnessOracles ℚ).optimize_skew (Ellipse.ofAngle rationalNumeric (1 / 10) (1 / 2),
      Ellipse.ofAxes rationalNumeric 0 0 1 1 0)).2.1 rationalNumeric_sqrt_nonneg
  obtain ⟨RB, hRB, _⟩ := Ellipse.bounding_box_ok rationalNumeric
    ((witnessOracles ℚ).optimize_skew (Ellipse.ofAngle rationalNumeric (1 / 10) (1 / 2),
      Ellipse.ofAxes rationalNumeric 0 0 1 1 0)).2.2 rationalNumeric_sqrt_nonneg
  exact find_rz_eq_find_fast rationalNumeric (witnessOracles ℚ) 8 0 (1 / 10) (1 / 2)
    (1 / 1000000) RA RB (by norm_num [rationalNumeric, abs_of_pos]) rfl rfl (by norm_num)
    rationalNumeric_sqrt_nonneg hRA hRB
    (fun _ _ _ _ _ _ _ _ _ _ _ _ => rfl)


end DriverTheorems

section RegionOperationTheorems

set_option linter.unusedSectionVars false

variable {K : Type} [LinearOrderedField K]

/-! ### Intervals: fatten, rescale, contains -/

/-- Counterexample to C11: for the valid interval `[0, 1]` and the margin
`d = -1` the constructor inside `fatten` exits the process: no interval is
returned. -/
theorem Interval.fatten_negative_margin_fails :
    (⟨0, 1, 1⟩ : Interval ℚ).Valid ∧
      (⟨0, 1, 1⟩ : Interval ℚ).fatten (-1) = .error Fault.exit_failure := by
  constructor
  · norm_num [Interval.Valid]
  · norm_num [Interval.fatten, Interval.make]

/-- C11, as amended. For every valid interval `I` and every margin `d` with
`I.lo - d ≤ I.hi + d` (in particular every `d ≥ 0`), `I.fatten(d)` returns an
interval with lower bound `I.lo - d` and upper bound `I.hi + d`, which again
satisfies `lo ≤ hi`; for every other margin the constructor exits the process.
The interval `I` is a value and is not modified. -/
theorem Interval.fatten_spec (I : Interval K) (d : K) (hI : I.Valid) :
    (0 ≤ d → I.lo - d ≤ I.hi + d) ∧
    (I.lo - d ≤ I.hi + d →
      ∃ J : Interval K, I.fatten d = .ok J ∧ J.lo = I.lo - d ∧ J.hi = I.hi + d ∧
        J.width = (I.hi - I.lo) + 2 * d ∧ J.Valid) ∧
    (¬ I.lo - d ≤ I.hi + d → I.fatten d = .error Fault.exit_failure) := by
  refine ⟨?_, ?_, ?_⟩
  · intro hd
    unfold Interval.Valid at hI
    linarith
  · intro h
    refine ⟨_, Interval.make_ok h, rfl, rfl, ?_, h⟩
    show I.hi + d - (I.lo - d) = _
    ring
  · intro h
    unfold Interval.fatten Interval.make
    rw [if_pos (not_le.mp h)]

/-- Witness of the amended C11: the interval `[0, 1]` over `ℚ` fattened by
`1/2`. -/
theorem Interval.fatten_spec_witness :
    (⟨0, 1, 1⟩ : Interval ℚ).Valid ∧
    ∃ J : Interval ℚ, (⟨0, 1, 1⟩ : Interval ℚ).fatten (1 / 2) = .ok J ∧
      J.lo = -(1 / 2) ∧ J.hi = 3 / 2 := by
  have hv : (⟨0, 1, 1⟩ : Interval ℚ).Valid := by norm_num [Interval.Valid]
  obtain ⟨J, h1, h2, h3, _⟩ :=
    (Interval.fatten_spec (⟨0, 1, 1⟩ : Interval ℚ) (1 / 2) hv).2.1 (by norm_num)
  refine ⟨hv, J, h1, ?_, ?_⟩
  · rw [h2]
    norm_num
  · rw [h3]
    norm_num

/-- C12. For every valid interval and every scale factor `s` (positive, zero or
negative), `Interval::rescale(s)` leaves the interval with the bounds `lo·s` and
`hi·s` in increasing order (swapped when `s < 0`), so that `lo ≤ hi` still
holds, and with the width re-derived as `hi - lo`, which is `|s|` times the old
`hi - lo` (the old width, when the stored width was `hi - lo`). -/
theorem Interval.rescale_spec (I : Interval K) (s : K) (hI : I.Valid) :
    (I.rescale s).Valid ∧
    (I.rescale s).lo = min (I.lo * s) (I.hi * s) ∧
    (I.rescale s).hi = max (I.lo * s) (I.hi * s) ∧
    (s < 0 → (I.rescale s).lo = I.hi * s ∧ (I.rescale s).hi = I.lo * s) ∧
    (0 ≤ s → (I.rescale s).lo = I.lo * s ∧ (I.rescale s).hi = I.hi * s) ∧
    (I.rescale s).width = (I.rescale s).hi - (I.rescale s).lo ∧
    (I.rescale s).width = |s| * (I.hi - I.lo) ∧
    (I.width = I.hi - I.lo → (I.rescale s).width = |s| * I.width) := by
  have hv := Interval.rescale_valid I s hI
  unfold Interval.Valid at hI
  by_cases hs : s < 0
  · have e1 : (I.rescale s).lo = I.hi * s := by simp [Interval.rescale, hs]
    have e2 : (I.rescale s).hi = I.lo * s := by simp [Interval.rescale, hs]
    have e3 : (I.rescale s).width = I.lo * s - I.hi * s := by simp [Interval.rescale, hs]
    have hle : I.hi * s ≤ I.lo * s := mul_le_mul_of_nonpos_right hI hs.le
    have hw : (I.rescale s).width = |s| * (I.hi - I.lo) := by
      rw [e3, abs_of_neg hs]
      ring
    refine ⟨hv, ?_, ?_, fun _ => ⟨e1, e2⟩, fun h => absurd hs (not_lt.mpr h), ?_, hw, ?_⟩
    · rw [e1, min_eq_right hle]
    · rw [e2, max_eq_left hle]
    · rw [e1, e2, e3]
    · intro h
      rw [hw, h]
  · have hs0 : 0 ≤ s := not_lt.mp hs
    have e1 : (I.rescale s).lo = I.lo * s := by simp [Interval.rescale, hs]
    have e2 : (I.rescale s).hi = I.hi * s := by simp [Interval.rescale, hs]
    have e3 : (I.rescale s).width = I.hi * s - I.lo * s := by simp [Interval.rescale, hs]
    have hle : I.lo * s ≤ I.hi * s := mul_le_mul_of_nonneg_right hI hs0
    have hw : (I.rescale s).width = |s| * (I.hi - I.lo) := by
      rw [e3, abs_of_nonneg hs0]
      ring
    refine ⟨hv, ?_, ?_, fun h => absurd h hs, fun _ => ⟨e1, e2⟩, ?_, hw, ?_⟩
    · rw [e1, min_eq_left hle]
    · rw [e2, max_eq_right hle]
    · rw [e1, e2, e3]
    · intro h
      rw [hw, h]

/-- Witness of C12: the interval `[1, 3]` over `ℚ` rescaled by `-2`. -/
theorem Interval.rescale_spec_witness :
    (⟨1, 3, 2⟩ : Interval ℚ).Valid ∧
    ((⟨1, 3, 2⟩ : Interval ℚ).rescale (-2)).lo = -6 ∧
    ((⟨1, 3, 2⟩ : Interval ℚ).rescale (-2)).hi = -2 ∧
    ((⟨1, 3, 2⟩ : Interval ℚ).rescale (-2)).width = 4 := by
  have hv : (⟨1, 3, 2⟩ : Interval ℚ).Valid := by norm_num [Interval.Valid]
  obtain ⟨_, _, _, h4, _, _, h7, _⟩ := Interval.rescale_spec (⟨1, 3, 2⟩ : Interval ℚ) (-2) hv
  obtain ⟨h5, h6⟩ := h4 (by norm_num)
  refine ⟨hv, ?_, ?_, ?_⟩
  · rw [h5]
    norm_num
  · rw [h6]
    norm_num
  · rw [h7]
    norm_num [abs_of_neg]

/-- The test of `Interval::contains` reads `(hi - x)(x - lo) > -tol` when `tol`
is positive. -/
theorem Interval.contains_eq_true_iff (I : Interval K) (x tol : K) (htol : 0 < tol) :
    I.contains x tol = true ↔ (I.hi - x) * (x - I.lo) > -tol := by
  unfold Interval.contains
  rw [Bool.or_eq_true, decide_eq_true_eq, decide_eq_true_eq]
  constructor
  · rintro (h | h)
    · linarith
    · exact (abs_lt.mp h).1
  · intro h
    by_cases hq : (I.hi - x) * (x - I.lo) > 0
    · exact Or.inl hq
    · right
      rw [abs_lt]
      exact ⟨h, by linarith [not_lt.mp hq]⟩

/-- C13. For every interval and every `tol > 0`, `Interval::contains(x, tol)` is
true exactly when `(hi - x)(x - lo) > -tol`, which is the disjunction
`(hi - x)(x - lo) > 0` or `|(hi - x)(x - lo)| < tol` of the code; in particular
it is true for every `x` with `lo ≤ x ≤ hi`, the endpoints included. -/
theorem Interval.contains_iff (I : Interval K) (x tol : K) (htol : 0 < tol) :
    (I.contains x tol = true ↔ (I.hi - x) * (x - I.lo) > -tol) ∧
    (I.contains x tol = true ↔
      ((I.hi - x) * (x - I.lo) > 0 ∨ |(I.hi - x) * (x - I.lo)| < tol)) ∧
    (I.lo ≤ x → x ≤ I.hi → I.contains x tol = true) := by
  have hor : I.contains x tol = true ↔
      ((I.hi - x) * (x - I.lo) > 0 ∨ |(I.hi - x) * (x - I.lo)| < tol) := by
    unfold Interval.contains
    rw [Bool.or_eq_true, decide_eq_true_eq, decide_eq_true_eq]
  have hiff := Interval.contains_eq_true_iff I x tol htol
  refine ⟨hiff, hor, ?_⟩
  intro h1 h2
  rw [hiff]
  have : 0 ≤ (I.hi - x) * (x - I.lo) := mul_nonneg (by linarith) (by linarith)
  linarith

/-- Witness of C13: the endpoint `1` of `[1, 3]` over `ℚ` is contained, with
`tol = 1/100`. -/
theorem Interval.contains_iff_witness :
    (0 : ℚ) < 1 / 100 ∧ (⟨1, 3, 2⟩ : Interval ℚ).contains 1 (1 / 100) = true :=
  ⟨by norm_num,
    (Interval.contains_iff (⟨1, 3, 2⟩ : Interval ℚ) 1 (1 / 100) (by norm_num)).2.2
      (le_refl (1 : ℚ)) (by show (1 : ℚ) ≤ 3; norm_num)⟩

/-- C14. `contains` is monotonic under `fatten`: for every valid interval `I`,
every point `x`, every `tol > 0` and every margin `d ≥ 0`, `I.fatten(d)` returns
an interval, and if `I.contains(x, tol)` then `I.fatten(d).contains(x, tol)`. -/
theorem Interval.contains_fatten (I : Interval K) (x tol d : K) (hI : I.Valid)
    (htol : 0 < tol) (hd : 0 ≤ d) (hc : I.contains x tol = true) :
    ∃ J : Interval K, I.fatten d = .ok J ∧ J.contains x tol = true := by
  unfold Interval.Valid at hI
  have hle : I.lo - d ≤ I.hi + d := by linarith
  refine ⟨_, Interval.make_ok hle, ?_⟩
  have h1 := (Interval.contains_eq_true_iff I x tol htol).mp hc
  rw [Interval.contains_eq_true_iff _ x tol htol]
  show (I.hi + d - x) * (x - (I.lo - d)) > -tol
  have : (I.hi + d - x) * (x - (I.lo - d)) =
      (I.hi - x) * (x - I.lo) + d * (I.hi - I.lo) + d * d := by ring
  rw [this]
  have h2 : 0 ≤ d * (I.hi - I.lo) := mul_nonneg hd (by linarith)
  have h3 : 0 ≤ d * d := mul_nonneg hd hd
  linarith

/-- Witness of C14: the point `3` of `[1, 3]` over `ℚ` stays contained after
fattening by `1/2`. -/
theorem Interval.contains_fatten_witness :
    (⟨1, 3, 2⟩ : Interval ℚ).contains 3 (1 / 100) = true ∧
    ∃ J : Interval ℚ, (⟨1, 3, 2⟩ : Interval ℚ).fatten (1 / 2) = .ok J ∧
      J.contains 3 (1 / 100) = true := by
  have hc : (⟨1, 3, 2⟩ : Interval ℚ).contains 3 (1 / 100) = true := by
    norm_num [Interval.contains]
  exact ⟨hc, Interval.contains_fatten (⟨1, 3, 2⟩ : Interval ℚ) 3 (1 / 100) (1 / 2)
    (by norm_num [Interval.Valid]) (by norm_num) (by norm_num) hc⟩

/-! ### Ellipses: rescale, normalize, operators -/

theorem Mat2.ext_of_entries {A B : Mat2 K} (h0 : A.m00 = B.m00) (h1 : A.m01 = B.m01)
    (h2 : A.m10 = B.m10) (h3 : A.m11 = B.m11) : A = B := by
  cases A
  cases B
  simp only [Mat2.mk.injEq]
  exact ⟨h0, h1, h2, h3⟩

theorem Vec2.ext_of_coords {v w : Vec2 K} (h0 : v.x = w.x) (h1 : v.y = w.y) : v = w := by
  cases v
  cases w
  simp only [Vec2.mk.injEq]
  exact ⟨h0, h1⟩

/-- C15. For every ellipse and every nonzero scale factor `s`,
`Ellipse::rescale(s)` followed by `Ellipse::rescale(1/s)` reproduces the
original quadratic form `D`, the original centre and the original semi-axis
lengths, exactly. -/
theorem Ellipse.rescale_rescale_inv (N : Numeric K) (E : Ellipse K) (s : K) (hs : s ≠ 0) :
    ((E.rescale N s).rescale N (1 / s)).D = E.D ∧
    ((E.rescale N s).rescale N (1 / s)).center = E.center ∧
    ((E.rescale N s).rescale N (1 / s)).semi_major_axis = E.semi_major_axis ∧
    ((E.rescale N s).rescale N (1 / s)).semi_minor_axis = E.semi_minor_axis := by
  have habs : |s| * |1 / s| = 1 := by
    rw [← abs_mul, mul_one_div_cancel hs, abs_one]
  refine ⟨?_, ?_, ?_, ?_⟩
  · apply Mat2.ext_of_entries
    · show 1 / (1 / s * (1 / s)) * (1 / (s * s) * E.D.m00) = E.D.m00
      field_simp
    · show 1 / (1 / s * (1 / s)) * (1 / (s * s) * E.D.m01) = E.D.m01
      field_simp
    · show 1 / (1 / s * (1 / s)) * (1 / (s * s) * E.D.m10) = E.D.m10
      field_simp
    · show 1 / (1 / s * (1 / s)) * (1 / (s * s) * E.D.m11) = E.D.m11
      field_simp
  · apply Vec2.ext_of_coords
    · show 1 / s * (s * E.center.x) = E.center.x
      field_simp
    · show 1 / s * (s * E.center.y) = E.center.y
      field_simp
  · show E.semi_major_axis * |s| * |1 / s| = E.semi_major_axis
    rw [mul_assoc, habs, mul_one]
  · show E.semi_minor_axis * |s| * |1 / s| = E.semi_minor_axis
    rw [mul_assoc, habs, mul_one]

/-- Witness of C15: the tilted ellipse `sampleEllipse` over `ℚ`, rescaled by
`3` and then by `1/3`. -/
theorem Ellipse.rescale_rescale_inv_witness :
    (3 : ℚ) ≠ 0 ∧
    ((sampleEllipse.rescale rationalNumeric 3).rescale rationalNumeric (1 / 3)).D =
      sampleEllipse.D ∧
    ((sampleEllipse.rescale rationalNumeric 3).rescale rationalNumeric (1 / 3)).center =
      sampleEllipse.center :=
  ⟨by norm_num,
    (Ellipse.rescale_rescale_inv rationalNumeric sampleEllipse 3 (by norm_num)).1,
    (Ellipse.rescale_rescale_inv rationalNumeric sampleEllipse 3 (by norm_num)).2.1⟩

/-- C16. `Ellipse::rescale(s)` scales the geometric ellipse by `s`: for every
ellipse `E`, every nonzero `s`, every point `p` and every `tol`, the rescaled
ellipse has the form `D/s²` and the centre `s·center`, contains `s·p` with
tolerance `tol` if and only if `E` contains `p` with tolerance `tol`, and its
stored semi-axes are the old ones multiplied by `|s|`. -/
theorem Ellipse.rescale_contains (N : Numeric K) (E : Ellipse K) (s : K) (p : Vec2 K)
    (tol : K) (hs : s ≠ 0) :
    (E.rescale N s).D = Mat2.smul (1 / (s * s)) E.D ∧
    (E.rescale N s).center = Vec2.smul s E.center ∧
    (E.rescale N s).quad_form (Vec2.smul s p) = E.quad_form p ∧
    ((E.rescale N s).contains (Vec2.smul s p) tol = true ↔ E.contains p tol = true) ∧
    (E.rescale N s).semi_major_axis = E.semi_major_axis * |s| ∧
    (E.rescale N s).semi_minor_axis = E.semi_minor_axis * |s| := by
  have hq : (E.rescale N s).quad_form (Vec2.smul s p) = E.quad_form p := by
    show (s * p.x - s * E.center.x) *
        (1 / (s * s) * E.D.m00 * (s * p.x - s * E.center.x) +
          1 / (s * s) * E.D.m01 * (s * p.y - s * E.center.y)) +
      (s * p.y - s * E.center.y) *
        (1 / (s * s) * E.D.m10 * (s * p.x - s * E.center.x) +
          1 / (s * s) * E.D.m11 * (s * p.y - s * E.center.y)) =
      (p.x - E.center.x) * (E.D.m00 * (p.x - E.center.x) + E.D.m01 * (p.y - E.center.y)) +
      (p.y - E.center.y) * (E.D.m10 * (p.x - E.center.x) + E.D.m11 * (p.y - E.center.y))
    field_simp
    ring
  refine ⟨rfl, rfl, hq, ?_, rfl, rfl⟩
  unfold Ellipse.contains
  simp only []
  rw [hq]

/-- Witness of C16: the tilted ellipse `sampleEllipse` over `ℚ`, its boundary
point `(1, 14/5)` and the scale factor `-2`. -/
theorem Ellipse.rescale_contains_witness :
    (-2 : ℚ) ≠ 0 ∧
    ((sampleEllipse.rescale rationalNumeric (-2)).contains (Vec2.smul (-2) ⟨1, 14 / 5⟩)
      (1 / 100) = true ↔ sampleEllipse.contains ⟨1, 14 / 5⟩ (1 / 100) = true) :=
  ⟨by norm_num,
    (Ellipse.rescale_contains rationalNumeric sampleEllipse (-2) ⟨1, 14 / 5⟩ (1 / 100)
      (by norm_num)).2.2.2.1⟩

theorem Mat2.determinant_smul (t : K) (M : Mat2 K) :
    (Mat2.smul t M).determinant = t * t * M.determinant := by
  unfold Mat2.smul Mat2.determinant
  ring

/-- What `normalize()` does to any ellipse with `det D > 0`, over exact square
roots: it returns `s` with `s⁴ = det D`, the new determinant is one, and the
new `area()` is `PI` times the product of the old stored axes times
`sqrt(det D)`. -/
theorem Ellipse.normalize_facts (N : Numeric K) (E : Ellipse K) (hdet : 0 < E.D.determinant)
    (h1 : N.IsSqrtAt E.D.determinant) (h2 : N.IsSqrtAt (N.sqrt E.D.determinant)) :
    (E.normalize N).1 * (E.normalize N).1 * ((E.normalize N).1 * (E.normalize N).1) =
      E.D.determinant ∧
    (E.normalize N).2 = E.rescale N (E.normalize N).1 ∧
    (E.normalize N).2.D.determinant = 1 ∧
    (E.normalize N).2.area N =
      N.PI * (E.semi_major_axis * E.semi_minor_axis) * N.sqrt E.D.determinant := by
  have hs4 : N.sqrt (N.sqrt E.D.determinant) * N.sqrt (N.sqrt E.D.determinant) *
      (N.sqrt (N.sqrt E.D.determinant) * N.sqrt (N.sqrt E.D.determinant)) =
      E.D.determinant := by
    rw [h2.2, h1.2]
  have hss : N.sqrt (N.sqrt E.D.determinant) * N.sqrt (N.sqrt E.D.determinant) ≠ 0 := by
    intro h0
    rw [h0, mul_zero] at hs4
    exact absurd hs4.symm (ne_of_gt hdet)
  refine ⟨hs4, rfl, ?_, ?_⟩
  · show (Mat2.smul (1 / (N.sqrt (N.sqrt E.D.determinant) * N.sqrt (N.sqrt E.D.determinant)))
      E.D).determinant = 1
    rw [Mat2.determinant_smul]
    have : 1 / (N.sqrt (N.sqrt E.D.determinant) * N.sqrt (N.sqrt E.D.determinant)) *
        (1 / (N.sqrt (N.sqrt E.D.determinant) * N.sqrt (N.sqrt E.D.determinant))) *
        E.D.determinant =
        E.D.determinant / (N.sqrt (N.sqrt E.D.determinant) * N.sqrt (N.sqrt E.D.determinant) *
          (N.sqrt (N.sqrt E.D.determinant) * N.sqrt (N.sqrt E.D.determinant))) := by
      field_simp
    rw [this, hs4, div_self (ne_of_gt hdet)]
  · show N.PI * (E.semi_major_axis * |N.sqrt (N.sqrt E.D.determinant)|) *
      (E.semi_minor_axis * |N.sqrt (N.sqrt E.D.determinant)|) = _
    rw [abs_of_nonneg h2.1]
    linear_combination (N.PI * E.semi_major_axis * E.semi_minor_axis) * h2.2

/-- The axes that the constructor `Ellipse(center, D)` stores for the identity
form: the branch for a vanishing discriminant yields `sqrt(2)/2` for both. -/
theorem Ellipse.ofMatrix_identity_axes (N : Numeric K) (c : Vec2 K) (hTOL : 0 < N.TOL)
    (h1 : N.sqrt 1 = 1) :
    (Ellipse.ofMatrix N c ⟨1, 0, 0, 1⟩).semi_major_axis = N.sqrt 2 / 2 ∧
    (Ellipse.ofMatrix N c ⟨1, 0, 0, 1⟩).semi_minor_axis = N.sqrt 2 / 2 := by
  have hdet : (⟨1, 0, 0, 1⟩ : Mat2 K).determinant = 1 := by
    simp [Mat2.determinant]
  have htr : (⟨1, 0, 0, 1⟩ : Mat2 K).trace = 2 := by
    norm_num [Mat2.trace]
  have hbranch : |(2 : K) * 2 * (1 / 1 * (1 / 1)) * (1 / 1 * (1 / 1)) - 4 * (1 / 1 * (1 / 1))| <
      N.TOL := by
    norm_num
    exact hTOL
  constructor
  · show (Ellipse.get_axes_from_mat_ N c ⟨1, 0, 0, 1⟩).1 = _
    unfold Ellipse.get_axes_from_mat_
    simp only []
    rw [hdet, htr, h1]
    simp only [if_pos hbranch, max_self]
    norm_num
  · show (Ellipse.get_axes_from_mat_ N c ⟨1, 0, 0, 1⟩).2.1 = _
    unfold Ellipse.get_axes_from_mat_
    simp only []
    rw [hdet, htr, h1]
    simp only [if_pos hbranch, min_self]
    norm_num

/-- The failing input of C17, over any exact numeric context: the unit circle
built by `Ellipse(center, D)` with `D` the identity has, after `normalize()`,
determinant one but `area() = PI / 2`. -/
theorem Ellipse.normalize_circle (N : Numeric K) (c : Vec2 K) (hTOL : 0 < N.TOL)
    (h1 : N.sqrt 1 = 1) (h2 : N.sqrt 2 * N.sqrt 2 = 2) :
    ((Ellipse.ofMatrix N c ⟨1, 0, 0, 1⟩).normalize N).1 = 1 ∧
    ((Ellipse.ofMatrix N c ⟨1, 0, 0, 1⟩).normalize N).2.D.determinant = 1 ∧
    ((Ellipse.ofMatrix N c ⟨1, 0, 0, 1⟩).normalize N).2.area N = N.PI / 2 := by
  have hD : (Ellipse.ofMatrix N c ⟨1, 0, 0, 1⟩).D = ⟨1, 0, 0, 1⟩ := rfl
  have hdet : (Ellipse.ofMatrix N c ⟨1, 0, 0, 1⟩).D.determinant = 1 := by
    rw [hD]
    simp [Mat2.determinant]
  have hsq1 : N.IsSqrtAt (Ellipse.ofMatrix N c ⟨1, 0, 0, 1⟩).D.determinant := by
    rw [hdet]
    exact ⟨by rw [h1]; exact zero_le_one, by rw [h1, mul_one]⟩
  have hsq2 : N.IsSqrtAt (N.sqrt (Ellipse.ofMatrix N c ⟨1, 0, 0, 1⟩).D.determinant) := by
    rw [hdet, h1]
    exact ⟨by rw [h1]; exact zero_le_one, by rw [h1, mul_one]⟩
  obtain ⟨_, _, f3, f4⟩ := Ellipse.normalize_facts N (Ellipse.ofMatrix N c ⟨1, 0, 0, 1⟩)
    (by rw [hdet]; exact zero_lt_one) hsq1 hsq2
  obtain ⟨a1, a2⟩ := Ellipse.ofMatrix_identity_axes N c hTOL h1
  refine ⟨?_, f3, ?_⟩
  · show N.sqrt (N.sqrt (Ellipse.ofMatrix N c ⟨1, 0, 0, 1⟩).D.determinant) = 1
    rw [hdet, h1, h1]
  · rw [f4, a1, a2, hdet, h1]
    have : N.PI * (N.sqrt 2 / 2 * (N.sqrt 2 / 2)) * 1 = N.PI * (N.sqrt 2 * N.sqrt 2) / 4 := by
      ring
    rw [this, h2]
    ring

/-- C17, at its failing input. Over the reals, with the real square root and
`PI = π`, the unit circle built by the constructor `Ellipse(center, D)` from the
identity form has, after `normalize()`, determinant one and `area() = π / 2`,
which is not `π`. -/
theorem Ellipse.normalize_circle_area :
    ((Ellipse.ofMatrix
      (Numeric.init Real.sqrt Real.cos Real.sin (fun x => Real.log x / Real.log 10) Real.log
        Real.pi (1 + Real.sqrt 2) 10) ⟨0, 0⟩ ⟨1, 0, 0, 1⟩).normalize
      (Numeric.init Real.sqrt Real.cos Real.sin (fun x => Real.log x / Real.log 10) Real.log
        Real.pi (1 + Real.sqrt 2) 10)).2.area
      (Numeric.init Real.sqrt Real.cos Real.sin (fun x => Real.log x / Real.log 10) Real.log
        Real.pi (1 + Real.sqrt 2) 10) = Real.pi / 2 ∧
    Real.pi / 2 ≠ Real.pi := by
  constructor
  · exact (Ellipse.normalize_circle
      (Numeric.init Real.sqrt Real.cos Real.sin (fun x => Real.log x / Real.log 10) Real.log
        Real.pi (1 + Real.sqrt 2) 10) ⟨0, 0⟩
      (by
        show (0 : ℝ) < (10 : ℝ) ^ (-(4 * (10 : Int) + 19) + 2)
        positivity)
      Real.sqrt_one (Real.mul_self_sqrt (by norm_num))).2.2
  · have := Real.pi_pos
    linarith

theorem Ellipse.applyMat_center (N : Numeric K) (M : Mat2 K) (A : Ellipse K) :
    (Ellipse.applyMat N M A).center = M.inverse.mulVec A.center := rfl

theorem Ellipse.applyMat_D (N : Numeric K) (M : Mat2 K) (A : Ellipse K) :
    (Ellipse.applyMat N M A).D = (M.transpose.mul A.D).mul M := rfl

theorem Mat2.determinant_mul (A B : Mat2 K) :
    (A.mul B).determinant = A.determinant * B.determinant := by
  unfold Mat2.mul Mat2.determinant
  ring

theorem Mat2.inverse_determinant (G : Mat2 K) (hG : G.determinant ≠ 0) :
    G.inverse.determinant = 1 / G.determinant := by
  unfold Mat2.inverse
  rw [Mat2.determinant_smul]
  have : (⟨G.m11, -G.m01, -G.m10, G.m00⟩ : Mat2 K).determinant = G.determinant := by
    unfold Mat2.determinant
    ring
  rw [this]
  field_simp

theorem Mat2.inverse_inverse (G : Mat2 K) (hG : G.determinant ≠ 0) :
    G.inverse.inverse = G := by
  have hd := Mat2.inverse_determinant G hG
  apply Mat2.ext_of_entries
  · show 1 / G.inverse.determinant * (1 / G.determinant * G.m00) = G.m00
    rw [hd]
    field_simp
  · show 1 / G.inverse.determinant * (-(1 / G.determinant * -G.m01)) = G.m01
    rw [hd]
    field_simp
  · show 1 / G.inverse.determinant * (-(1 / G.determinant * -G.m10)) = G.m10
    rw [hd]
    field_simp
  · show 1 / G.inverse.determinant * (1 / G.determinant * G.m11) = G.m11
    rw [hd]
    field_simp

theorem Mat2.mulVec_inverse_mulVec (G : Mat2 K) (hG : G.determinant ≠ 0) (v : Vec2 K) :
    G.mulVec (G.inverse.mulVec v) = v := by
  have ht : 1 / G.determinant * G.determinant = 1 := one_div_mul_cancel hG
  apply Vec2.ext_of_coords
  · show G.m00 * (1 / G.determinant * G.m11 * v.x + 1 / G.determinant * -G.m01 * v.y) +
      G.m01 * (1 / G.determinant * -G.m10 * v.x + 1 / G.determinant * G.m00 * v.y) = v.x
    generalize 1 / G.determinant = t at ht
    unfold Mat2.determinant at ht
    linear_combination v.x * ht
  · show G.m10 * (1 / G.determinant * G.m11 * v.x + 1 / G.determinant * -G.m01 * v.y) +
      G.m11 * (1 / G.determinant * -G.m10 * v.x + 1 / G.determinant * G.m00 * v.y) = v.y
    generalize 1 / G.determinant = t at ht
    unfold Mat2.determinant at ht
    linear_combination v.y * ht

/-- Pulling a form back by `G` and then by `G⁻¹` gives the form back. -/
theorem Mat2.pullback_inverse (G D : Mat2 K) (hG : G.determinant ≠ 0) :
    (G.inverse.transpose.mul ((G.transpose.mul D).mul G)).mul G.inverse = D := by
  have ht : 1 / G.determinant * G.determinant = 1 := one_div_mul_cancel hG
  apply Mat2.ext_of_entries
  · simp only [Mat2.inverse, Mat2.smul, Mat2.mul, Mat2.transpose]
    generalize 1 / G.determinant = t at ht
    unfold Mat2.determinant at ht
    linear_combination (D.m00 * (t * (G.m00 * G.m11 - G.m01 * G.m10) + 1)) * ht
  · simp only [Mat2.inverse, Mat2.smul, Mat2.mul, Mat2.transpose]
    generalize 1 / G.determinant = t at ht
    unfold Mat2.determinant at ht
    linear_combination (D.m01 * (t * (G.m00 * G.m11 - G.m01 * G.m10) + 1)) * ht
  · simp only [Mat2.inverse, Mat2.smul, Mat2.mul, Mat2.transpose]
    generalize 1 / G.determinant = t at ht
    unfold Mat2.determinant at ht
    linear_combination (D.m10 * (t * (G.m00 * G.m11 - G.m01 * G.m10) + 1)) * ht
  · simp only [Mat2.inverse, Mat2.smul, Mat2.mul, Mat2.transpose]
    generalize 1 / G.determinant = t at ht
    unfold Mat2.determinant at ht
    linear_combination (D.m11 * (t * (G.m00 * G.m11 - G.m01 * G.m10) + 1)) * ht

/-- The inverse of a product is the product of the inverses in the reverse
order. -/
theorem Mat2.inverse_mul (A B : Mat2 K) :
    (A.mul B).inverse = B.inverse.mul A.inverse := by
  have hdet : 1 / (A.mul B).determinant = 1 / A.determinant * (1 / B.determinant) := by
    rw [Mat2.determinant_mul, one_div_mul_one_div]
  apply Mat2.ext_of_entries
  · show 1 / (A.mul B).determinant * (A.m10 * B.m01 + A.m11 * B.m11) =
      1 / B.determinant * B.m11 * (1 / A.determinant * A.m11) +
        1 / B.determinant * -B.m01 * (1 / A.determinant * -A.m10)
    rw [hdet]
    ring
  · show 1 / (A.mul B).determinant * -(A.m00 * B.m01 + A.m01 * B.m11) =
      1 / B.determinant * B.m11 * (1 / A.determinant * -A.m01) +
        1 / B.determinant * -B.m01 * (1 / A.determinant * A.m00)
    rw [hdet]
    ring
  · show 1 / (A.mul B).determinant * -(A.m10 * B.m00 + A.m11 * B.m10) =
      1 / B.determinant * -B.m10 * (1 / A.determinant * A.m11) +
        1 / B.determinant * B.m00 * (1 / A.determinant * -A.m10)
    rw [hdet]
    ring
  · show 1 / (A.mul B).determinant * (A.m00 * B.m00 + A.m01 * B.m10) =
      1 / B.determinant * -B.m10 * (1 / A.determinant * -A.m01) +
        1 / B.determinant * B.m00 * (1 / A.determinant * A.m00)
    rw [hdet]
    ring

theorem Mat2.mul_mulVec (A B : Mat2 K) (v : Vec2 K) :
    (A.mul B).mulVec v = A.mulVec (B.mulVec v) := by
  apply Vec2.ext_of_coords
  · simp only [Mat2.mul, Mat2.mulVec]
    ring
  · simp only [Mat2.mul, Mat2.mulVec]
    ring

/-- C18. Grid operator round trip: for every invertible 2×2 matrix `G` and
every ellipse `E`, applying `G` and then `G⁻¹` with `operator*` yields an
ellipse with exactly the original quadratic form `D` and the original centre. -/
theorem Ellipse.applyMat_inverse (N : Numeric K) (G : Mat2 K) (E : Ellipse K)
    (hG : G.determinant ≠ 0) :
    (Ellipse.applyMat N G.inverse (Ellipse.applyMat N G E)).SameShape E := by
  constructor
  · rw [Ellipse.applyMat_center, Ellipse.applyMat_center, Mat2.inverse_inverse G hG]
    exact Mat2.mulVec_inverse_mulVec G hG E.center
  · rw [Ellipse.applyMat_D, Ellipse.applyMat_D]
    exact Mat2.pullback_inverse G E.D hG

/-- Witness of C18: the shear with rows `(1, 1)`, `(0, 1)` applied to the tilted
ellipse `sampleEllipse` over `ℚ`, and then its inverse. -/
theorem Ellipse.applyMat_inverse_witness :
    (⟨1, 1, 0, 1⟩ : Mat2 ℚ).determinant ≠ 0 ∧
    (Ellipse.applyMat rationalNumeric (⟨1, 1, 0, 1⟩ : Mat2 ℚ).inverse
      (Ellipse.applyMat rationalNumeric ⟨1, 1, 0, 1⟩ sampleEllipse)).SameShape sampleEllipse :=
  ⟨by norm_num [Mat2.determinant],
    Ellipse.applyMat_inverse rationalNumeric ⟨1, 1, 0, 1⟩ sampleEllipse
      (by norm_num [Mat2.determinant])⟩

/-- Counterexample to C19: for the two shears with rows `(1, 1)`, `(0, 1)` and
`(1, 0)`, `(1, 1)` and the tilted ellipse `sampleEllipse` over `ℚ`, the ellipse
`(G1 G2) * E` does not have the quadratic form of `G1 * (G2 * E)`. -/
theorem Ellipse.applyMat_not_associative :
    ¬ (Ellipse.applyMat rationalNumeric ((⟨1, 1, 0, 1⟩ : Mat2 ℚ).mul ⟨1, 0, 1, 1⟩)
        sampleEllipse).SameShape
      (Ellipse.applyMat rationalNumeric ⟨1, 1, 0, 1⟩
        (Ellipse.applyMat rationalNumeric ⟨1, 0, 1, 1⟩ sampleEllipse)) := by
  intro h
  have h00 := congrArg Mat2.m00 h.2
  rw [Ellipse.applyMat_D, Ellipse.applyMat_D, Ellipse.applyMat_D] at h00
  norm_num [Mat2.mul, Mat2.transpose, sampleEllipse] at h00

/-- C19, as amended. Applying grid operators to an ellipse composes in the
reverse order: for all invertible 2×2 matrices `G1`, `G2` and every ellipse `E`,
`(G1 G2) * E` has the same centre and quadratic form as `G2 * (G1 * E)`.
Invertibility is what gives `inverse()` its meaning in the code; the identity
between the entries does not draw on it. -/
theorem Ellipse.applyMat_mul (N : Numeric K) (G1 G2 : Mat2 K) (E : Ellipse K)
    (_h1 : G1.determinant ≠ 0) (_h2 : G2.determinant ≠ 0) :
    (Ellipse.applyMat N (G1.mul G2) E).SameShape
      (Ellipse.applyMat N G2 (Ellipse.applyMat N G1 E)) := by
  constructor
  · rw [Ellipse.applyMat_center, Ellipse.applyMat_center, Ellipse.applyMat_center,
      Mat2.inverse_mul G1 G2, Mat2.mul_mulVec]
  · rw [Ellipse.applyMat_D, Ellipse.applyMat_D, Ellipse.applyMat_D]
    apply Mat2.ext_of_entries
    · simp only [Mat2.mul, Mat2.transpose]
      ring
    · simp only [Mat2.mul, Mat2.transpose]
      ring
    · simp only [Mat2.mul, Mat2.transpose]
      ring
    · simp only [Mat2.mul, Mat2.transpose]
      ring

/-- Witness of the amended C19: the two shears and the tilted ellipse
`sampleEllipse` over `ℚ`. -/
theorem Ellipse.applyMat_mul_witness :
    (⟨1, 1, 0, 1⟩ : Mat2 ℚ).determinant ≠ 0 ∧ (⟨1, 0, 1, 1⟩ : Mat2 ℚ).determinant ≠ 0 ∧
    (Ellipse.applyMat rationalNumeric ((⟨1, 1, 0, 1⟩ : Mat2 ℚ).mul ⟨1, 0, 1, 1⟩)
        sampleEllipse).SameShape
      (Ellipse.applyMat rationalNumeric ⟨1, 0, 1, 1⟩
        (Ellipse.applyMat rationalNumeric ⟨1, 1, 0, 1⟩ sampleEllipse)) :=
  ⟨by norm_num [Mat2.determinant], by norm_num [Mat2.determinant],
    Ellipse.applyMat_mul rationalNumeric ⟨1, 1, 0, 1⟩ ⟨1, 0, 1, 1⟩ sampleEllipse
      (by norm_num [Mat2.determinant]) (by norm_num [Mat2.determinant])⟩

/-! ### The stored area of a rectangle -/

/-- Both constructors of `UprightRectangle` and `shift` keep
`area() = x_interval().width() * y_interval().width()`. -/
theorem UprightRectangle.area_consistent_kept (xlo xhi ylo yhi dx dy : K)
    (x_interval y_interval : Interval K) (R : UprightRectangle K) :
    (UprightRectangle.ofIntervals x_interval y_interval).AreaConsistent ∧
    (∀ R0 : UprightRectangle K, UprightRectangle.make xlo xhi ylo yhi = .ok R0 →
      R0.AreaConsistent) ∧
    (R.AreaConsistent → (R.shift dx dy).AreaConsistent) := by
  refine ⟨rfl, ?_, fun h => h⟩
  intro R0 h
  unfold UprightRectangle.make at h
  rcases h1 : Interval.make xlo xhi with e | I1
  · rw [h1] at h
    cases h
  · rcases h2 : Interval.make ylo yhi with e | I2
    · rw [h1, h2] at h
      cases h
    · rw [h1, h2] at h
      cases h
      rfl

/-- C20, at its failing input. The unit square over `ℚ` is built with
`area() = 1 = width · width`; after `rescale(2, 2)` both widths are `2` while
`area()` still returns `1`, so `area()` no longer equals the product of the
widths. -/
theorem UprightRectangle.rescale_area_stale :
    ∃ R : UprightRectangle ℚ, UprightRectangle.make 0 1 0 1 = .ok R ∧ R.AreaConsistent ∧
      (R.rescale 2 2).area = 1 ∧
      (R.rescale 2 2).x_interval.width * (R.rescale 2 2).y_interval.width = 4 ∧
      ¬ (R.rescale 2 2).AreaConsistent := by
  refine ⟨⟨⟨0, 1, 1 - 0⟩, ⟨0, 1, 1 - 0⟩, (1 - 0) * (1 - 0)⟩, ?_, ?_, ?_, ?_, ?_⟩
  · unfold UprightRectangle.make
    rw [Interval.make_ok (by norm_num)]
    rfl
  · rfl
  · norm_num [UprightRectangle.rescale]
  · norm_num [UprightRectangle.rescale, Interval.rescale]
  · norm_num [UprightRectangle.AreaConsistent, UprightRectangle.rescale, Interval.rescale]

end RegionOperationTheorems

section IntervalOperatorTheorems

set_option linter.unusedSectionVars false

variable {K : Type} [LinearOrderedField K]

/-- C28, at its failing input. For the interval `[1, 3]` over `ℚ` and the
factor `-2`, `I * s` is `[-6, -2]` of width `4`, while `I *= s` leaves
`lo = -6`, `hi = 12` and the old width `2`; for the factor `2` the bounds agree
but the width stays `2` where `I * s` has `4`. -/
theorem Interval.mul_assign_differs :
    Interval.mul (⟨1, 3, 2⟩ : Interval ℚ) (-2) = .ok ⟨-6, -2, 4⟩ ∧
    Interval.mul_assign (⟨1, 3, 2⟩ : Interval ℚ) (-2) = ⟨-6, 12, 2⟩ ∧
    Interval.mul (⟨1, 3, 2⟩ : Interval ℚ) 2 = .ok ⟨2, 6, 4⟩ ∧
    Interval.mul_assign (⟨1, 3, 2⟩ : Interval ℚ) 2 = ⟨2, 6, 2⟩ := by
  refine ⟨?_, ?_, ?_, ?_⟩
  · norm_num [Interval.mul, Interval.make]
  · norm_num [Interval.mul_assign]
  · norm_num [Interval.mul, Interval.make]
  · norm_num [Interval.mul_assign]

/-- C29, at its failing input. For the interval `[1, 3]` over `ℚ` and the
factor `2`, `I / s` is `[1/2, 3/2]`, while `I /= s` leaves `lo = 2`, `hi = 6`;
for the factor `-2`, `I / s` is `[-3/2, -1/2]`, while `I /= s` leaves
`lo = 12`, `hi = -24`. -/
theorem Interval.div_assign_differs :
    Interval.div (⟨1, 3, 2⟩ : Interval ℚ) 2 = .ok ⟨1 / 2, 3 / 2, 1⟩ ∧
    Interval.div_assign (⟨1, 3, 2⟩ : Interval ℚ) 2 = ⟨2, 6, 2⟩ ∧
    Interval.div (⟨1, 3, 2⟩ : Interval ℚ) (-2) = .ok ⟨-(3 / 2), -(1 / 2), 1⟩ ∧
    Interval.div_assign (⟨1, 3, 2⟩ : Interval ℚ) (-2) = ⟨12, -24, 2⟩ := by
  refine ⟨?_, ?_, ?_, ?_⟩
  · norm_num [Interval.div, Interval.make]
  · norm_num [Interval.div_assign]
  · norm_num [Interval.div, Interval.make]
  · norm_num [Interval.div_assign]

end IntervalOperatorTheorems

section EllipseAxesTheorems

set_option linter.unusedSectionVars false

variable {K : Type} [LinearOrderedField K]

/-- C21, at its failing input. Over the reals, with the real square root and
`PI = π`, the ellipse built by `Ellipse(center, D)` from the identity form,
whose two eigenvalues are `1` and whose semi-axes are `1`, stores `√2/2` for
both axes: their product is `1/2` where `1/sqrt(det D)` is `1`, and `area()` is
`π/2` where `π/sqrt(det D)` is `π`. -/
theorem Ellipse.ofMatrix_circle_axes :
    (Ellipse.ofMatrix
      (Numeric.init Real.sqrt Real.cos Real.sin (fun x => Real.log x / Real.log 10) Real.log
        Real.pi (1 + Real.sqrt 2) 10) ⟨0, 0⟩ ⟨1, 0, 0, 1⟩).semi_major_axis = Real.sqrt 2 / 2 ∧
    (Ellipse.ofMatrix
      (Numeric.init Real.sqrt Real.cos Real.sin (fun x => Real.log x / Real.log 10) Real.log
        Real.pi (1 + Real.sqrt 2) 10) ⟨0, 0⟩ ⟨1, 0, 0, 1⟩).semi_minor_axis = Real.sqrt 2 / 2 ∧
    Real.sqrt 2 / 2 * (Real.sqrt 2 / 2) = 1 / 2 ∧
    1 / Real.sqrt (⟨1, 0, 0, 1⟩ : Mat2 ℝ).determinant = 1 ∧
    (Ellipse.ofMatrix
      (Numeric.init Real.sqrt Real.cos Real.sin (fun x => Real.log x / Real.log 10) Real.log
        Real.pi (1 + Real.sqrt 2) 10) ⟨0, 0⟩ ⟨1, 0, 0, 1⟩).area
      (Numeric.init Real.sqrt Real.cos Real.sin (fun x => Real.log x / Real.log 10) Real.log
        Real.pi (1 + Real.sqrt 2) 10) = Real.pi / 2 := by
  have hs2 : Real.sqrt 2 * Real.sqrt 2 = 2 := Real.mul_self_sqrt (by norm_num)
  obtain ⟨a1, a2⟩ := Ellipse.ofMatrix_identity_axes
    (Numeric.init Real.sqrt Real.cos Real.sin (fun x => Real.log x / Real.log 10) Real.log
      Real.pi (1 + Real.sqrt 2) 10) (⟨0, 0⟩ : Vec2 ℝ)
    (by
      show (0 : ℝ) < (10 : ℝ) ^ (-(4 * (10 : Int) + 19) + 2)
      positivity)
    Real.sqrt_one
  refine ⟨a1, a2, ?_, ?_, ?_⟩
  · linear_combination (1 / 4 : ℝ) * hs2
  · have : (⟨1, 0, 0, 1⟩ : Mat2 ℝ).determinant = 1 := by simp [Mat2.determinant]
    rw [this, Real.sqrt_one, div_one]
  · unfold Ellipse.area
    rw [a1, a2]
    show Real.pi * (Real.sqrt 2 / 2) * (Real.sqrt 2 / 2) = Real.pi / 2
    linear_combination (Real.pi / 4) * hs2

/-- C22, at its failing input. The ellipse `Ellipse(0, 0, 2, 1, 0)` over `ℚ`
(semi-major axis `2`, semi-minor axis `1`, angle zero, `cos 0 = 1`, `sin 0 = 0`)
has the form `diag(1/semi_minor², 1/semi_major²) = diag(1, 1/4)`: the point
`(2, 0)` has the value `4` and is not contained, the points `(1, 0)` and
`(0, 2)` are on the boundary, so the axis along `x` is the semi-minor one. -/
theorem Ellipse.ofAxes_major_along_y :
    rationalNumeric.cos 0 = 1 ∧ rationalNumeric.sin 0 = 0 ∧
    (Ellipse.ofAxes rationalNumeric 0 0 2 1 0).D = ⟨1, 0, 0, 1 / 4⟩ ∧
    (Ellipse.ofAxes rationalNumeric 0 0 2 1 0).quad_form ⟨2, 0⟩ = 4 ∧
    (Ellipse.ofAxes rationalNumeric 0 0 2 1 0).contains ⟨2, 0⟩ (1 / 1000000) = false ∧
    (Ellipse.ofAxes rationalNumeric 0 0 2 1 0).quad_form ⟨1, 0⟩ = 1 ∧
    (Ellipse.ofAxes rationalNumeric 0 0 2 1 0).quad_form ⟨0, 2⟩ = 1 := by
  have hD : (Ellipse.ofAxes rationalNumeric 0 0 2 1 0).D = ⟨1, 0, 0, 1 / 4⟩ := by
    show Ellipse.get_mat_from_axes_ rationalNumeric 2 1 0 = _
    norm_num [Ellipse.get_mat_from_axes_, rationalNumeric]
  have hc : (Ellipse.ofAxes rationalNumeric 0 0 2 1 0).center = ⟨0, 0⟩ := rfl
  have hq : ∀ p : Vec2 ℚ, (Ellipse.ofAxes rationalNumeric 0 0 2 1 0).quad_form p =
      p.x * p.x + p.y * p.y / 4 := by
    intro p
    unfold Ellipse.quad_form
    rw [hD, hc]
    simp only [Mat2.quad, Vec2.sub]
    ring
  refine ⟨by norm_num [rationalNumeric], by norm_num [rationalNumeric], hD, ?_, ?_, ?_, ?_⟩
  · rw [hq]
    norm_num
  · unfold Ellipse.contains
    rw [hq]
    norm_num
  · rw [hq]
    norm_num
  · rw [hq]
    norm_num

/-- One call of `rescale` keeps the stored axes and angle consistent with the
stored form. -/
theorem Ellipse.rescale_axes_consistent (N : Numeric K) (E : Ellipse K) (s : K)
    (h : E.AxesConsistent N) : (E.rescale N s).AxesConsistent N := by
  have hu : 1 / |s| * (1 / |s|) = 1 / (s * s) := by
    rw [one_div_mul_one_div, abs_mul_abs_self]
  have h1 : 1 / (E.semi_minor_axis * |s|) = 1 / E.semi_minor_axis * (1 / |s|) :=
    (one_div_mul_one_div _ _).symm
  have h2 : 1 / (E.semi_major_axis * |s|) = 1 / E.semi_major_axis * (1 / |s|) :=
    (one_div_mul_one_div _ _).symm
  unfold Ellipse.AxesConsistent at h ⊢
  show Ellipse.get_mat_from_axes_ N (E.semi_major_axis * |s|) (E.semi_minor_axis * |s|) E.angle =
    Mat2.smul (1 / (s * s)) E.D
  rw [← h, ← hu]
  unfold Ellipse.get_mat_from_axes_ Mat2.smul
  simp only []
  rw [h1, h2]
  apply Mat2.ext_of_entries
  · simp only []
    ring
  · simp only []
    ring
  · simp only []
    ring
  · simp only []
    ring

theorem Ellipse.rescale_all_axes_consistent (N : Numeric K) (scales : List K) (E : Ellipse K)
    (h : E.AxesConsistent N) : (E.rescale_all N scales).AxesConsistent N := by
  induction scales generalizing E with
  | nil => exact h
  | cons s rest ih => exact ih _ (Ellipse.rescale_axes_consistent N E s h)

/-- Counterexample to C30: the ellipse built by `Ellipse(center, D)` over `ℚ`
from the centre `(1, 2)` and the tilted form with entries `1, 3/4, 3/4, 25/16`
stores the angle `0`; the matrix rebuilt from its axes and angle has the
off-diagonal entry `0`, not `3/4`. -/
theorem Ellipse.ofMatrix_not_axes_consistent :
    ¬ (Ellipse.ofMatrix rationalNumeric ⟨1, 2⟩ ⟨1, 3 / 4, 3 / 4, 25 / 16⟩).AxesConsistent
      rationalNumeric := by
  intro h
  have h01 := congrArg Mat2.m01 h
  have hangle : (Ellipse.ofMatrix rationalNumeric ⟨1, 2⟩ ⟨1, 3 / 4, 3 / 4, 25 / 16⟩).angle = 0 :=
    rfl
  have hD : (Ellipse.ofMatrix rationalNumeric ⟨1, 2⟩ ⟨1, 3 / 4, 3 / 4, 25 / 16⟩).D =
      ⟨1, 3 / 4, 3 / 4, 25 / 16⟩ := rfl
  rw [hangle, hD] at h01
  simp [Ellipse.get_mat_from_axes_, rationalNumeric] at h01
  norm_num at h01

/-- C30, as amended. An ellipse built by `Ellipse(x0, y0, a, b, angle)` or by
`Ellipse(angle, eps)` keeps its stored axes and tilt consistent with its
quadratic form, also after any later sequence of `rescale` calls with nonzero
factors: `get_mat_from_axes_(semi_major_axis(), semi_minor_axis(), angle())`
reproduces `D()`.  The constructor taking a centre and a matrix `D` recovers no
tilt: it stores `angle() = 0` for every `D`. -/
theorem Ellipse.axes_consistent (N : Numeric K) (x0 y0 a b angle eps : K)
    (scales : List K) (_hs : ∀ s ∈ scales, s ≠ 0) :
    (Ellipse.ofAxes N x0 y0 a b angle).AxesConsistent N ∧
    (Ellipse.ofAngle N angle eps).AxesConsistent N ∧
    ((Ellipse.ofAxes N x0 y0 a b angle).rescale_all N scales).AxesConsistent N ∧
    ((Ellipse.ofAngle N angle eps).rescale_all N scales).AxesConsistent N ∧
    (∀ (c : Vec2 K) (D : Mat2 K), (Ellipse.ofMatrix N c D).angle = 0) := by
  have h1 : (Ellipse.ofAxes N x0 y0 a b angle).AxesConsistent N := rfl
  have h2 : (Ellipse.ofAngle N angle eps).AxesConsistent N := rfl
  exact ⟨h1, h2, Ellipse.rescale_all_axes_consistent N scales _ h1,
    Ellipse.rescale_all_axes_consistent N scales _ h2, fun _ _ => rfl⟩

/-- Witness of the amended C30: the ellipse `Ellipse(0, 0, 2, 1, 0)` over `ℚ`,
rescaled by `3` and then by `-2`. -/
theorem Ellipse.axes_consistent_witness :
    (∀ s ∈ [(3 : ℚ), -2], s ≠ 0) ∧
    ((Ellipse.ofAxes rationalNumeric 0 0 2 1 0).rescale_all rationalNumeric
      [3, -2]).AxesConsistent rationalNumeric :=
  ⟨by simp,
    (Ellipse.axes_consistent rationalNumeric 0 0 2 1 0 (1 / 2) [3, -2] (by simp)).2.2.1⟩

end EllipseAxesTheorems

section ScaleFactorTheorems

set_option linter.unusedSectionVars false

variable {K : Type} [LinearOrderedField K]

/-- C23. In iteration `k ≥ 0` of both drivers the two scale factors are
`scaleA = (√2)^k` and `scaleB = (-√2)^k`: `scaleA² = 2^k`, `scaleB = scaleA` for
even `k` and `scaleB = -scaleA` for odd `k`.  `SQRT2` is an exact square root
of two. -/
theorem scale_factors_spec (N : Numeric K) (hs2 : N.SQRT2 * N.SQRT2 = 2) (k : Int)
    (hk : 0 ≤ k) :
    (scale_factors N k).1 = N.SQRT2 ^ k.toNat ∧
    (scale_factors N k).2 = (-N.SQRT2) ^ k.toNat ∧
    (scale_factors N k).1 * (scale_factors N k).1 = (2 : K) ^ k.toNat ∧
    (Even k → (scale_factors N k).2 = (scale_factors N k).1) ∧
    (Odd k → (scale_factors N k).2 = -(scale_factors N k).1) := by
  have hA : (scale_factors N k).1 = N.SQRT2 ^ k.toNat := by
    rw [scale_factors_fst N hs2 k]
    unfold gmpf_pow
    rw [← zpow_natCast, Int.toNat_of_nonneg hk]
  have heven : Even k → (scale_factors N k).2 = (scale_factors N k).1 := by
    intro he
    have h0 : Int.tmod k 2 = 0 := Int.dvd_iff_tmod_eq_zero.mp he.two_dvd
    unfold scale_factors
    rw [if_pos h0]
  have hodd : Odd k → (scale_factors N k).2 = -(scale_factors N k).1 := by
    intro ho
    have h0 : ¬ Int.tmod k 2 = 0 := by
      intro h
      have := Int.dvd_iff_tmod_eq_zero.mpr h
      exact (Int.not_even_iff_odd.mpr ho) (even_iff_two_dvd.mpr this)
    unfold scale_factors
    rw [if_neg h0]
    show -gmpf_pow 2 (Int.tdiv (k - 1) 2) * N.SQRT2 = -(gmpf_pow 2 (Int.tdiv (k - 1) 2) * N.SQRT2)
    ring
  refine ⟨hA, ?_, ?_, heven, hodd⟩
  · rcases Int.even_or_odd k with he | ho
    · rw [heven he, hA]
      have : Even k.toNat := by
        have h2 : Even ((k.toNat : Int)) := by rwa [Int.toNat_of_nonneg hk]
        exact (Int.even_coe_nat _).mp h2
      rw [this.neg_pow]
    · rw [hodd ho, hA]
      have : Odd k.toNat := by
        have h2 : Odd ((k.toNat : Int)) := by rwa [Int.toNat_of_nonneg hk]
        exact (Int.odd_coe_nat _).mp h2
      rw [this.neg_pow]
  · rw [hA, ← mul_pow, hs2]

/-- Witness of C23: over the reals, in iteration `k = 3` the scale factors are
`(√2)³` and `(-√2)³`. -/
theorem scale_factors_spec_witness :
    Real.sqrt 2 * Real.sqrt 2 = 2 ∧ (0 : Int) ≤ 3 ∧
    (scale_factors
      (Numeric.init Real.sqrt Real.cos Real.sin (fun x => Real.log x / Real.log 10) Real.log
        Real.pi (1 + Real.sqrt 2) 10) 3).1 = Real.sqrt 2 ^ (3 : Int).toNat ∧
    (scale_factors
      (Numeric.init Real.sqrt Real.cos Real.sin (fun x => Real.log x / Real.log 10) Real.log
        Real.pi (1 + Real.sqrt 2) 10) 3).2 = (-Real.sqrt 2) ^ (3 : Int).toNat :=
  ⟨Real.mul_self_sqrt (by norm_num), by norm_num,
    (scale_factors_spec
      (Numeric.init Real.sqrt Real.cos Real.sin (fun x => Real.log x / Real.log 10) Real.log
        Real.pi (1 + Real.sqrt 2) 10) (Real.mul_self_sqrt (by norm_num)) 3 (by norm_num)).1,
    (scale_factors_spec
      (Numeric.init Real.sqrt Real.cos Real.sin (fun x => Real.log x / Real.log 10) Real.log
        Real.pi (1 + Real.sqrt 2) 10) (Real.mul_self_sqrt (by norm_num)) 3 (by norm_num)).2.1⟩

end ScaleFactorTheorems

section ReductionTheorems

set_option linter.unusedSectionVars false

variable {K : Type} [LinearOrderedField K]

/-! ### Reducibility as the spec words it: division by `1 + ζ` -/

theorem ZOmega.one_plus_zeta_mul (y : ZOmega) :
    ZOmega.one_plus_zeta * y = ⟨y.a - y.d, y.a + y.b, y.b + y.c, y.c + y.d⟩ := by
  rw [ZOmega.mul_def]
  unfold ZOmega.mul ZOmega.one_plus_zeta
  ext <;> simp <;> omega

/-- An element is reducible exactly when the sum of its coefficients is even. -/
theorem ZOmega.is_reducible_iff (x : ZOmega) :
    x.is_reducible = true ↔ (x.a + x.b + x.c + x.d) % 2 = 0 := by
  unfold ZOmega.is_reducible
  rw [decide_eq_true_eq, ZOmega.one_plus_zeta_mul, ZOmega.ext_iff]
  unfold ZOmega.reduce
  simp only []
  constructor
  · rintro ⟨h1, h2, h3, h4⟩
    omega
  · intro h
    refine ⟨?_, ?_, ?_, ?_⟩ <;> omega

/-- Reducibility is divisibility by `1 + ζ`. -/
theorem ZOmega.is_reducible_iff_dvd (x : ZOmega) :
    x.is_reducible = true ↔ ∃ y : ZOmega, x = ZOmega.one_plus_zeta * y := by
  constructor
  · intro h
    unfold ZOmega.is_reducible at h
    rw [decide_eq_true_eq] at h
    exact ⟨x.reduce, h.symm⟩
  · rintro ⟨y, rfl⟩
    rw [ZOmega.is_reducible_iff, ZOmega.one_plus_zeta_mul]
    simp only []
    omega

theorem ZOmega.one_plus_zeta_mul_reduce (x : ZOmega) (h : x.is_reducible = true) :
    ZOmega.one_plus_zeta * x.reduce = x := by
  unfold ZOmega.is_reducible at h
  rwa [decide_eq_true_eq] at h

/-- The norm is multiplicative at `1 + ζ`, whose norm is two. -/
theorem ZOmega.norm_one_plus_zeta_mul (y : ZOmega) :
    (ZOmega.one_plus_zeta * y).norm = 2 * y.norm := by
  rw [ZOmega.one_plus_zeta_mul]
  unfold ZOmega.norm
  simp only []
  ring

theorem ZOmega.norm_eq_add_sq (x : ZOmega) :
    x.norm = (x.a * x.a - x.c * x.c + 2 * (x.b * x.d)) *
        (x.a * x.a - x.c * x.c + 2 * (x.b * x.d)) +
      (2 * (x.a * x.c) - x.b * x.b + x.d * x.d) * (2 * (x.a * x.c) - x.b * x.b + x.d * x.d) := by
  unfold ZOmega.norm
  ring

theorem ZOmega.norm_nonneg (x : ZOmega) : 0 ≤ x.norm := by
  rw [ZOmega.norm_eq_add_sq]
  exact add_nonneg (mul_self_nonneg _) (mul_self_nonneg _)

/-- No integer square is twice a nonzero integer square. -/
theorem eq_zero_of_sq_eq_two_mul_sq :
    ∀ (n : Nat) (S T : Int), S.natAbs = n → S * S = 2 * (T * T) → S = 0 := by
  intro n
  induction n using Nat.strong_induction_on with
  | _ n ih =>
    intro S T hn h
    by_contra hS
    have hSe : Even S := by
      have : Even (S * S) := ⟨T * T, by rw [h]; ring⟩
      rcases Int.even_mul.mp this with h1 | h1 <;> exact h1
    obtain ⟨S1, rfl⟩ := hSe
    have hT : T * T = 2 * (S1 * S1) := by
      have : 2 * (T * T) = 2 * (2 * (S1 * S1)) := by
        rw [← h]
        ring
      linarith
    have hTe : Even T := by
      have : Even (T * T) := ⟨S1 * S1, by rw [hT]; ring⟩
      rcases Int.even_mul.mp this with h1 | h1 <;> exact h1
    obtain ⟨T1, rfl⟩ := hTe
    have hS1 : S1 * S1 = 2 * (T1 * T1) := by
      have : 2 * (S1 * S1) = 2 * (2 * (T1 * T1)) := by
        rw [← hT]
        ring
      linarith
    have hlt : S1.natAbs < n := by
      rw [← hn]
      omega
    have h0 := ih S1.natAbs hlt S1 T1 rfl hS1
    rw [h0] at hS
    exact hS rfl

/-- A nonzero element of ring A has a positive norm. -/
theorem ZOmega.norm_pos (x : ZOmega) (hx : x ≠ ZOmega.ofInt 0) : 0 < x.norm := by
  rcases lt_or_eq_of_le (ZOmega.norm_nonneg x) with h | h
  · exact h
  · exfalso
    apply hx
    have hS : x.a * x.a + x.b * x.b + x.c * x.c + x.d * x.d = 0 := by
      apply eq_zero_of_sq_eq_two_mul_sq _ _
        (x.a * x.b + x.b * x.c + x.c * x.d - x.d * x.a) rfl
      unfold ZOmega.norm at h
      linarith
    have ha : x.a = 0 := by
      have := mul_self_nonneg x.a
      have := mul_self_nonneg x.b
      have := mul_self_nonneg x.c
      have := mul_self_nonneg x.d
      exact mul_self_eq_zero.mp (by linarith)
    have hb : x.b = 0 := by
      have := mul_self_nonneg x.a
      have := mul_self_nonneg x.b
      have := mul_self_nonneg x.c
      have := mul_self_nonneg x.d
      exact mul_self_eq_zero.mp (by linarith)
    have hc : x.c = 0 := by
      have := mul_self_nonneg x.a
      have := mul_self_nonneg x.b
      have := mul_self_nonneg x.c
      have := mul_self_nonneg x.d
      exact mul_self_eq_zero.mp (by linarith)
    have hd : x.d = 0 := by
      have := mul_self_nonneg x.a
      have := mul_self_nonneg x.b
      have := mul_self_nonneg x.c
      have := mul_self_nonneg x.d
      exact mul_self_eq_zero.mp (by linarith)
    unfold ZOmega.ofInt
    ext <;> assumption

/-- Reducing an element of positive norm halves the norm. -/
theorem ZOmega.norm_reduce (x : ZOmega) (h : x.is_reducible = true) :
    x.norm = 2 * x.reduce.norm := by
  rw [← ZOmega.norm_one_plus_zeta_mul, ZOmega.one_plus_zeta_mul_reduce x h]

/-! ### Termination of the reduction loop -/

/-- The loop finishes within `μ c` reductions whenever every reduction of an
element with the property `P` keeps `P` and lowers the measure `μ`. -/
theorem reduce_loop_of_measure (O : Oracles K) (μ : ZOmega → Nat) (P : ZOmega → Prop)
    (hstep : ∀ x, P x → O.is_reducible x = true → P (O.reduce x) ∧ μ (O.reduce x) < μ x) :
    ∀ (fuel : Nat) (c : ZOmega) (k : Int), P c → μ c ≤ fuel →
      ∃ (c1 : ZOmega) (k1 : Int), reduce_loop O fuel c k = .ok (c1, k1) ∧
        O.is_reducible c1 = false ∧ k1 ≤ k ∧ k - μ c ≤ k1 := by
  intro fuel
  induction fuel with
  | zero =>
    intro c k hP hle
    have hirr : O.is_reducible c = false := by
      by_contra hc
      rw [Bool.not_eq_false] at hc
      have := (hstep c hP hc).2
      omega
    refine ⟨c, k, reduce_loop_of_irreducible O 0 c k hirr, hirr, le_rfl, ?_⟩
    omega
  | succ n ih =>
    intro c k hP hle
    by_cases hc : O.is_reducible c = true
    · obtain ⟨hP1, hlt⟩ := hstep c hP hc
      obtain ⟨c1, k1, h1, h2, h3, h4⟩ := ih (O.reduce c) (k - 1) hP1 (by omega)
      refine ⟨c1, k1, ?_, h2, by omega, by omega⟩
      unfold reduce_loop
      rw [if_pos hc]
      exact h1
    · rw [Bool.not_eq_true] at hc
      refine ⟨c, k, reduce_loop_of_irreducible O (n + 1) c k hc, hc, le_rfl, ?_⟩
      omega

/-- When zero is reducible and reduces to itself, the loop started at zero
never finishes, whatever the fuel. -/
theorem reduce_loop_zero (O : Oracles K) (h1 : O.is_reducible (ZOmega.ofInt 0) = true)
    (h2 : O.reduce (ZOmega.ofInt 0) = ZOmega.ofInt 0) (fuel : Nat) (k : Int) :
    reduce_loop O fuel (ZOmega.ofInt 0) k = .error Fault.out_of_fuel := by
  induction fuel generalizing k with
  | zero =>
    unfold reduce_loop
    rw [if_pos h1]
  | succ n ih =>
    unfold reduce_loop
    rw [if_pos h1, h2]
    exact ih (k - 1)

/-- The candidate zero passes the acceptance test only when `eps² > 2`. -/
theorem accepts_zero_iff (N : Numeric K) (z : Vec2 K) (eps scaleA : K) :
    accepts N z eps scaleA (ZOmega.ofInt 0) = true ↔ 2 < eps * eps := by
  unfold accepts ZOmega.real ZOmega.imag ZOmega.ofInt
  rw [decide_eq_true_eq]
  simp only [Int.cast_zero, sub_self, zero_mul, add_zero, zero_div, zero_add]
  constructor
  · intro h
    linarith
  · intro h
    linarith

theorem ZOmega.is_reducible_zero : (ZOmega.ofInt 0).is_reducible = true := by decide

theorem ZOmega.reduce_zero : (ZOmega.ofInt 0).reduce = ZOmega.ofInt 0 := by decide

/-- Counterexample to C24: the element zero of ring A is reducible and is its
own reduction, so no number of reductions yields a non-reducible element and
the driver's loop started at zero does not finish for any fuel; zero passes the
acceptance test for `eps = 2`. -/
theorem reduce_loop_zero_diverges :
    (ZOmega.ofInt 0).is_reducible = true ∧
    (¬ ∃ n : Nat, (ZOmega.reduce^[n] (ZOmega.ofInt 0)).is_reducible = false) ∧
    (¬ ∃ (fuel : Nat) (c1 : ZOmega) (k1 : Int),
      reduce_loop (ringOracles ℚ) fuel (ZOmega.ofInt 0) 0 = .ok (c1, k1)) ∧
    accepts rationalNumeric ⟨1, 0⟩ 2 1 (ZOmega.ofInt 0) = true := by
  refine ⟨ZOmega.is_reducible_zero, ?_, ?_, ?_⟩
  · rintro ⟨n, hn⟩
    have hfix : ZOmega.reduce^[n] (ZOmega.ofInt 0) = ZOmega.ofInt 0 :=
      Function.iterate_fixed ZOmega.reduce_zero n
    rw [hfix, ZOmega.is_reducible_zero] at hn
    cases hn
  · rintro ⟨fuel, c1, k1, h⟩
    rw [reduce_loop_zero (ringOracles ℚ) ZOmega.is_reducible_zero ZOmega.reduce_zero] at h
    cases h
  · rw [accepts_zero_iff]
    norm_num

/-- C24, as amended. With reducibility and reduction as the spec words them
(divisibility and exact division by `1 + ζ`), the driver's reduction loop
finishes for every nonzero ring-A candidate `c`: given fuel for `norm(c)`
reductions it returns a non-reducible element after at most `norm(c)`
reductions.  Every candidate that passes the acceptance test with `eps² ≤ 2` is
nonzero.  The loop started at zero never finishes. -/
theorem reduce_loop_terminates (N : Numeric K) (O : Oracles K)
    (hO1 : O.is_reducible = ZOmega.is_reducible) (hO2 : O.reduce = ZOmega.reduce) :
    (∀ (c : ZOmega) (k : Int) (fuel : Nat), c ≠ ZOmega.ofInt 0 → c.norm.toNat ≤ fuel →
      ∃ (c1 : ZOmega) (k1 : Int), reduce_loop O fuel c k = .ok (c1, k1) ∧
        O.is_reducible c1 = false ∧ k1 ≤ k ∧ k - c.norm.toNat ≤ k1) ∧
    (∀ (z : Vec2 K) (eps scaleA : K) (c : ZOmega), eps * eps ≤ 2 →
      accepts N z eps scaleA c = true → c ≠ ZOmega.ofInt 0) ∧
    (∀ (fuel : Nat) (k : Int),
      reduce_loop O fuel (ZOmega.ofInt 0) k = .error Fault.out_of_fuel) := by
  refine ⟨?_, ?_, ?_⟩
  · intro c k fuel hc hfuel
    apply reduce_loop_of_measure O (fun x => x.norm.toNat) (fun x => 0 < x.norm) _ fuel c k
      (ZOmega.norm_pos c hc) hfuel
    intro x hx hred
    rw [hO1] at hred
    rw [hO2]
    have h2 := ZOmega.norm_reduce x hred
    constructor
    · show 0 < x.reduce.norm
      omega
    · show x.reduce.norm.toNat < x.norm.toNat
      omega
  · intro z eps scaleA c heps hacc hc
    rw [hc, accepts_zero_iff] at hacc
    exact absurd hacc (not_lt.mpr heps)
  · intro fuel k
    apply reduce_loop_zero O
    · rw [hO1]
      exact ZOmega.is_reducible_zero
    · rw [hO2]
      exact ZOmega.reduce_zero

/-- Witness of the amended C24: the element `2` of ring A, of norm `16`, is
reduced with fuel `16` to a non-reducible element. -/
theorem reduce_loop_terminates_witness :
    (ringOracles ℚ).is_reducible = ZOmega.is_reducible ∧
    (ringOracles ℚ).reduce = ZOmega.reduce ∧
    (⟨2, 0, 0, 0⟩ : ZOmega) ≠ ZOmega.ofInt 0 ∧
    ∃ (c1 : ZOmega) (k1 : Int),
      reduce_loop (ringOracles ℚ) 16 ⟨2, 0, 0, 0⟩ 5 = .ok (c1, k1) ∧
        (ringOracles ℚ).is_reducible c1 = false ∧ k1 ≤ 5 :=
  ⟨rfl, rfl, by decide, by
    obtain ⟨c1, k1, h1, h2, h3, _⟩ :=
      (reduce_loop_terminates rationalNumeric (ringOracles ℚ) rfl rfl).1 ⟨2, 0, 0, 0⟩ 5 16
        (by decide) (by decide)
    exact ⟨c1, k1, h1, h2, h3⟩⟩

/-- The same termination when reduction is the division by `√2` of the sample
oracles: the sum of the squares of the coefficients is halved by every
reduction, so the loop finishes for every nonzero candidate. -/
theorem sampleOracles_reduce_loop (l1 : List ZOmega) (l2 : List ZSqrt2)
    (solver : RandomState → ZSqrt2 → Option ZOmega × RandomState)
    (c : ZOmega) (k : Int) (fuel : Nat) (hc : c ≠ ZOmega.ofInt 0)
    (hfuel : c.sum_sq.toNat ≤ fuel) :
    ∃ (c1 : ZOmega) (k1 : Int),
      reduce_loop (sampleOracles K l1 l2 solver) fuel c k = .ok (c1, k1) ∧
        (sampleOracles K l1 l2 solver).is_reducible c1 = false ∧ k1 ≤ k ∧
        k - c.sum_sq.toNat ≤ k1 := by
  have hpos : ∀ x : ZOmega, x ≠ ZOmega.ofInt 0 → 0 < x.sum_sq := by
    intro x hx
    unfold ZOmega.sum_sq
    by_contra hle
    apply hx
    have h1 := mul_self_nonneg x.a
    have h2 := mul_self_nonneg x.b
    have h3 := mul_self_nonneg x.c
    have h4 := mul_self_nonneg x.d
    have ha : x.a = 0 := mul_self_eq_zero.mp (by linarith)
    have hb : x.b = 0 := mul_self_eq_zero.mp (by linarith)
    have hc : x.c = 0 := mul_self_eq_zero.mp (by linarith)
    have hd : x.d = 0 := mul_self_eq_zero.mp (by linarith)
    unfold ZOmega.ofInt
    ext <;> assumption
  apply reduce_loop_of_measure (sampleOracles K l1 l2 solver) (fun x => x.sum_sq.toNat)
    (fun x => 0 < x.sum_sq) _ fuel c k (hpos c hc) hfuel
  intro x hx hred
  change (decide ((x.a + x.c) % 2 = 0) && decide ((x.b + x.d) % 2 = 0)) = true at hred
  rw [Bool.and_eq_true, decide_eq_true_eq, decide_eq_true_eq] at hred
  obtain ⟨h1, h2⟩ := hred
  have e1 : (x.b - x.d) / 2 * 2 = x.b - x.d := by omega
  have e2 : (x.a + x.c) / 2 * 2 = x.a + x.c := by omega
  have e3 : (x.b + x.d) / 2 * 2 = x.b + x.d := by omega
  have e4 : (x.c - x.a) / 2 * 2 = x.c - x.a := by omega
  have hhalf : x.sum_sq = 2 * ((sampleOracles K l1 l2 solver).reduce x).sum_sq := by
    show x.sum_sq = 2 * (ZOmega.sum_sq ⟨(x.b - x.d) / 2, (x.a + x.c) / 2, (x.b + x.d) / 2,
      (x.c - x.a) / 2⟩)
    unfold ZOmega.sum_sq
    simp only []
    have : 2 * (x.a * x.a + x.b * x.b + x.c * x.c + x.d * x.d) =
        2 * (2 * ((x.b - x.d) / 2 * ((x.b - x.d) / 2) + (x.a + x.c) / 2 * ((x.a + x.c) / 2) +
          (x.b + x.d) / 2 * ((x.b + x.d) / 2) + (x.c - x.a) / 2 * ((x.c - x.a) / 2))) := by
      linear_combination (-((x.b - x.d) / 2 * 2 + (x.b - x.d))) * e1 +
        (-((x.a + x.c) / 2 * 2 + (x.a + x.c))) * e2 +
        (-((x.b + x.d) / 2 * 2 + (x.b + x.d))) * e3 +
        (-((x.c - x.a) / 2 * 2 + (x.c - x.a))) * e4
    linarith
  constructor
  · show 0 < ((sampleOracles K l1 l2 solver).reduce x).sum_sq
    omega
  · show ((sampleOracles K l1 l2 solver).reduce x).sum_sq.toNat < x.sum_sq.toNat
    omega

end ReductionTheorems

section ReductionValueTheorems

set_option linter.unusedSectionVars false

variable {K : Type} [LinearOrderedField K]

/-- C25. Each step of the driver's reduction loop
(`candidate ← reduce(candidate)`, `k' ← k' - 1`) leaves the represented value
`candidate / √2^k'` unchanged, hence so does the whole loop, and the `u / √2^k`
of a found record of `find_fast_rz_approximation` is the accepted candidate
divided by the `scaleA = √2^k1` of the iteration `k1` in which it was found.
Reduction is the one of the spec, which does not change the represented
value; `SQRT2` is an exact square root of two. -/
theorem reduction_keeps_value (N : Numeric K) (O : Oracles K)
    (hs2 : N.SQRT2 * N.SQRT2 = 2) (hred : O.ReducePreservesValue N) :
    (∀ (c : ZOmega) (k : Int), O.is_reducible c = true →
      (∀ fuel : Nat, reduce_loop O (fuel + 1) c k = reduce_loop O fuel (O.reduce c) (k - 1)) ∧
      (O.reduce c).real N / gmpf_pow N.SQRT2 (k - 1) = c.real N / gmpf_pow N.SQRT2 k ∧
      (O.reduce c).imag N / gmpf_pow N.SQRT2 (k - 1) = c.imag N / gmpf_pow N.SQRT2 k) ∧
    (∀ (fuel : Nat) (c : ZOmega) (k : Int) (c1 : ZOmega) (k1 : Int),
      reduce_loop O fuel c k = .ok (c1, k1) →
      c1.real N / gmpf_pow N.SQRT2 k1 = c.real N / gmpf_pow N.SQRT2 k ∧
      c1.imag N / gmpf_pow N.SQRT2 k1 = c.imag N / gmpf_pow N.SQRT2 k) ∧
    (∀ (fuel : Nat) (g : RandomState) (theta eps : K) (kmin kmax : Int) (tol : K)
      (r : RzApproximation K),
      find_fast_rz_approximation N O fuel g theta eps kmin kmax tol = .ok r →
      r.solution_found = true →
      ∃ (k1 : Int) (c : ZOmega), kmin ≤ k1 ∧ k1 < kmax ∧
        accepts N ⟨N.cos theta, N.sin theta⟩ eps (scale_factors N k1).1 c = true ∧
        (scale_factors N k1).1 = gmpf_pow N.SQRT2 k1 ∧
        r.u_val.re = c.real N / (scale_factors N k1).1 ∧
        r.u_val.im = c.imag N / (scale_factors N k1).1) := by
  have hne := Numeric.SQRT2_ne_zero N hs2
  have hstep : ∀ (x y : K) (j : Int), y * N.SQRT2 = x →
      y / gmpf_pow N.SQRT2 (j - 1) = x / gmpf_pow N.SQRT2 j := by
    intro x y j hxy
    unfold gmpf_pow
    rw [zpow_sub_one₀ hne, ← hxy]
    field_simp
  refine ⟨?_, ?_, ?_⟩
  · intro c k hc
    obtain ⟨r1, r2⟩ := hred c hc
    refine ⟨?_, hstep _ _ k r1, hstep _ _ k r2⟩
    intro fuel
    rw [reduce_loop, if_pos hc]
  · intro fuel c k c1 k1 h
    exact reduce_loop_value N O hs2 hred fuel c k c1 k1 h
  · intro fuel g theta eps kmin kmax tol r h hfound
    unfold find_fast_rz_approximation at h
    simp only [] at h
    split at h
    · cases h
    split at h
    · cases h
    rcases fast_loop_result N O fuel _ _ theta eps tol _ _ _ _ _ g r h with h1 |
      ⟨k1, g0, g1, c, hk1, hk2, htry⟩
    · rw [h1, RzApproximation.empty_not_found] at hfound
      cases hfound
    obtain ⟨hacc, reduced, temp_k, answer, hredl, _, rfl⟩ :=
      try_candidate_found N O fuel _ theta eps _ k1 g0 g1 c _ htry
    obtain ⟨hv1, hv2⟩ := reduce_loop_value N O hs2 hred fuel c k1 reduced temp_k hredl
    refine ⟨k1, c, hk1, hk2, hacc, scale_factors_fst N hs2 k1, ?_, ?_⟩
    · rw [scale_factors_fst N hs2 k1, ← hv1]
      rfl
    · rw [scale_factors_fst N hs2 k1, ← hv2]
      rfl

/-- Witness of C25: over the reals, with reduction the division by `√2` of the
sample oracles, the candidate `1 + i` at `k' = 0` and its reduction at
`k' = -1` represent the same value. -/
theorem reduction_keeps_value_witness :
    Real.sqrt 2 * Real.sqrt 2 = 2 ∧
    (witnessOracles ℝ).ReducePreservesValue
      (Numeric.init Real.sqrt Real.cos Real.sin (fun x => Real.log x / Real.log 10) Real.log
        Real.pi (1 + Real.sqrt 2) 10) ∧
    ((witnessOracles ℝ).reduce ⟨1, 0, 1, 0⟩).real
        (Numeric.init Real.sqrt Real.cos Real.sin (fun x => Real.log x / Real.log 10) Real.log
          Real.pi (1 + Real.sqrt 2) 10) / gmpf_pow (Real.sqrt 2) (0 - 1) =
      (⟨1, 0, 1, 0⟩ : ZOmega).real
        (Numeric.init Real.sqrt Real.cos Real.sin (fun x => Real.log x / Real.log 10) Real.log
          Real.pi (1 + Real.sqrt 2) 10) / gmpf_pow (Real.sqrt 2) 0 := by
  have hs2 : Real.sqrt 2 * Real.sqrt 2 = 2 := Real.mul_self_sqrt (by norm_num)
  have hred : (witnessOracles ℝ).ReducePreservesValue
      (Numeric.init Real.sqrt Real.cos Real.sin (fun x => Real.log x / Real.log 10) Real.log
        Real.pi (1 + Real.sqrt 2) 10) :=
    sampleOracles_reduce_value _ _ _ _ hs2 (by
      show 1 / Real.sqrt 2 * Real.sqrt 2 = 1
      have hne : Real.sqrt 2 ≠ 0 := by
        intro h0
        rw [h0] at hs2
        norm_num at hs2
      field_simp)
  exact ⟨hs2, hred,
    ((reduction_keeps_value
      (Numeric.init Real.sqrt Real.cos Real.sin (fun x => Real.log x / Real.log 10) Real.log
        Real.pi (1 + Real.sqrt 2) 10) (witnessOracles ℝ) hs2 hred).1 ⟨1, 0, 1, 0⟩ 0
      (by decide)).2.1⟩

/-- Division by `1 + ζ`, the reduction as the spec words it, does not have the
property of C25: over the reals the element `1 + ζ` has the value `1 + 1/√2`,
its reduction `1` times `√2` has the value `√2`. -/
theorem ringOracles_not_value_preserving :
    ¬ (ringOracles ℝ).ReducePreservesValue
      (Numeric.init Real.sqrt Real.cos Real.sin (fun x => Real.log x / Real.log 10) Real.log
        Real.pi (1 + Real.sqrt 2) 10) := by
  intro h
  have hs2 : Real.sqrt 2 * Real.sqrt 2 = 2 := Real.mul_self_sqrt (by norm_num)
  have hne : Real.sqrt 2 ≠ 0 := by
    intro h0
    rw [h0] at hs2
    norm_num at hs2
  have h1 := (h ⟨1, 1, 0, 0⟩ (by decide)).1
  have hred : (ringOracles ℝ).reduce ⟨1, 1, 0, 0⟩ = ⟨1, 0, 0, 0⟩ := by decide
  rw [hred] at h1
  have h2 : (1 : ℝ) * Real.sqrt 2 = 1 + 1 * (1 / Real.sqrt 2) := by
    simpa [ZOmega.real, Numeric.init] using h1
  have h3 : Real.sqrt 2 = 1 := by
    field_simp at h2
    nlinarith
  rw [h3] at hs2
  norm_num at hs2

end ReductionValueTheorems

section UprightnessTheorems

set_option linter.unusedSectionVars false

variable {K : Type} [LinearOrderedField K]

/-- The algebra behind the ratio of the areas: with `u² = d/(ab)`, `s² = d`,
`X² = b/d` and `Y² = a/d`, the product `u s X Y` is one. -/
theorem up_ratio_aux {d a b u s X Y : K} (hd : 0 < d) (ha : 0 < a) (hb : 0 < b)
    (hu2 : u * u = d / (a * b)) (hs2 : s * s = d) (hX2 : X * X = b / d) (hY2 : Y * Y = a / d)
    (hu0 : 0 ≤ u) (hs : 0 < s) (hX : 0 < X) (hY : 0 < Y) (p cx cy : K) :
    p / 4 * u = p / s / ((cx + X - (cx - X)) * (cy + Y - (cy - Y))) := by
  have hsq : (u * s * X * Y) * (u * s * X * Y) = 1 := by
    have h1 : (u * s * X * Y) * (u * s * X * Y) = (u * u) * (s * s) * (X * X) * (Y * Y) := by
      ring
    rw [h1, hu2, hs2, hX2, hY2]
    field_simp
    ring
  have hnn : 0 ≤ u * s * X * Y :=
    mul_nonneg (mul_nonneg (mul_nonneg hu0 hs.le) hX.le) hY.le
  have hone : u * s * X * Y = 1 := by
    have : (u * s * X * Y - 1) * (u * s * X * Y + 1) = 0 := by
      linear_combination hsq
    rcases mul_eq_zero.mp this with h3 | h3
    · linarith
    · linarith
  have hne : s * ((cx + X - (cx - X)) * (cy + Y - (cy - Y))) ≠ 0 := by
    have h4 : cx + X - (cx - X) = 2 * X := by ring
    have h5 : cy + Y - (cy - Y) = 2 * Y := by ring
    rw [h4, h5]
    positivity
  rw [div_div, eq_div_iff hne]
  linear_combination p * hone

/-- C31. For every ellipse with symmetric positive-definite `D`, the
uprightness `up() = (π/4)·sqrt(det D / (D00·D11))` satisfies
`0 < up() ≤ π/4`, with `up() = π/4` exactly when `D` is diagonal; and `up()` is
the ratio of the area `π/sqrt(det D)` of the ellipse to the area of
`bounding_box()`.  `PI` is positive and the square roots taken are exact. -/
theorem Ellipse.up_bounds (N : Numeric K) (E : Ellipse K) (hPI : 0 < N.PI)
    (hsym : E.D.m01 = E.D.m10) (h00 : 0 < E.D.m00) (hdet : 0 < E.D.determinant)
    (hu : N.IsSqrtAt (E.D.determinant / (E.D.m00 * E.D.m11)))
    (hX : N.IsSqrtAt (E.D.m11 / E.D.determinant))
    (hY : N.IsSqrtAt (E.D.m00 / E.D.determinant))
    (hs : N.IsSqrtAt E.D.determinant) :
    0 < E.up N ∧ E.up N ≤ N.PI / 4 ∧ (E.up N = N.PI / 4 ↔ E.D.m01 = 0) ∧
    ∃ R : UprightRectangle K, E.bounding_box N = .ok R ∧
      E.up N = (N.PI / N.sqrt E.D.determinant) / R.area := by
  have h11 := Mat2.m11_pos E.D hsym h00 hdet
  have hprod : 0 < E.D.m00 * E.D.m11 := mul_pos h00 h11
  have hdet_eq : E.D.determinant = E.D.m00 * E.D.m11 - E.D.m01 * E.D.m01 := by
    unfold Mat2.determinant
    rw [← hsym]
  have hq_pos : 0 < E.D.determinant / (E.D.m00 * E.D.m11) := div_pos hdet hprod
  have hq_le : E.D.determinant / (E.D.m00 * E.D.m11) ≤ 1 := by
    rw [div_le_one hprod, hdet_eq]
    linarith [mul_self_nonneg E.D.m01]
  obtain ⟨hu0, hu2⟩ := hu
  obtain ⟨hX0, hX2⟩ := hX
  obtain ⟨hY0, hY2⟩ := hY
  obtain ⟨hs0, hs2⟩ := hs
  have hu_pos : 0 < N.sqrt (E.D.determinant / (E.D.m00 * E.D.m11)) := by
    rcases lt_or_eq_of_le hu0 with h | h
    · exact h
    · rw [← h, mul_zero] at hu2
      exact absurd hu2.symm (ne_of_gt hq_pos)
  have hu_le : N.sqrt (E.D.determinant / (E.D.m00 * E.D.m11)) ≤ 1 := by
    by_contra hlt
    push_neg at hlt
    nlinarith
  have hquarter : 0 < N.PI / 4 := by positivity
  refine ⟨mul_pos hquarter hu_pos, ?_, ?_, ?_⟩
  · unfold Ellipse.up
    calc N.PI / 4 * N.sqrt (E.D.determinant / (E.D.m00 * E.D.m11)) ≤ N.PI / 4 * 1 :=
          mul_le_mul_of_nonneg_left hu_le hquarter.le
      _ = N.PI / 4 := mul_one _
  · unfold Ellipse.up
    constructor
    · intro h
      have h1 : N.sqrt (E.D.determinant / (E.D.m00 * E.D.m11)) = 1 := by
        have := mul_left_cancel₀ (ne_of_gt hquarter) (h.trans (mul_one _).symm)
        exact this
      rw [h1, mul_one] at hu2
      have h2 : E.D.determinant = E.D.m00 * E.D.m11 := by
        have := hu2.symm
        rw [div_eq_one_iff_eq (ne_of_gt hprod)] at this
        exact this
      rw [hdet_eq] at h2
      exact mul_self_eq_zero.mp (by linarith)
    · intro h
      have h2 : E.D.determinant / (E.D.m00 * E.D.m11) = 1 := by
        rw [hdet_eq, h, mul_zero, sub_zero, div_self (ne_of_gt hprod)]
      rw [h2] at hu2 hu0 ⊢
      have h1 : N.sqrt 1 = 1 := by
        have : (N.sqrt 1 - 1) * (N.sqrt 1 + 1) = 0 := by
          linear_combination hu2
        rcases mul_eq_zero.mp this with h3 | h3
        · linarith
        · linarith
      rw [h1, mul_one]
  · refine ⟨_, Ellipse.bounding_box_eq N E hX0 hY0, ?_⟩
    have hX_pos : 0 < N.sqrt (E.D.m11 / E.D.determinant) := by
      rcases lt_or_eq_of_le hX0 with h | h
      · exact h
      · rw [← h, mul_zero] at hX2
        exact absurd hX2.symm (ne_of_gt (div_pos h11 hdet))
    have hY_pos : 0 < N.sqrt (E.D.m00 / E.D.determinant) := by
      rcases lt_or_eq_of_le hY0 with h | h
      · exact h
      · rw [← h, mul_zero] at hY2
        exact absurd hY2.symm (ne_of_gt (div_pos h00 hdet))
    have hs_pos : 0 < N.sqrt E.D.determinant := by
      rcases lt_or_eq_of_le hs0 with h | h
      · exact h
      · rw [← h, mul_zero] at hs2
        exact absurd hs2.symm (ne_of_gt hdet)
    exact up_ratio_aux hdet h00 h11 hu2 hs2 hX2 hY2 hu0 hs_pos hX_pos hY_pos _ _ _

/-- Witness of C31: the tilted ellipse `sampleEllipse` over `ℚ`, with
`det D = 1`, `D00 = 1`, `D11 = 25/16`: its uprightness is `(PI/4)·(4/5)`. -/
theorem Ellipse.up_bounds_witness :
    0 < rationalNumeric.PI ∧ sampleEllipse.D.m01 = sampleEllipse.D.m10 ∧
    0 < sampleEllipse.D.m00 ∧ 0 < sampleEllipse.D.determinant ∧
    0 < sampleEllipse.up rationalNumeric ∧
    sampleEllipse.up rationalNumeric ≤ rationalNumeric.PI / 4 := by
  have hPI : 0 < rationalNumeric.PI := by norm_num [rationalNumeric]
  have hsym : sampleEllipse.D.m01 = sampleEllipse.D.m10 := rfl
  have h00 : 0 < sampleEllipse.D.m00 := by norm_num [sampleEllipse]
  have hdet : 0 < sampleEllipse.D.determinant := by
    norm_num [sampleEllipse, Mat2.determinant]
  have hu : rationalNumeric.IsSqrtAt
      (sampleEllipse.D.determinant / (sampleEllipse.D.m00 * sampleEllipse.D.m11)) := by
    have h : sampleEllipse.D.determinant / (sampleEllipse.D.m00 * sampleEllipse.D.m11) =
        (4 / 5 : ℚ) * (4 / 5) := by
      norm_num [sampleEllipse, Mat2.determinant]
    rw [h]
    exact rationalNumeric_isSqrtAt _
  have hs : rationalNumeric.IsSqrtAt sampleEllipse.D.determinant := by
    have h : sampleEllipse.D.determinant = (1 : ℚ) * 1 := by
      norm_num [sampleEllipse, Mat2.determinant]
    rw [h]
    exact rationalNumeric_isSqrtAt _
  have h := Ellipse.up_bounds rationalNumeric sampleEllipse hPI hsym h00 hdet hu
    sampleEllipse_sqrt.1 sampleEllipse_sqrt.2 hs
  exact ⟨hPI, hsym, h00, hdet, h.1, h.2.1⟩

end UprightnessTheorems

section DotqcTheorems

/-- The ten operations whose label survives the round trip: the gates without
controls, `cx` with one control, `cz` with one control and `mcz` with any
number of controls from two on. -/
theorem label_round_trip_ok :
    label_round_trip .hadamard 0 = some [.hadamard] ∧
    label_round_trip .phase 0 = some [.phase] ∧
    label_round_trip .phase_dagger 0 = some [.phase_dagger] ∧
    label_round_trip .t 0 = some [.t] ∧
    label_round_trip .t_dagger 0 = some [.t_dagger] ∧
    label_round_trip .pauli_x 0 = some [.pauli_x] ∧
    label_round_trip .pauli_z 0 = some [.pauli_z] ∧
    label_round_trip .cx 1 = some [.cx] ∧
    label_round_trip .cz 1 = some [.cz] ∧
    (∀ n : Nat, 2 ≤ n → label_round_trip .mcz n = some [.mcz]) := by
  refine ⟨by decide, by decide, by decide, by decide, by decide, by decide, by decide,
    by decide, by decide, ?_⟩
  intro n hn
  have h : identify_gate (write_dotqc_label .mcz) = some .pauli_z := by decide
  unfold label_round_trip
  rw [h]
  show some (on_gate .pauli_z n) = _
  unfold on_gate
  simp only []
  rw [if_neg (by omega), if_pos hn]

/-- C32, at its failing inputs. For a `pauli_y` gate `write_dotqc` writes no
label (the `switch` has no case for it), and the empty label is not read back
as a gate; for an `mcx` gate it writes `tof`, which `identify_gate` reads as
`cx` and `on_gate` does not promote, whatever the number of controls. -/
theorem label_round_trip_fails :
    write_dotqc_label .pauli_y = "" ∧
    identify_gate "Y" = some .pauli_y ∧
    label_round_trip .pauli_y 0 = none ∧
    write_dotqc_label .mcx = "tof" ∧
    identify_gate "tof" = some .cx ∧
    label_round_trip .mcx 2 = some [.cx] ∧
    (∀ n : Nat, label_round_trip .mcx n = some [.cx]) ∧
    on_gate .pauli_x 2 = [.mcx] := by
  refine ⟨rfl, by decide, by decide, rfl, by decide, by decide, ?_, by decide⟩
  intro n
  have h : identify_gate (write_dotqc_label .mcx) = some .cx := by decide
  unfold label_round_trip
  rw [h]
  rfl

end DotqcTheorems

section FastSearchTheorems

set_option linter.unusedSectionVars false

variable {K : Type} [LinearOrderedField K]

/-- One turn of the loop of the fast driver: it runs the iteration at `k`,
returns the record the iteration completes, and goes on at `k + 1` with the
boxes and the generator the iteration leaves. -/
theorem fast_loop_step (N : Numeric K) (O : Oracles K) (fuel : Nat) (G : ZOmega → ZOmega)
    (z : Vec2 K) (theta eps tol : K) (max_k : Int) (n : Nat) (k : Int)
    (bboxA bboxB : UprightRectangle K) (g : RandomState) (hk : k < max_k) :
    fast_loop N O fuel G z theta eps tol max_k (n + 1) k bboxA bboxB g =
      match fast_iteration N O fuel G z theta eps tol k bboxA bboxB g with
      | .error f => .error f
      | .ok (some r, _) => .ok r
      | .ok (none, g2) =>
        fast_loop N O fuel G z theta eps tol max_k n (k + 1)
          (fast_next_boxes N k (bboxA, bboxB)).1 (fast_next_boxes N k (bboxA, bboxB)).2 g2 := by
  rw [fast_loop, if_pos hk]
  unfold fast_iteration fast_next_boxes
  simp only []
  rcases fattened_intervals
      (bboxA.rescale (scale_factors N k).1 (scale_factors N k).1)
      (bboxB.rescale (scale_factors N k).2 (scale_factors N k).2) eps with e | ⟨A_x, B_x, A_y, B_y⟩
  · rfl
  · simp only []
    rcases try_candidates N O fuel z theta eps (scale_factors N k).1 k g
        (fast_candidates G (O.oneD_optimal_grid_solver A_x B_x tol)
          (O.oneD_optimal_grid_solver A_y B_y tol) false) with e | ⟨o, g1⟩
    · rfl
    · cases o with
      | some r => rfl
      | none =>
        simp only []
        rcases shifted_intervals N A_x B_x A_y B_y with e | ⟨sA_x, sB_x, sA_y, sB_y⟩
        · rfl
        · rfl

/-- The boxes of a run that starts at `k` are, from its second iteration on,
those of the run that starts at `k + 1` with the boxes the first iteration
leaves. -/
theorem fast_boxes_shift (N : Numeric K) (k : Int)
    (bb : UprightRectangle K × UprightRectangle K) (i : Nat) :
    fast_boxes N k bb (i + 1) = fast_boxes N (k + 1) (fast_next_boxes N k bb) i := by
  induction i with
  | zero =>
    show fast_next_boxes N (k + ((0 : Nat) : Int)) bb = fast_next_boxes N k bb
    rw [Nat.cast_zero, add_zero]
  | succ i ih =>
    show fast_next_boxes N (k + ((i + 1 : Nat) : Int)) (fast_boxes N k bb (i + 1)) =
      fast_next_boxes N (k + 1 + (i : Int)) (fast_boxes N (k + 1) (fast_next_boxes N k bb) i)
    rw [ih]
    have : k + ((i + 1 : Nat) : Int) = k + 1 + (i : Int) := by
      push_cast
      ring
    rw [this]

/-- The loop returns the record of the first iteration that completes a
candidate: the iterations run in increasing order of the exponent, each from
the boxes and the generator its predecessor leaves. -/
theorem fast_loop_first_success (N : Numeric K) (O : Oracles K) (fuel : Nat)
    (G : ZOmega → ZOmega) (z : Vec2 K) (theta eps tol : K) (max_k : Int) (j : Nat) :
    ∀ (n : Nat) (k : Int) (bb : UprightRectangle K × UprightRectangle K)
      (gs : Nat → RandomState) (r : RzApproximation K),
      (max_k - k).toNat ≤ n → k + j < max_k →
      (∀ i : Nat, i < j →
        fast_iteration N O fuel G z theta eps tol (k + i) (fast_boxes N k bb i).1
          (fast_boxes N k bb i).2 (gs i) = .ok (none, gs (i + 1))) →
      fast_iteration N O fuel G z theta eps tol (k + j) (fast_boxes N k bb j).1
        (fast_boxes N k bb j).2 (gs j) = .ok (some r, gs (j + 1)) →
      fast_loop N O fuel G z theta eps tol max_k n k bb.1 bb.2 (gs 0) = .ok r := by
  induction j with
  | zero =>
    intro n k bb gs r hn hk _ hlast
    have hk0 : k < max_k := by simpa using hk
    obtain ⟨m, rfl⟩ : ∃ m : Nat, n = m + 1 := ⟨n - 1, by omega⟩
    rw [fast_loop_step N O fuel G z theta eps tol max_k m k bb.1 bb.2 (gs 0) hk0]
    have h0 : fast_iteration N O fuel G z theta eps tol k bb.1 bb.2 (gs 0) =
        .ok (some r, gs 1) := by
      have := hlast
      rw [Nat.cast_zero, add_zero] at this
      exact this
    rw [h0]
  | succ j ih =>
    intro n k bb gs r hn hk hnone hlast
    have hk0 : k < max_k := by
      have : (0 : Int) ≤ ((j + 1 : Nat) : Int) := Int.natCast_nonneg _
      omega
    obtain ⟨m, rfl⟩ : ∃ m : Nat, n = m + 1 := ⟨n - 1, by omega⟩
    rw [fast_loop_step N O fuel G z theta eps tol max_k m k bb.1 bb.2 (gs 0) hk0]
    have h0 : fast_iteration N O fuel G z theta eps tol k bb.1 bb.2 (gs 0) =
        .ok (none, gs 1) := by
      have := hnone 0 (Nat.succ_pos j)
      rw [Nat.cast_zero, add_zero] at this
      exact this
    rw [h0]
    simp only []
    have hcast : ∀ i : Nat, k + ((i + 1 : Nat) : Int) = k + 1 + (i : Int) := by
      intro i
      push_cast
      ring
    apply ih m (k + 1) (fast_next_boxes N k bb) (fun i => gs (i + 1)) r (by omega)
    · rw [← hcast]
      exact hk
    · intro i hi
      have := hnone (i + 1) (Nat.succ_lt_succ hi)
      rw [fast_boxes_shift, hcast] at this
      exact this
    · have := hlast
      rw [fast_boxes_shift, hcast] at this
      exact this

/-- The loop returns the empty record when every iteration it runs through
ends without a record. -/
theorem fast_loop_all_none (N : Numeric K) (O : Oracles K) (fuel : Nat)
    (G : ZOmega → ZOmega) (z : Vec2 K) (theta eps tol : K) (max_k : Int) (n : Nat) :
    ∀ (k : Int) (bb : UprightRectangle K × UprightRectangle K) (gs : Nat → RandomState),
      (max_k - k).toNat ≤ n →
      (∀ i : Nat, k + i < max_k →
        fast_iteration N O fuel G z theta eps tol (k + i) (fast_boxes N k bb i).1
          (fast_boxes N k bb i).2 (gs i) = .ok (none, gs (i + 1))) →
      fast_loop N O fuel G z theta eps tol max_k n k bb.1 bb.2 (gs 0) =
        .ok RzApproximation.empty := by
  induction n with
  | zero =>
    intro k bb gs hn _
    unfold fast_loop
    have : ¬ k < max_k := by omega
    rw [if_neg this]
  | succ n ih =>
    intro k bb gs hn hnone
    by_cases hk0 : k < max_k
    · rw [fast_loop_step N O fuel G z theta eps tol max_k n k bb.1 bb.2 (gs 0) hk0]
      have h0 : fast_iteration N O fuel G z theta eps tol k bb.1 bb.2 (gs 0) =
          .ok (none, gs 1) := by
        have := hnone 0 (by simpa using hk0)
        rw [Nat.cast_zero, add_zero] at this
        exact this
      rw [h0]
      simp only []
      have hcast : ∀ i : Nat, k + ((i + 1 : Nat) : Int) = k + 1 + (i : Int) := by
        intro i
        push_cast
        ring
      apply ih (k + 1) (fast_next_boxes N k bb) (fun i => gs (i + 1)) (by omega)
      intro i hi
      have := hnone (i + 1) (by rw [hcast]; exact hi)
      rw [fast_boxes_shift, hcast] at this
      exact this
    · unfold fast_loop
      rw [if_neg hk0]

/-- A record that an iteration returns was produced by the candidate body on a
candidate of one of its two passes. -/
theorem fast_iteration_found (N : Numeric K) (O : Oracles K) (fuel : Nat)
    (G : ZOmega → ZOmega) (z : Vec2 K) (theta eps tol : K) (k : Int)
    (bboxA bboxB : UprightRectangle K) (g g1 : RandomState) (r : RzApproximation K)
    (h : fast_iteration N O fuel G z theta eps tol k bboxA bboxB g = .ok (some r, g1)) :
    ∃ (A_x B_x A_y B_y : Interval K) (b : Bool) (g0 : RandomState) (c : ZOmega),
      c ∈ fast_candidates G (O.oneD_optimal_grid_solver A_x B_x tol)
        (O.oneD_optimal_grid_solver A_y B_y tol) b ∧
      try_candidate N O fuel z theta eps (scale_factors N k).1 k g0 c = .ok (some r, g1) := by
  unfold fast_iteration at h
  simp only [] at h
  split at h
  · cases h
  · rename_i A_x B_x A_y B_y _
    split at h
    · cases h
    · rename_i r1 g2 hpass
      cases h
      obtain ⟨g0, c, hc, htry⟩ := try_candidates_found N O fuel z theta eps _ k g g1 _ r hpass
      exact ⟨A_x, B_x, A_y, B_y, false, g0, c, hc, htry⟩
    · rename_i g2 hpass
      split at h
      · cases h
      · rename_i sA_x sB_x sA_y sB_y _
        obtain ⟨g0, c, hc, htry⟩ := try_candidates_found N O fuel z theta eps _ k g2 g1 _ r h
        exact ⟨sA_x, sB_x, sA_y, sB_y, true, g0, c, hc, htry⟩

/-- A rectangle returned by the constructor has two valid intervals. -/
theorem UprightRectangle.make_valid {xlo xhi ylo yhi : K} {R : UprightRectangle K}
    (h : UprightRectangle.make xlo xhi ylo yhi = .ok R) : R.Valid := by
  unfold UprightRectangle.make at h
  by_cases h1 : xlo ≤ xhi
  · by_cases h2 : ylo ≤ yhi
    · rw [Interval.make_ok h1, Interval.make_ok h2] at h
      cases h
      exact ⟨h1, h2⟩
    · have e2 : Interval.make ylo yhi = .error Fault.exit_failure := by
        unfold Interval.make
        rw [if_pos (not_le.mp h2)]
      rw [Interval.make_ok h1, e2] at h
      cases h
  · have e1 : Interval.make xlo xhi = .error Fault.exit_failure := by
      unfold Interval.make
      rw [if_pos (not_le.mp h1)]
    rw [e1] at h
    cases h

theorem Ellipse.bounding_box_valid (N : Numeric K) (E : Ellipse K) (R : UprightRectangle K)
    (h : E.bounding_box N = .ok R) : R.Valid :=
  UprightRectangle.make_valid h

theorem fast_boxes_valid (N : Numeric K) (kmin : Int)
    (bb : UprightRectangle K × UprightRectangle K) (hA : bb.1.Valid) (hB : bb.2.Valid)
    (i : Nat) : (fast_boxes N kmin bb i).1.Valid ∧ (fast_boxes N kmin bb i).2.Valid := by
  induction i with
  | zero => exact ⟨hA, hB⟩
  | succ i ih =>
    exact ⟨UprightRectangle.rescale_valid_rect _ _ _
        (UprightRectangle.rescale_valid_rect _ _ _ ih.1),
      UprightRectangle.rescale_valid_rect _ _ _
        (UprightRectangle.rescale_valid_rect _ _ _ ih.2)⟩

/-- An iteration ends without a record when the candidate body completes no
candidate of its two passes, the candidates being those of the intervals the
iteration computes from its boxes. -/
theorem fast_iteration_none (N : Numeric K) (O : Oracles K) (fuel : Nat)
    (G : ZOmega → ZOmega) (z : Vec2 K) (theta eps tol : K) (k : Int)
    (bboxA bboxB : UprightRectangle K) (hA : bboxA.Valid) (hB : bboxB.Valid) (heps : 0 ≤ eps)
    (hno : ∀ A_x B_x A_y B_y : Interval K,
      fattened_intervals (bboxA.rescale (scale_factors N k).1 (scale_factors N k).1)
        (bboxB.rescale (scale_factors N k).2 (scale_factors N k).2) eps =
        .ok (A_x, B_x, A_y, B_y) →
      (∀ (g0 : RandomState) (c : ZOmega),
        c ∈ fast_candidates G (O.oneD_optimal_grid_solver A_x B_x tol)
          (O.oneD_optimal_grid_solver A_y B_y tol) false →
        ∃ g1 : RandomState,
          try_candidate N O fuel z theta eps (scale_factors N k).1 k g0 c = .ok (none, g1)) ∧
      (∀ sA_x sB_x sA_y sB_y : Interval K,
        shifted_intervals N A_x B_x A_y B_y = .ok (sA_x, sB_x, sA_y, sB_y) →
        ∀ (g0 : RandomState) (c : ZOmega),
          c ∈ fast_candidates G (O.oneD_optimal_grid_solver sA_x sB_x tol)
            (O.oneD_optimal_grid_solver sA_y sB_y tol) true →
          ∃ g1 : RandomState,
            try_candidate N O fuel z theta eps (scale_factors N k).1 k g0 c = .ok (none, g1)))
    (g : RandomState) :
    ∃ g1 : RandomState,
      fast_iteration N O fuel G z theta eps tol k bboxA bboxB g = .ok (none, g1) := by
  have vA := UprightRectangle.rescale_valid_rect bboxA (scale_factors N k).1
    (scale_factors N k).1 hA
  have vB := UprightRectangle.rescale_valid_rect bboxB (scale_factors N k).2
    (scale_factors N k).2 hB
  obtain ⟨A_x, B_x, A_y, B_y, hfat, v1, v2, v3, v4⟩ := fattened_intervals_ok _ _ eps vA vB heps
  obtain ⟨h1, h2⟩ := hno A_x B_x A_y B_y hfat
  obtain ⟨g1, hpass1⟩ := try_candidates_none N O fuel z theta eps (scale_factors N k).1 k _ h1 g
  obtain ⟨sA_x, sB_x, sA_y, sB_y, hsh⟩ := shifted_intervals_ok N A_x B_x A_y B_y v1 v2 v3 v4
  obtain ⟨g2, hpass2⟩ := try_candidates_none N O fuel z theta eps (scale_factors N k).1 k _
    (h2 sA_x sB_x sA_y sB_y hsh) g1
  refine ⟨g2, ?_⟩
  unfold fast_iteration
  simp only []
  rw [hfat]
  simp only []
  rw [hpass1]
  simp only []
  rw [hsh]
  simp only []
  rw [hpass2]

/-- The loop returns the empty record when, at every exponent it runs through
and whatever the state of the generator, the iteration ends without a record. -/
theorem fast_loop_exhausted_boxes (N : Numeric K) (O : Oracles K) (fuel : Nat)
    (G : ZOmega → ZOmega) (z : Vec2 K) (theta eps tol : K) (max_k : Int) (n : Nat) :
    ∀ (k : Int) (bb : UprightRectangle K × UprightRectangle K) (g : RandomState),
      (max_k - k).toNat ≤ n →
      (∀ i : Nat, k + i < max_k → ∀ g0 : RandomState, ∃ g1 : RandomState,
        fast_iteration N O fuel G z theta eps tol (k + i) (fast_boxes N k bb i).1
          (fast_boxes N k bb i).2 g0 = .ok (none, g1)) →
      fast_loop N O fuel G z theta eps tol max_k n k bb.1 bb.2 g =
        .ok RzApproximation.empty := by
  induction n with
  | zero =>
    intro k bb g hn _
    unfold fast_loop
    have : ¬ k < max_k := by omega
    rw [if_neg this]
  | succ n ih =>
    intro k bb g hn hnone
    by_cases hk0 : k < max_k
    · rw [fast_loop_step N O fuel G z theta eps tol max_k n k bb.1 bb.2 g hk0]
      obtain ⟨g1, h0⟩ : ∃ g1 : RandomState,
          fast_iteration N O fuel G z theta eps tol k bb.1 bb.2 g = .ok (none, g1) := by
        obtain ⟨g1, h⟩ := hnone 0 (by simpa using hk0) g
        rw [Nat.cast_zero, add_zero] at h
        exact ⟨g1, h⟩
      rw [h0]
      simp only []
      have hcast : ∀ i : Nat, k + ((i + 1 : Nat) : Int) = k + 1 + (i : Int) := by
        intro i
        push_cast
        ring
      apply ih (k + 1) (fast_next_boxes N k bb) g1 (by omega)
      intro i hi g0
      obtain ⟨g2, h⟩ := hnone (i + 1) (by rw [hcast]; exact hi) g0
      rw [fast_boxes_shift, hcast] at h
      exact ⟨g2, h⟩
    · unfold fast_loop
      rw [if_neg hk0]

/-- C3. `find_fast_rz_approximation` tries the scale exponents
`kmin, kmin + 1, …` below `kmax` in increasing order, each iteration starting
from the bounding boxes and the generator its predecessor leaves: it returns
the record of the first iteration that completes a candidate, a record built
from the answer of a successful solver call; when no iteration completes a
candidate (the candidates being those of the intervals the driver computes) it
returns the empty record `u = 0, t = 0, k = 0` with `solution_found() = false`;
and it returns that record whenever `kmin ≥ kmax`. -/
theorem fast_search_exhaustion (N : Numeric K) (O : Oracles K) (fuel : Nat)
    (g : RandomState) (theta eps : K) (kmin kmax : Int) (tol : K)
    (bboxA bboxB : UprightRectangle K)
    (hbA : (O.optimize_skew (Ellipse.ofAngle N theta eps,
      Ellipse.ofAxes N 0 0 1 1 0)).2.1.bounding_box N = .ok bboxA)
    (hbB : (O.optimize_skew (Ellipse.ofAngle N theta eps,
      Ellipse.ofAxes N 0 0 1 1 0)).2.2.bounding_box N = .ok bboxB) :
    (kmax ≤ kmin →
      find_fast_rz_approximation N O fuel g theta eps kmin kmax tol =
        .ok RzApproximation.empty) ∧
    (∀ (j : Nat) (gs : Nat → RandomState) (r : RzApproximation K),
      gs 0 = g → kmin + j < kmax →
      (∀ i : Nat, i < j →
        fast_iteration N O fuel
          (O.optimize_skew (Ellipse.ofAngle N theta eps, Ellipse.ofAxes N 0 0 1 1 0)).1
          ⟨N.cos theta, N.sin theta⟩ theta eps tol (kmin + i)
          (fast_boxes N kmin (bboxA, bboxB) i).1 (fast_boxes N kmin (bboxA, bboxB) i).2 (gs i) =
          .ok (none, gs (i + 1))) →
      fast_iteration N O fuel
        (O.optimize_skew (Ellipse.ofAngle N theta eps, Ellipse.ofAxes N 0 0 1 1 0)).1
        ⟨N.cos theta, N.sin theta⟩ theta eps tol (kmin + j)
        (fast_boxes N kmin (bboxA, bboxB) j).1 (fast_boxes N kmin (bboxA, bboxB) j).2 (gs j) =
        .ok (some r, gs (j + 1)) →
      find_fast_rz_approximation N O fuel g theta eps kmin kmax tol = .ok r ∧
      r.solution_found = true ∧
      ∃ (g0 : RandomState) (xi : ZSqrt2),
        O.diophantine_solver g0 xi = (some r.t, gs (j + 1)) ∧ r.scale_exponent ≤ kmin + j) ∧
    (∀ gs : Nat → RandomState, gs 0 = g →
      (∀ i : Nat, kmin + i < kmax →
        fast_iteration N O fuel
          (O.optimize_skew (Ellipse.ofAngle N theta eps, Ellipse.ofAxes N 0 0 1 1 0)).1
          ⟨N.cos theta, N.sin theta⟩ theta eps tol (kmin + i)
          (fast_boxes N kmin (bboxA, bboxB) i).1 (fast_boxes N kmin (bboxA, bboxB) i).2 (gs i) =
          .ok (none, gs (i + 1))) →
      find_fast_rz_approximation N O fuel g theta eps kmin kmax tol =
        .ok RzApproximation.empty) ∧
    (0 ≤ eps →
      (∀ (i : Nat) (A_x B_x A_y B_y : Interval K), kmin + i < kmax →
        fattened_intervals
          ((fast_boxes N kmin (bboxA, bboxB) i).1.rescale (scale_factors N (kmin + i)).1
            (scale_factors N (kmin + i)).1)
          ((fast_boxes N kmin (bboxA, bboxB) i).2.rescale (scale_factors N (kmin + i)).2
            (scale_factors N (kmin + i)).2) eps = .ok (A_x, B_x, A_y, B_y) →
        (∀ (g0 : RandomState) (c : ZOmega),
          c ∈ fast_candidates
            (O.optimize_skew (Ellipse.ofAngle N theta eps, Ellipse.ofAxes N 0 0 1 1 0)).1
            (O.oneD_optimal_grid_solver A_x B_x tol)
            (O.oneD_optimal_grid_solver A_y B_y tol) false →
          ∃ g1 : RandomState,
            try_candidate N O fuel ⟨N.cos theta, N.sin theta⟩ theta eps
              (scale_factors N (kmin + i)).1 (kmin + i) g0 c = .ok (none, g1)) ∧
        (∀ sA_x sB_x sA_y sB_y : Interval K,
          shifted_intervals N A_x B_x A_y B_y = .ok (sA_x, sB_x, sA_y, sB_y) →
          ∀ (g0 : RandomState) (c : ZOmega),
            c ∈ fast_candidates
              (O.optimize_skew (Ellipse.ofAngle N theta eps, Ellipse.ofAxes N 0 0 1 1 0)).1
              (O.oneD_optimal_grid_solver sA_x sB_x tol)
              (O.oneD_optimal_grid_solver sA_y sB_y tol) true →
            ∃ g1 : RandomState,
              try_candidate N O fuel ⟨N.cos theta, N.sin theta⟩ theta eps
                (scale_factors N (kmin + i)).1 (kmin + i) g0 c = .ok (none, g1))) →
      find_fast_rz_approximation N O fuel g theta eps kmin kmax tol =
        .ok RzApproximation.empty) ∧
    (∀ r : RzApproximation K,
      find_fast_rz_approximation N O fuel g theta eps kmin kmax tol = .ok r →
      r.solution_found = true →
      ∃ (k1 : Int) (g0 g1 : RandomState) (xi : ZSqrt2), kmin ≤ k1 ∧ k1 < kmax ∧
        r.scale_exponent ≤ k1 ∧ O.diophantine_solver g0 xi = (some r.t, g1)) ∧
    ((RzApproximation.empty : RzApproximation K).u = ZOmega.ofInt 0 ∧
      (RzApproximation.empty : RzApproximation K).t = ZOmega.ofInt 0 ∧
      (RzApproximation.empty : RzApproximation K).scale_exponent = 0 ∧
      (RzApproximation.empty : RzApproximation K).solution_found = false) := by
  have vA := Ellipse.bounding_box_valid N _ bboxA hbA
  have vB := Ellipse.bounding_box_valid N _ bboxB hbB
  have hunfold : find_fast_rz_approximation N O fuel g theta eps kmin kmax tol =
      fast_loop N O fuel
        (O.optimize_skew (Ellipse.ofAngle N theta eps, Ellipse.ofAxes N 0 0 1 1 0)).1
        ⟨N.cos theta, N.sin theta⟩ theta eps tol kmax (kmax - kmin).toNat kmin bboxA bboxB g := by
    unfold find_fast_rz_approximation
    simp only []
    rw [hbA, hbB]
  refine ⟨?_, ?_, ?_, ?_, ?_, ⟨rfl, rfl, rfl, rfl⟩⟩
  · intro hk
    rw [hunfold]
    apply fast_loop_exhausted_boxes N O fuel _ _ theta eps tol kmax _ kmin (bboxA, bboxB) g
      le_rfl
    intro i hi
    have : (0 : Int) ≤ (i : Int) := Int.natCast_nonneg _
    omega
  · intro j gs r hg hj hnone hlast
    have hres : find_fast_rz_approximation N O fuel g theta eps kmin kmax tol = .ok r := by
      rw [hunfold, ← hg]
      exact fast_loop_first_success N O fuel _ _ theta eps tol kmax j _ kmin (bboxA, bboxB)
        gs r le_rfl hj hnone hlast
    obtain ⟨_, _, _, _, _, g0, c, _, htry⟩ :=
      fast_iteration_found N O fuel _ _ theta eps tol _ _ _ _ _ r hlast
    obtain ⟨_, reduced, temp_k, answer, hred, hsol, rfl⟩ :=
      try_candidate_found N O fuel _ theta eps _ _ g0 _ c r htry
    exact ⟨hres, rfl, g0, _, hsol, reduce_loop_le O fuel c _ reduced temp_k hred⟩
  · intro gs hg hnone
    rw [hunfold, ← hg]
    exact fast_loop_all_none N O fuel _ _ theta eps tol kmax _ kmin (bboxA, bboxB) gs le_rfl
      hnone
  · intro heps hno
    rw [hunfold]
    apply fast_loop_exhausted_boxes N O fuel _ _ theta eps tol kmax _ kmin (bboxA, bboxB) g
      le_rfl
    intro i hi g0
    obtain ⟨v1, v2⟩ := fast_boxes_valid N kmin (bboxA, bboxB) vA vB i
    exact fast_iteration_none N O fuel _ _ theta eps tol (kmin + i) _ _ v1 v2 heps
      (fun A_x B_x A_y B_y hfat => hno i A_x B_x A_y B_y hi hfat) g0
  · intro r h hfound
    rw [hunfold] at h
    rcases fast_loop_result N O fuel _ _ theta eps tol _ _ _ _ _ g r h with h1 |
      ⟨k1, g0, g1, c, hk1, hk2, htry⟩
    · rw [h1, RzApproximation.empty_not_found] at hfound
      cases hfound
    · obtain ⟨_, reduced, temp_k, answer, hred, hsol, rfl⟩ :=
        try_candidate_found N O fuel _ theta eps _ k1 g0 g1 c r htry
      exact ⟨k1, g0, g1, _, hk1, hk2, reduce_loop_le O fuel c k1 reduced temp_k hred, hsol⟩

/-! ### A run that succeeds in its second iteration -/

/-- With the sample oracles the candidates do not depend on the intervals: an
iteration on valid boxes runs the candidate loop on the two fixed lists. -/
theorem orderOracles_iteration (N : Numeric K) (fuel : Nat) (G : ZOmega → ZOmega) (z : Vec2 K)
    (theta eps tol : K) (k : Int) (bboxA bboxB : UprightRectangle K) (hA : bboxA.Valid)
    (hB : bboxB.Valid) (heps : 0 ≤ eps) (g : RandomState) :
    fast_iteration N (orderOracles K) fuel G z theta eps tol k bboxA bboxB g =
      match try_candidates N (orderOracles K) fuel z theta eps (scale_factors N k).1 k g
          [G ⟨1, 0, 1, 0⟩] with
      | .error f => .error f
      | .ok (some r, g1) => .ok (some r, g1)
      | .ok (none, g1) =>
        try_candidates N (orderOracles K) fuel z theta eps (scale_factors N k).1 k g1
          [G ⟨1, 1, 1, 0⟩] := by
  have vA := UprightRectangle.rescale_valid_rect bboxA (scale_factors N k).1
    (scale_factors N k).1 hA
  have vB := UprightRectangle.rescale_valid_rect bboxB (scale_factors N k).2
    (scale_factors N k).2 hB
  obtain ⟨A_x, B_x, A_y, B_y, hfat, v1, v2, v3, v4⟩ := fattened_intervals_ok _ _ eps vA vB heps
  obtain ⟨sA_x, sB_x, sA_y, sB_y, hsh⟩ := shifted_intervals_ok N A_x B_x A_y B_y v1 v2 v3 v4
  unfold fast_iteration
  simp only []
  rw [hfat]
  simp only []
  rw [hsh]
  rfl

theorem orderOracles_iteration_zero (bboxA bboxB : UprightRectangle ℚ) (hA : bboxA.Valid)
    (hB : bboxB.Valid) :
    fast_iteration rationalNumeric (orderOracles ℚ) 8 id
        ⟨rationalNumeric.cos 0, rationalNumeric.sin 0⟩ 0 1 (1 / 1000000) 0 bboxA bboxB 0 =
      .ok (none, 2) := by
  rw [orderOracles_iteration rationalNumeric 8 id _ 0 1 (1 / 1000000) 0 bboxA bboxB hA hB
    (by norm_num) 0]
  have hscale : (scale_factors rationalNumeric 0).1 = 1 := by
    simp [scale_factors, gmpf_pow]
  have hcos : rationalNumeric.cos 0 = 1 := by simp [rationalNumeric]
  have hsin : rationalNumeric.sin 0 = 0 := by simp [rationalNumeric]
  rw [hscale, hcos, hsin]
  have h1 : try_candidates rationalNumeric (orderOracles ℚ) 8 ⟨1, 0⟩ 0 1 1 0 0
      [id ⟨1, 0, 1, 0⟩] = .ok (none, 1) := by
    rw [try_candidates_cons_of_none rationalNumeric (orderOracles ℚ) 8 ⟨1, 0⟩ 0 1 1 0 0 1
      (id ⟨1, 0, 1, 0⟩) _
      (try_candidate_of_failure rationalNumeric (orderOracles ℚ) 8 ⟨1, 0⟩ 0 1 1 0 0 1
        ⟨1, 0, 1, 0⟩ ⟨0, 1, 0, 0⟩ (-1)
        (by norm_num [accepts, ZOmega.real, ZOmega.imag])
        (by rfl)
        (by rw [xi_of_neg_exponent _ _ (by norm_num)]; rfl))]
    rfl
  rw [h1]
  simp only []
  rw [try_candidates_cons_of_none rationalNumeric (orderOracles ℚ) 8 ⟨1, 0⟩ 0 1 1 0 1 2
    (id ⟨1, 1, 1, 0⟩) _
    (try_candidate_of_failure rationalNumeric (orderOracles ℚ) 8 ⟨1, 0⟩ 0 1 1 0 1 2
      ⟨1, 1, 1, 0⟩ ⟨1, 1, 1, 0⟩ 0
      (by norm_num [accepts, ZOmega.real, ZOmega.imag, rationalNumeric])
      (by rfl)
      (by rw [xi_of_zero_exponent]; rfl))]
  rfl

theorem orderOracles_iteration_one (bboxA bboxB : UprightRectangle ℚ) (hA : bboxA.Valid)
    (hB : bboxB.Valid) :
    fast_iteration rationalNumeric (orderOracles ℚ) 8 id
        ⟨rationalNumeric.cos 0, rationalNumeric.sin 0⟩ 0 1 (1 / 1000000) 1 bboxA bboxB 2 =
      .ok (some (RzApproximation.make rationalNumeric ⟨0, 1, 0, 0⟩ (ZOmega.ofInt 0) 0 0 1), 3) := by
  rw [orderOracles_iteration rationalNumeric 8 id _ 0 1 (1 / 1000000) 1 bboxA bboxB hA hB
    (by norm_num) 2]
  have hscale : (scale_factors rationalNumeric 1).1 = 99 / 70 := by
    have h2 : Int.tmod 1 2 ≠ 0 := by decide
    have h3 : Int.tdiv (1 - 1) 2 = 0 := by decide
    unfold scale_factors
    rw [if_neg h2]
    show gmpf_pow 2 (Int.tdiv (1 - 1) 2) * rationalNumeric.SQRT2 = 99 / 70
    rw [h3]
    simp [gmpf_pow, rationalNumeric]
  have hcos : rationalNumeric.cos 0 = 1 := by simp [rationalNumeric]
  have hsin : rationalNumeric.sin 0 = 0 := by simp [rationalNumeric]
  rw [hscale, hcos, hsin]
  rw [try_candidates_cons_of_some rationalNumeric (orderOracles ℚ) 8 ⟨1, 0⟩ 0 1 (99 / 70) 1 2 3
    (id ⟨1, 0, 1, 0⟩) _ _
    (try_candidate_of_success rationalNumeric (orderOracles ℚ) 8 ⟨1, 0⟩ 0 1 (99 / 70) 1 2 3
      ⟨1, 0, 1, 0⟩ ⟨0, 1, 0, 0⟩ ⟨0, 0, 0, 0⟩ 0
      (by norm_num [accepts, ZOmega.real, ZOmega.imag])
      (by rfl)
      (by rw [xi_of_zero_exponent]; rfl))]
  rfl

/-- Witness of C3: over `ℚ`, at `theta = 0`, `eps = 1`, with the bounds `0` and
`3`, the iteration at `k = 0` completes neither of its two candidates and the
iteration at `k = 1` completes the candidate `1 + i`, reduced to `ζ` with
`k = 0`: the driver returns that record.  With the bounds `5` and `5` it
returns the empty record, and so it does with the bounds `0` and `2` and a
solver that always gives up. -/
theorem fast_search_exhaustion_witness :
    find_fast_rz_approximation rationalNumeric (orderOracles ℚ) 8 0 0 1 0 3 (1 / 1000000) =
      .ok (RzApproximation.make rationalNumeric ⟨0, 1, 0, 0⟩ (ZOmega.ofInt 0) 0 0 1) ∧
    find_fast_rz_approximation rationalNumeric (orderOracles ℚ) 8 0 0 1 5 5 (1 / 1000000) =
      .ok RzApproximation.empty ∧
    find_fast_rz_approximation rationalNumeric (failingOracles ℚ) 8 0 0 (1 / 2) 0 2
      (1 / 1000000) = .ok RzApproximation.empty := by
  obtain ⟨RA, hRA, vA⟩ := Ellipse.bounding_box_ok rationalNumeric
    ((orderOracles ℚ).optimize_skew (Ellipse.ofAngle rationalNumeric 0 1,
      Ellipse.ofAxes rationalNumeric 0 0 1 1 0)).2.1 rationalNumeric_sqrt_nonneg
  obtain ⟨RB, hRB, vB⟩ := Ellipse.bounding_box_ok rationalNumeric
    ((orderOracles ℚ).optimize_skew (Ellipse.ofAngle rationalNumeric 0 1,
      Ellipse.ofAxes rationalNumeric 0 0 1 1 0)).2.2 rationalNumeric_sqrt_nonneg
  refine ⟨?_, ?_, ?_⟩
  · refine ((fast_search_exhaustion rationalNumeric (orderOracles ℚ) 8 0 0 1 0 3
      (1 / 1000000) RA RB hRA hRB).2.1 1
      (fun i => match i with
        | 0 => 0
        | 1 => 2
        | _ => 3) _ rfl (by norm_num) ?_ ?_).1
    · intro i hi
      have hi0 : i = 0 := by omega
      subst hi0
      obtain ⟨v1, v2⟩ := fast_boxes_valid rationalNumeric 0 (RA, RB) vA vB 0
      exact orderOracles_iteration_zero _ _ v1 v2
    · obtain ⟨v1, v2⟩ := fast_boxes_valid rationalNumeric 0 (RA, RB) vA vB 1
      exact orderOracles_iteration_one _ _ v1 v2
  · exact (fast_search_exhaustion rationalNumeric (orderOracles ℚ) 8 0 0 1 5 5
      (1 / 1000000) RA RB hRA hRB).1 le_rfl
  · obtain ⟨SA, hSA, _⟩ := Ellipse.bounding_box_ok rationalNumeric
      ((failingOracles ℚ).optimize_skew (Ellipse.ofAngle rationalNumeric 0 (1 / 2),
        Ellipse.ofAxes rationalNumeric 0 0 1 1 0)).2.1 rationalNumeric_sqrt_nonneg
    obtain ⟨SB, hSB, _⟩ := Ellipse.bounding_box_ok rationalNumeric
      ((failingOracles ℚ).optimize_skew (Ellipse.ofAngle rationalNumeric 0 (1 / 2),
        Ellipse.ofAxes rationalNumeric 0 0 1 1 0)).2.2 rationalNumeric_sqrt_nonneg
    apply (fast_search_exhaustion rationalNumeric (failingOracles ℚ) 8 0 0 (1 / 2) 0 2
      (1 / 1000000) SA SB hSA hSB).2.2.2.1 (by norm_num)
    intro i A_x B_x A_y B_y _ _
    constructor
    · intro g0 c hc
      rcases failingOracles_candidates ℚ _ A_x B_x A_y B_y _ false c hc with rfl | hirr | rfl
      · refine ⟨g0, try_candidate_of_rejected _ _ _ _ _ _ _ _ _ _ ?_⟩
        simp [accepts, ZOmega.real, ZOmega.imag]
        norm_num
      · exact try_candidate_of_failing_solver _ _ _ _ _ _ _ _ _ c c _ (fun _ _ => rfl)
          (reduce_loop_of_irreducible _ _ _ _ hirr)
      · exact try_candidate_of_failing_solver _ _ _ _ _ _ _ _ _ _ ⟨0, 1, 0, 0⟩ (0 + (i : Int) - 1)
          (fun _ _ => rfl) (by rfl)
    · intro sA_x sB_x sA_y sB_y _ g0 c hc
      rcases failingOracles_candidates ℚ _ sA_x sB_x sA_y sB_y _ true c hc with rfl | hirr | rfl
      · refine ⟨g0, try_candidate_of_rejected _ _ _ _ _ _ _ _ _ _ ?_⟩
        simp [accepts, ZOmega.real, ZOmega.imag]
        norm_num
      · exact try_candidate_of_failing_solver _ _ _ _ _ _ _ _ _ c c _ (fun _ _ => rfl)
          (reduce_loop_of_irreducible _ _ _ _ hirr)
      · exact try_candidate_of_failing_solver _ _ _ _ _ _ _ _ _ _ ⟨0, 1, 0, 0⟩ (0 + (i : Int) - 1)
          (fun _ _ => rfl) (by rfl)

end FastSearchTheorems

end GridSynth
